import Mathlib

/-! ChordCast acoustic data link: encoder framing and decoder state machine.

A shallow embedding of `src/encoder/encoder.c` (frame construction, repeat
escaping, tone sequence) and of the per-analysis-step logic of
`src/decoder/decoder.c` (symbol detection, adaptive threshold, debounce,
link state machine, termination and validation), together with its sample
loop (sliding window) and peak scan.  Of the earlier revision, the frequency
plan, symbol mapping, peak scan and byte-processing branch of
`src/decoder.c` and the tone frequencies of `src/encoder.c` are embedded
under names that start with `legacy`.

Conventions of the embedding:

* `float` values are exact rationals (`ℚ`); the float literals `0.95f`,
  `0.05f`, `0.7f`, `1.5f`, `2.5f`, `0.5f` are `19/20`, `1/20`, `7/10`, `3/2`,
  `5/2`, `1/2`.
* `int` variables are unbounded `Int` (signed overflow is undefined in C and
  is not modelled); `uint32_t` and `uint8_t` values are `Nat` with an explicit
  `% 2 ^ 32` / `% 256` wherever the C code can wrap.
* The process-wide variables and the function-local `static` variables of the
  decoder loop are fields of `DecoderState`; the configuration that is only
  read by the loop is `DecoderConfig`.
* Console output (and the `uiThrottle` counter that only paces it) is not
  modelled.  Writes into the receive buffer and the outcome of the validation
  at termination are reported as `Event`s; whether `fopen` succeeds is left to
  the file sink.
-/

namespace ChordCast

/-! ## Constants -/

/-- `#define MAX_FILE_SIZE (1024 * 1024 * 5)`. -/
def MAX_FILE_SIZE : Nat := 1024 * 1024 * 5

/-- `#define REPEAT_IDX 256`. -/
def REPEAT_IDX : Int := 256

/-- `#define SYNC_MARKER 0xFE`. -/
def SYNC_MARKER : Nat := 0xFE

/-- `sizeof(ChordHeader)` under `#pragma pack(push, 1)`: 1 + 32 + 4 + 1 + 1. -/
def HEADER_SIZE : Nat := 39

/-- The literal `6` of `if (++dropCount >= 6)` in `src/decoder/decoder.c`
(named `DROP_LIMIT` in `src/decoder.c`). -/
def DROP_LIMIT : Int := 6

/-! ## Data model -/

/-- `typedef enum { STATE_IDLE, STATE_WAIT_HEADER, STATE_READ_DATA } ProtocolState`. -/
inductive ProtocolState where
  | STATE_IDLE
  | STATE_WAIT_HEADER
  | STATE_READ_DATA
  deriving DecidableEq, Repr

open ProtocolState

/-- The packed `ChordHeader` struct.  `fileName` is the 32-byte field. -/
structure ChordHeader where
  syncMarker : Nat
  fileName : List Nat
  fileSize : Nat
  checksum : Nat
  fileType : Nat
  deriving DecidableEq, Repr

/-- The configurable and bin-dependent globals of `src/decoder/decoder.c`
that the analysis loop only reads. -/
structure DecoderConfig where
  FFT_SIZE : Nat
  STEP_SIZE : Nat
  AUTO_SPACING : Bool
  AUTO_THRESHOLD : Bool
  DEBOUNCE_LIMIT : Int
  BIN_WIDTH : ℚ
  BIN_SPACING : ℚ
  BASE_FREQ : ℚ
  FREQ_HELLO : ℚ
  FREQ_HEADER : ℚ
  FREQ_TERM : ℚ

/-- One analysis frame: the dominant frequency `freq = maxI * BIN_WIDTH` and
the scaled peak magnitude `maxM`. -/
structure Frame where
  freq : ℚ
  maxM : ℚ

/-- The mutable variables of the decoder loop: the locals of `main`
(`stableCount`, `lastByte`, `processedByte`, `lastValidByte`, `state`,
`bufPtr`, `headerDone`, `header`, `fileBuffer`, `smoothedNoise`), the global
`THRESHOLD` (rewritten by the adaptive threshold logic) and the `static`
local `dropCount`.  `fileBuffer` is the whole `calloc`ed array, indexed by
position; bytes above `bufPtr` are stale, not erased. -/
structure DecoderState where
  state : ProtocolState
  stableCount : Int
  lastByte : Int
  processedByte : Int
  lastValidByte : Int
  bufPtr : Nat
  headerDone : Bool
  header : ChordHeader
  fileBuffer : Nat → Nat
  smoothedNoise : ℚ
  THRESHOLD : ℚ
  dropCount : Int

/-- Observable effects of one analysis step. -/
inductive Event where
  /-- `fileBuffer[bufPtr++] = (unsigned char)byteToProcess`. -/
  | appended (b : Nat)
  /-- `Sync Marker Fail`: the parsed header does not start with `SYNC_MARKER`. -/
  | syncFail
  /-- `Transmission Failed: Incomplete Data` with expected and received counts. -/
  | incomplete (expected received : Nat)
  /-- `Transmission Failed: Checksum Mismatch` with received and computed sums. -/
  | checksumMismatch (recv computed : Nat)
  /-- The payload handed to the file sink:
  `fopen(header.fileName, "wb")` and `fwrite(fileBuffer + 39, 1, fileSize, f)`. -/
  | saved (fileName : List Nat) (data : List Nat)
  deriving DecidableEq, Repr

/-! ## Decoder: one analysis step (`src/decoder/decoder.c`, lines 251-365) -/

/-- The C conversion `(int)x` of a float: truncation toward zero. -/
def cTrunc (x : ℚ) : Int := if 0 ≤ x then ⌊x⌋ else ⌈x⌉

/-- The C conversions `(uint8_t)x` and `(unsigned char)x` of an `int`. -/
def toUInt8 (x : Int) : Nat := (x % 256).toNat

/-- State at the declarations of `main`, with the header cleared by `memset`
and the buffer zeroed by `calloc`; `threshold` is the configured `THRESHOLD`. -/
def initialState (threshold : ℚ) : DecoderState :=
  { state := STATE_IDLE, stableCount := 0, lastByte := -1, processedByte := -1,
    lastValidByte := -1, bufPtr := 0, headerDone := false,
    header := { syncMarker := 0, fileName := List.replicate 32 0, fileSize := 0,
                checksum := 0, fileType := 0 },
    fileBuffer := fun _ => 0, smoothedNoise := 1, THRESHOLD := threshold, dropCount := 0 }

/-- The adaptive threshold logic (lines 254-265). -/
def adaptiveThreshold (cfg : DecoderConfig) (s : DecoderState) (maxM : ℚ) : DecoderState :=
  if s.state = STATE_IDLE then
    let smoothedNoise := s.smoothedNoise * (19 / 20) + maxM * (1 / 20)
    if cfg.AUTO_THRESHOLD then
      let t := smoothedNoise * 3
      { s with smoothedNoise := smoothedNoise, THRESHOLD := if t < 2 then 2 else t }
    else
      { s with smoothedNoise := smoothedNoise }
  else s

/-- Symbol mapping (lines 252, 267-270): `curByte`. -/
def detectSymbol (cfg : DecoderConfig) (threshold : ℚ) (fr : Frame) : Int :=
  if fr.maxM > threshold then
    cTrunc ((fr.freq - cfg.BASE_FREQ) / cfg.BIN_SPACING + 1 / 2)
  else -1

/-- The guard of the termination branch (line 281). -/
def isTermination (cfg : DecoderConfig) (s : DecoderState) (fr : Frame) : Prop :=
  s.state = STATE_READ_DATA ∧ fr.maxM > s.THRESHOLD * (7 / 10) ∧
    |fr.freq - cfg.FREQ_TERM| < cfg.BIN_WIDTH * (5 / 2)

instance (cfg : DecoderConfig) (s : DecoderState) (fr : Frame) :
    Decidable (isTermination cfg s fr) := by
  unfold isTermination; infer_instance

/-- The checksum loop (lines 285-290): `calcSum` is a `uint8_t` accumulator,
and the loop runs while `j < fileSize && 39 + j < bufPtr`, that is for
`j < min fileSize (bufPtr - 39)`. -/
def calcSum (fileBuffer : Nat → Nat) (fileSize bufPtr : Nat) : Nat :=
  (List.range (min fileSize (bufPtr - HEADER_SIZE))).foldl
    (fun acc j => (acc + fileBuffer (HEADER_SIZE + j)) % 256) 0

/-- The bytes `fwrite(fileBuffer + sizeof(ChordHeader), 1, header.fileSize, f)` writes. -/
def payloadOf (fileBuffer : Nat → Nat) (fileSize : Nat) : List Nat :=
  (List.range fileSize).map (fun j => fileBuffer (HEADER_SIZE + j))

/-- Validation at termination (lines 283-313).  `expectedTotalBytes` is a
`uint32_t`, so the sum wraps modulo `2 ^ 32`. -/
def validate (s : DecoderState) : List Event :=
  if s.headerDone then
    let sum := calcSum s.fileBuffer s.header.fileSize s.bufPtr
    let expectedTotalBytes := (HEADER_SIZE + s.header.fileSize) % 2 ^ 32
    if s.bufPtr < expectedTotalBytes then [Event.incomplete expectedTotalBytes s.bufPtr]
    else if sum ≠ s.header.checksum then [Event.checksumMismatch s.header.checksum sum]
    else [Event.saved s.header.fileName (payloadOf s.fileBuffer s.header.fileSize)]
  else []

/-- The stability tracking (lines 318-325). -/
def stability (s : DecoderState) (curByte : Int) (maxM : ℚ) : DecoderState :=
  if maxM < s.THRESHOLD then
    if s.dropCount + 1 ≥ DROP_LIMIT then
      { s with dropCount := s.dropCount + 1, processedByte := -1, stableCount := 0 }
    else
      { s with dropCount := s.dropCount + 1 }
  else if curByte ≠ s.lastByte then
    { s with dropCount := 0, stableCount := 0, lastByte := curByte }
  else
    { s with dropCount := 0, stableCount := s.stableCount + 1 }

/-- The `memcpy(&header, fileBuffer, sizeof(ChordHeader))` of line 353
(little-endian `fileSize`). -/
def parseHeader (fileBuffer : Nat → Nat) : ChordHeader :=
  { syncMarker := fileBuffer 0,
    fileName := (List.range 32).map (fun i => fileBuffer (1 + i)),
    fileSize := fileBuffer 33 + 256 * fileBuffer 34 + 65536 * fileBuffer 35
                  + 16777216 * fileBuffer 36,
    checksum := fileBuffer 37,
    fileType := fileBuffer 38 }

/-- The byte-processing branch of `STATE_READ_DATA` (lines 341-362), entered
once `stableCount >= DEBOUNCE_LIMIT && curByte != processedByte` holds. -/
def acceptSymbol (s : DecoderState) (curByte : Int) : DecoderState × List Event :=
  let byteToProcess := if curByte = REPEAT_IDX then s.lastValidByte else curByte
  let s1 := { s with processedByte := curByte,
                     lastValidByte := if 0 ≤ curByte ∧ curByte ≤ 255 then curByte
                                      else s.lastValidByte }
  if s1.bufPtr = 0 ∧ toUInt8 byteToProcess ≠ SYNC_MARKER then (s1, [])
  else if s1.bufPtr < MAX_FILE_SIZE ∧ byteToProcess ≥ -1 then
    let b := toUInt8 byteToProcess
    let s2 := { s1 with fileBuffer := Function.update s1.fileBuffer s1.bufPtr b,
                        bufPtr := s1.bufPtr + 1 }
    if s2.headerDone = false ∧ s2.bufPtr = HEADER_SIZE then
      let s3 := { s2 with header := parseHeader s2.fileBuffer }
      if s3.header.syncMarker ≠ SYNC_MARKER then
        ({ s3 with bufPtr := 0 }, [Event.appended b, Event.syncFail])
      else
        ({ s3 with headerDone := true }, [Event.appended b])
    else (s2, [Event.appended b])
  else (s1, [])

/-- The state machine (lines 328-365). -/
def stateMachine (cfg : DecoderConfig) (s : DecoderState) (fr : Frame) (curByte : Int) :
    DecoderState × List Event :=
  if fr.maxM > s.THRESHOLD then
    match s.state with
    | STATE_IDLE =>
      if |fr.freq - cfg.FREQ_HELLO| < cfg.BIN_WIDTH * (3 / 2) then
        ({ s with state := STATE_WAIT_HEADER }, [])
      else (s, [])
    | STATE_WAIT_HEADER =>
      if |fr.freq - cfg.FREQ_HEADER| < cfg.BIN_WIDTH * (3 / 2) then
        ({ s with state := STATE_READ_DATA, bufPtr := 0, headerDone := false,
                  processedByte := -1 }, [])
      else (s, [])
    | STATE_READ_DATA =>
      if s.stableCount ≥ cfg.DEBOUNCE_LIMIT ∧ curByte ≠ s.processedByte then
        acceptSymbol s curByte
      else (s, [])
  else (s, [])

/-- One analysis step on the frame `(freq, maxM)`: adaptive threshold, symbol
mapping, termination (which ends the step), stability, state machine. -/
def analysisStep (cfg : DecoderConfig) (s : DecoderState) (fr : Frame) :
    DecoderState × List Event :=
  let s1 := adaptiveThreshold cfg s fr.maxM
  let curByte := detectSymbol cfg s1.THRESHOLD fr
  if isTermination cfg s1 fr then
    ({ s1 with state := STATE_IDLE, processedByte := -1, stableCount := 0 }, validate s1)
  else
    stateMachine cfg (stability s1 curByte fr.maxM) fr curByte

/-- The decoder loop over a sequence of analysis frames, collecting events. -/
def runDecoder (cfg : DecoderConfig) : DecoderState → List Frame → DecoderState × List Event
  | s, [] => (s, [])
  | s, fr :: frs =>
    let r := analysisStep cfg s fr
    let r2 := runDecoder cfg r.1 frs
    (r2.1, r.2 ++ r2.2)

/-- The auto spacing logic (lines 189-196). -/
def calibrate (cfg : DecoderConfig) (nSamplesPerSec : Nat) : DecoderConfig :=
  let binWidth : ℚ := (nSamplesPerSec : ℚ) / (cfg.FFT_SIZE : ℚ)
  if cfg.AUTO_SPACING then
    { cfg with BIN_WIDTH := binWidth, BIN_SPACING := binWidth * 2,
               FREQ_HELLO := binWidth * 26, FREQ_HEADER := binWidth * 36,
               BASE_FREQ := binWidth * 52, FREQ_TERM := binWidth * 588 }
  else { cfg with BIN_WIDTH := binWidth }

/-- The defaults of the configurable variables (lines 21-40). -/
def defaultConfig : DecoderConfig :=
  { FFT_SIZE := 2048, STEP_SIZE := 256, AUTO_SPACING := true, AUTO_THRESHOLD := false,
    DEBOUNCE_LIMIT := 6, BIN_WIDTH := 0, BIN_SPACING := 0, BASE_FREQ := 0,
    FREQ_HELLO := 0, FREQ_HEADER := 0, FREQ_TERM := 0 }

/-! ## Encoder (`src/encoder/encoder.c`) -/

/-- The fields of `EncoderConfig` that `main` reads.  `INPUT_FILE` is the
content of the C string (the characters before the terminating NUL). -/
structure EncoderConfig where
  SAMPLE_RATE : Int
  BASE_FREQ : ℚ
  BIN_SPACING : ℚ
  FREQ_HELLO : ℚ
  FREQ_HEADER : ℚ
  FREQ_TERM : ℚ
  DATA_DUR : ℚ
  BYTE_GAP : ℚ
  HELLO_DUR : ℚ
  HEADER_DUR : ℚ
  INPUT_FILE : List Nat

/-- One call `write_tone(f, freq, duration, sampleRate)`; `freq = 0` is a
stretch of silence (`write_tone` gives amplitude `0` unless `freq > 0`).
The samples themselves (`(int)(sampleRate * duration)` of them, none when
that is not positive) are not modelled. -/
structure Segment where
  freq : ℚ
  duration : ℚ
  deriving DecidableEq

/-- The checksum of lines 144-146: a `uint32_t` sum, then `% 256`. -/
def encoderChecksum (file_data : List Nat) : Nat :=
  (file_data.foldl (fun sum b => (sum + b) % 2 ^ 32) 0) % 256

/-- The call `strncpy(header.fileName, cfg.INPUT_FILE, 31)` into the
zero-initialised 32-byte field: at most 31 characters of the string are
copied, the rest of the first 31 bytes is filled with NUL, and byte 31 keeps
its initial `0`. -/
def fileNameField (name : List Nat) : List Nat :=
  let copied := (name.takeWhile (fun c => c ≠ 0)).take 31
  copied ++ List.replicate (32 - copied.length) 0

/-- The header built at line 143-147; `fileSize = (uint32_t)fsize`. -/
def buildHeader (name : List Nat) (file_data : List Nat) : ChordHeader :=
  { syncMarker := 0xFE,
    fileName := fileNameField name,
    fileSize := file_data.length % 2 ^ 32,
    checksum := encoderChecksum file_data,
    fileType := 0 }

/-- The 39 bytes of the packed header in memory (little-endian `fileSize`),
as `memcpy(all_data, &header, sizeof(ChordHeader))` copies them. -/
def headerBytes (h : ChordHeader) : List Nat :=
  [h.syncMarker] ++ h.fileName ++
    [h.fileSize % 256, h.fileSize / 256 % 256, h.fileSize / 65536 % 256,
     h.fileSize / 16777216 % 256] ++ [h.checksum, h.fileType]

/-- The buffer `all_data`: header followed by the payload (lines 149-152). -/
def allData (name : List Nat) (file_data : List Nat) : List Nat :=
  headerBytes (buildHeader name file_data) ++ file_data

/-- The repeat-escape loop (lines 204-220): the list of `val`s that are sent,
starting from the loop variables `prev_byte` and `last_was_repeat`. -/
def escapeLoop : Int → Bool → List Nat → List Int
  | _, _, [] => []
  | prev_byte, last_was_repeat, b :: rest =>
    if (b : Int) = prev_byte ∧ last_was_repeat = false then
      REPEAT_IDX :: escapeLoop (b : Int) true rest
    else
      (b : Int) :: escapeLoop (b : Int) false rest

/-- The symbols sent for a byte sequence: the loop entered with
`prev_byte = -1` and `last_was_repeat = false`. -/
def escapeSymbols (data : List Nat) : List Int := escapeLoop (-1) false data

/-- The two `write_tone` calls of one loop iteration (lines 216-217). -/
def symbolSegments (cfg : EncoderConfig) (val : Int) : List Segment :=
  [ { freq := cfg.BASE_FREQ + (val : ℚ) * cfg.BIN_SPACING, duration := cfg.DATA_DUR },
    { freq := 0, duration := cfg.BYTE_GAP } ]

/-- The three terminate tones (lines 223-227). -/
def termSegments (cfg : EncoderConfig) : List Segment :=
  (List.replicate 3
    [ ({ freq := cfg.FREQ_TERM, duration := 1 / 10 } : Segment),
      { freq := 0, duration := 1 / 50 } ]).flatten

/-- The sequence of `write_tone` calls of `main` (lines 199-227) for the
payload `file_data`, in call order.  This is the output of a run that gets
past the two-minute confirmation prompt of line 180. -/
def encoderSegments (cfg : EncoderConfig) (file_data : List Nat) : List Segment :=
  [ { freq := cfg.FREQ_HELLO, duration := cfg.HELLO_DUR },
    { freq := 0, duration := cfg.BYTE_GAP },
    { freq := cfg.FREQ_HEADER, duration := cfg.HEADER_DUR },
    { freq := 0, duration := cfg.BYTE_GAP } ] ++
  ((escapeSymbols (allData cfg.INPUT_FILE file_data)).map (symbolSegments cfg)).flatten ++
  [ { freq := 0, duration := cfg.BYTE_GAP } ] ++ termSegments cfg

/-- The decoder's resolution of one accepted symbol (lines 343-344): the
byte stored, `(unsigned char)byteToProcess`, and the new `lastValidByte`. -/
def resolveSymbol (lastValidByte : Int) (curByte : Int) : Nat × Int :=
  (toUInt8 (if curByte = REPEAT_IDX then lastValidByte else curByte),
   if 0 ≤ curByte ∧ curByte ≤ 255 then curByte else lastValidByte)

/-- The bytes the decoder reconstructs from a sequence of accepted symbols,
starting from a given `lastValidByte`. -/
def resolveSymbols : Int → List Int → List Nat
  | _, [] => []
  | lastValidByte, c :: cs =>
    (resolveSymbol lastValidByte c).1 :: resolveSymbols (resolveSymbol lastValidByte c).2 cs

/-! ## Runs of analysis steps -/

/-- The value of `THRESHOLD` that the step on `fr` compares `maxM` with: the
threshold left by the adaptive threshold logic of that same step. -/
def thresholdAt (cfg : DecoderConfig) (s : DecoderState) (fr : Frame) : ℚ :=
  (adaptiveThreshold cfg s fr.maxM).THRESHOLD

/-- The value of `curByte` that the step on `fr` computes in state `s`. -/
def curByteAt (cfg : DecoderConfig) (s : DecoderState) (fr : Frame) : Int :=
  detectSymbol cfg (thresholdAt cfg s fr) fr

/-- The frame passes the frequency test of the termination guard. -/
def matchesTerm (cfg : DecoderConfig) (fr : Frame) : Prop :=
  |fr.freq - cfg.FREQ_TERM| < cfg.BIN_WIDTH * (5 / 2)

instance (cfg : DecoderConfig) (fr : Frame) : Decidable (matchesTerm cfg fr) := by
  unfold matchesTerm; infer_instance

/-- Consecutive steps from state `s` that all observe the symbol `c` with a
magnitude above the threshold. -/
def HeldRun (cfg : DecoderConfig) (c : Int) : DecoderState → List Frame → Prop
  | _, [] => True
  | s, fr :: frs =>
    (fr.maxM > thresholdAt cfg s fr ∧ curByteAt cfg s fr = c) ∧
      HeldRun cfg c (analysisStep cfg s fr).1 frs

/-- Consecutive steps from state `s` whose magnitude is strictly below the
threshold. -/
def BelowRun (cfg : DecoderConfig) : DecoderState → List Frame → Prop
  | _, [] => True
  | s, fr :: frs =>
    fr.maxM < thresholdAt cfg s fr ∧ BelowRun cfg (analysisStep cfg s fr).1 frs

instance HeldRun.decide (cfg : DecoderConfig) (c : Int) :
    ∀ (s : DecoderState) (frs : List Frame), Decidable (HeldRun cfg c s frs)
  | _, [] => isTrue trivial
  | s, fr :: frs =>
    have := HeldRun.decide cfg c (analysisStep cfg s fr).1 frs
    inferInstanceAs (Decidable ((fr.maxM > thresholdAt cfg s fr ∧ curByteAt cfg s fr = c) ∧
      HeldRun cfg c (analysisStep cfg s fr).1 frs))

instance BelowRun.decide (cfg : DecoderConfig) :
    ∀ (s : DecoderState) (frs : List Frame), Decidable (BelowRun cfg s frs)
  | _, [] => isTrue trivial
  | s, fr :: frs =>
    have := BelowRun.decide cfg (analysisStep cfg s fr).1 frs
    inferInstanceAs (Decidable (fr.maxM < thresholdAt cfg s fr ∧
      BelowRun cfg (analysisStep cfg s fr).1 frs))

/-- The states the decoder loop can be in: those reached from the initial
state (with the configured threshold) by some sequence of analysis frames. -/
def Reachable (cfg : DecoderConfig) (threshold : ℚ) (s : DecoderState) : Prop :=
  ∃ frames : List Frame, (runDecoder cfg (initialState threshold) frames).1 = s

/-- The bytes written into the receive buffer, in order. -/
def appendedBytes (evs : List Event) : List Nat :=
  evs.filterMap (fun e => match e with
    | Event.appended b => some b
    | _ => none)

/-- Facts that hold in every reachable state. -/
def Inv (s : DecoderState) : Prop :=
  0 ≤ s.stableCount ∧ 0 ≤ s.dropCount ∧
  (DROP_LIMIT ≤ s.dropCount → s.stableCount = 0 ∧ s.processedByte = -1) ∧
  (0 < s.bufPtr → s.fileBuffer 0 = SYNC_MARKER) ∧
  s.bufPtr ≤ MAX_FILE_SIZE

/-! ## Auxiliary descriptions of the stability variables -/

/-- The state with the three variables written by the stability tracking
replaced. -/
def setStab (s : DecoderState) (lastByte stableCount dropCount : Int) : DecoderState :=
  { s with lastByte := lastByte, stableCount := stableCount, dropCount := dropCount }

/-- The count the stability tracking continues from when the symbol `c` is
observed: `stableCount` if `c` is the symbol seen last, `-1` if not (the
count is then restarted at `0`). -/
def effCount (c : Int) (s : DecoderState) : Int :=
  if s.lastByte = c then s.stableCount else -1

/-- The effect of the below-threshold branch of the stability tracking. -/
def dropStep (s : DecoderState) : DecoderState :=
  { s with dropCount := s.dropCount + 1,
           processedByte := if DROP_LIMIT ≤ s.dropCount + 1 then -1 else s.processedByte,
           stableCount := if DROP_LIMIT ≤ s.dropCount + 1 then 0 else s.stableCount }

/-- What precedes a run of the symbol `c` so that its debounce count starts
afresh: either a step at or above the threshold that carries another symbol,
followed by any number of steps below the threshold; or at least
`DROP_LIMIT` consecutive steps below the threshold. -/
def FreshStart (cfg : DecoderConfig) (c : Int) (s0 : DecoderState) (left : List Frame) : Prop :=
  (∃ fL gs, left = fL :: gs ∧ ¬ (fL.maxM < thresholdAt cfg s0 fL) ∧ curByteAt cfg s0 fL ≠ c ∧
      BelowRun cfg (analysisStep cfg s0 fL).1 gs) ∨
  (DROP_LIMIT ≤ (left.length : Int) ∧ BelowRun cfg s0 left)

/-! ## Ideal rendering of the encoder output as analysis frames -/

/-- The decoder uses the frequency plan of the auto spacing logic for a
positive bin width. -/
def AutoPlan (cfg : DecoderConfig) : Prop :=
  0 < cfg.BIN_WIDTH ∧ cfg.BIN_SPACING = cfg.BIN_WIDTH * 2 ∧
  cfg.FREQ_HELLO = cfg.BIN_WIDTH * 26 ∧ cfg.FREQ_HEADER = cfg.BIN_WIDTH * 36 ∧
  cfg.BASE_FREQ = cfg.BIN_WIDTH * 52 ∧ cfg.FREQ_TERM = cfg.BIN_WIDTH * 588

/-- Encoder and decoder are configured with the same frequency plan. -/
def SamePlan (enc : EncoderConfig) (cfg : DecoderConfig) : Prop :=
  enc.BASE_FREQ = cfg.BASE_FREQ ∧ enc.BIN_SPACING = cfg.BIN_SPACING ∧
  enc.FREQ_HELLO = cfg.FREQ_HELLO ∧ enc.FREQ_HEADER = cfg.FREQ_HEADER ∧
  enc.FREQ_TERM = cfg.FREQ_TERM

/-- The analysis frames `blk` are an ideal view of the segment `seg` for the
threshold `thr` and debounce limit `d`: a tone (`freq > 0`) is seen as at
least one and at least `d + 1` frames at exactly the tone frequency with
magnitude above the threshold; a silence is seen as any number of frames
with magnitude below `0.7 * thr`.  Magnitudes are never negative. -/
def IdealBlock (thr : ℚ) (d : Int) (seg : Segment) (blk : List Frame) : Prop :=
  if seg.freq > 0 then
    (1 ≤ blk.length ∧ d + 1 ≤ (blk.length : Int)) ∧
      ∀ fr ∈ blk, fr.freq = seg.freq ∧ fr.maxM > thr ∧ 0 ≤ fr.maxM
  else
    ∀ fr ∈ blk, 0 ≤ fr.maxM ∧ fr.maxM < thr * (7 / 10)

instance (thr : ℚ) (d : Int) (seg : Segment) (blk : List Frame) :
    Decidable (IdealBlock thr d seg blk) := by
  unfold IdealBlock; infer_instance

/-- One block of frames per segment, each an ideal view of its segment. -/
def IdealFrames (thr : ℚ) (d : Int) : List Segment → List (List Frame) → Prop
  | [], [] => True
  | seg :: segs, blk :: blks => IdealBlock thr d seg blk ∧ IdealFrames thr d segs blks
  | [], _ :: _ => False
  | _ :: _, [] => False

instance IdealFrames.decide (thr : ℚ) (d : Int) :
    ∀ (segs : List Segment) (blks : List (List Frame)), Decidable (IdealFrames thr d segs blks)
  | [], [] => isTrue trivial
  | seg :: segs, blk :: blks =>
    have := IdealFrames.decide thr d segs blks
    inferInstanceAs (Decidable (IdealBlock thr d seg blk ∧ IdealFrames thr d segs blks))
  | [], _ :: _ => isFalse (fun h => h)
  | _ :: _, [] => isFalse (fun h => h)

/-- The events other than buffer writes: the sync failure report and the
outcome of the validation at termination. -/
def reports (evs : List Event) : List Event :=
  evs.filter (fun e => match e with
    | Event.appended _ => false
    | _ => true)

/-- The first `l.length` cells of the receive buffer hold the bytes `l`. -/
def BufIs (fileBuffer : Nat → Nat) (l : List Nat) : Prop :=
  ∀ i, i < l.length → l[i]? = some (fileBuffer i)

/-- The decoder is in `STATE_READ_DATA` with threshold `thr`, the symbol seen
last is `L` (and the locked symbol is `L` or none), the receive buffer holds
exactly the bytes `done`, and the header is marked complete, and parsed from
the buffer, exactly when at least 39 bytes are buffered. -/
def DataInv (thr : ℚ) (L : Int) (done : List Nat) (s : DecoderState) : Prop :=
  s.state = STATE_READ_DATA ∧ s.THRESHOLD = thr ∧ s.lastByte = L ∧
  (s.processedByte = L ∨ s.processedByte = -1) ∧
  s.bufPtr = done.length ∧ BufIs s.fileBuffer done ∧
  (s.headerDone = true ↔ HEADER_SIZE ≤ done.length) ∧
  (HEADER_SIZE ≤ done.length → s.header = parseHeader s.fileBuffer)

/-! ## Concrete inputs used by the examples -/

/-- The default configuration calibrated for a 48 kHz capture device
(`BIN_WIDTH = 48000 / 2048`). -/
def cfg48k : DecoderConfig := calibrate defaultConfig 48000

/-- A frame on bin `bin` of `cfg48k` with magnitude `maxM`. -/
def binFrame (bin : Nat) (maxM : ℚ) : Frame := { freq := (bin : ℚ) * (375 / 16), maxM := maxM }

/-- A `STATE_READ_DATA` state with a complete header announcing one payload
byte with checksum `1`, and 40 buffered bytes whose payload byte is `3`. -/
def flippedState : DecoderState :=
  { initialState 5 with
    state := STATE_READ_DATA, headerDone := true, bufPtr := 40,
    header := { syncMarker := 254, fileName := List.replicate 32 0, fileSize := 1,
                checksum := 1, fileType := 0 },
    fileBuffer := fun j => if j = 39 then 3 else 0 }

/-- The frames `HELLO`, `HEADER`, then six frames of the data tone of the
byte `0xFE` (bin `52 + 2 * 254`) under `cfg48k`, all with magnitude `10`. -/
def sixSyncFrames : List Frame :=
  [binFrame 26 10, binFrame 36 10] ++ List.replicate 6 (binFrame 560 10)

/-- The state reached from the initial state (threshold `5`) by
`sixSyncFrames`: `STATE_READ_DATA`, nothing buffered yet. -/
def sixSyncState : DecoderState := (runDecoder cfg48k (initialState 5) sixSyncFrames).1

/-- The state reached from the initial state (threshold `5`) by one `HELLO`
frame and one `HEADER` frame under `cfg48k`: `STATE_READ_DATA`, empty buffer. -/
def syncLockedState : DecoderState :=
  (runDecoder cfg48k (initialState 5) [binFrame 26 10, binFrame 36 10]).1

/-- Frames that, against the threshold `thr`, all carry the symbol `c` above
the threshold and do not pass the frequency test of the termination guard. -/
def HeldIn (cfg : DecoderConfig) (thr : ℚ) (c : Int) (frs : List Frame) : Prop :=
  ∀ fr ∈ frs, fr.maxM > thr ∧ detectSymbol cfg thr fr = c ∧ ¬ matchesTerm cfg fr

instance (cfg : DecoderConfig) (thr : ℚ) (c : Int) (frs : List Frame) :
    Decidable (HeldIn cfg thr c frs) := by
  unfold HeldIn; infer_instance

/-- Frames that, against the threshold `thr`, are strictly below the
threshold and do not pass the frequency test of the termination guard. -/
def QuietIn (cfg : DecoderConfig) (thr : ℚ) (frs : List Frame) : Prop :=
  ∀ fr ∈ frs, fr.maxM < thr ∧ ¬ matchesTerm cfg fr

instance (cfg : DecoderConfig) (thr : ℚ) (frs : List Frame) :
    Decidable (QuietIn cfg thr frs) := by
  unfold QuietIn; infer_instance

/-- The state reached from the initial state (threshold `5`) by
`sixSyncFrames` and a seventh frame of the tone of `0xFE`:
`STATE_READ_DATA` with the sync marker buffered. -/
def syncByteState : DecoderState := (analysisStep cfg48k sixSyncState (binFrame 560 10)).1

/-- An encoder configured with the plan of `cfg48k`, reading the file named
`"t"` (durations as printed by the decoder for a 48 kHz device). -/
def enc48k : EncoderConfig :=
  { SAMPLE_RATE := 48000, BASE_FREQ := 375 / 16 * 52, BIN_SPACING := 375 / 16 * 2,
    FREQ_HELLO := 375 / 16 * 26, FREQ_HEADER := 375 / 16 * 36, FREQ_TERM := 375 / 16 * 588,
    DATA_DUR := 43 / 500, BYTE_GAP := 43 / 1000, HELLO_DUR := 43 / 100, HEADER_DUR := 129 / 500,
    INPUT_FILE := [116] }

/-- An ideal view of a segment list: seven frames of magnitude `10` for every
tone, one frame of magnitude `0` for every silence. -/
def sevenFrameView (segs : List Segment) : List (List Frame) :=
  segs.map (fun seg =>
    if seg.freq > 0 then List.replicate 7 { freq := seg.freq, maxM := 10 }
    else [{ freq := 0, maxM := 0 }])

/-- The `write_tone` calls of lines 199-220 when the loop runs over the bytes
`all_data`: hello, gap, header, gap, then tone and gap for every symbol. -/
def dataSegments (cfg : EncoderConfig) (all_data : List Nat) : List Segment :=
  [ { freq := cfg.FREQ_HELLO, duration := cfg.HELLO_DUR },
    { freq := 0, duration := cfg.BYTE_GAP },
    { freq := cfg.FREQ_HEADER, duration := cfg.HEADER_DUR },
    { freq := 0, duration := cfg.BYTE_GAP } ] ++
  ((escapeSymbols all_data).map (symbolSegments cfg)).flatten

/-- A crafted 39-byte header: sync marker, 32 NUL name bytes,
`fileSize = 0xFFFFFFFF`, checksum `0`, type `0`. -/
def wrapHeaderBytes : List Nat :=
  [254] ++ List.replicate 32 0 ++ [255, 255, 255, 255] ++ [0, 0]

/-- The frames of hello, header and the tones of `wrapHeaderBytes` under the
plan of `cfg48k`, every tone seen as seven frames of magnitude `10`. -/
def wrapFrames : List Frame := (sevenFrameView (dataSegments enc48k wrapHeaderBytes)).flatten

/-- The state reached from `syncByteState` by seven frames on bin `652`
(rounded index `300`) and six frames of the `REPEAT` tone (bin
`52 + 2 * 256 = 564`), all of magnitude `10`. -/
def repeatState : DecoderState :=
  (runDecoder cfg48k syncByteState
    (List.replicate 7 (binFrame 652 10) ++ List.replicate 6 (binFrame 564 10))).1

/-! ## The earlier revision (`src/decoder.c`, `src/encoder.c`) -/

/-- The auto spacing logic of `src/decoder.c` (lines 121-130); `FFT_SIZE` is
the `#define` of that file, here the field of the configuration. -/
def legacyCalibrate (cfg : DecoderConfig) (nSamplesPerSec : Nat) : DecoderConfig :=
  let binWidth : ℚ := (nSamplesPerSec : ℚ) / (cfg.FFT_SIZE : ℚ)
  if cfg.AUTO_SPACING then
    { cfg with BIN_WIDTH := binWidth, BIN_SPACING := binWidth * 2,
               FREQ_HELLO := binWidth * 26, FREQ_HEADER := binWidth * 34,
               BASE_FREQ := binWidth * 51, FREQ_TERM := binWidth * 588 }
  else { cfg with BIN_WIDTH := binWidth }

/-- The constants and defaults of `src/decoder.c` (lines 16-47); its
`THRESHOLD` default is `10`. -/
def legacyConfig : DecoderConfig :=
  { FFT_SIZE := 2048, STEP_SIZE := 256, AUTO_SPACING := true, AUTO_THRESHOLD := false,
    DEBOUNCE_LIMIT := 3, BIN_WIDTH := 0, BIN_SPACING := 0, BASE_FREQ := 0,
    FREQ_HELLO := 0, FREQ_HEADER := 0, FREQ_TERM := 0 }

/-- The mapping logic of `src/decoder.c` (lines 212-224): `curByte`, with the
range check `if (curByte < 0 || curByte > REPEAT_IDX) curByte = -1`. -/
def legacyDetectSymbol (cfg : DecoderConfig) (threshold : ℚ) (fr : Frame) : Int :=
  if fr.maxM > threshold then
    let curByte := cTrunc ((fr.freq - cfg.BASE_FREQ) / cfg.BIN_SPACING + 1 / 2)
    if curByte < 0 ∨ curByte > REPEAT_IDX then -1 else curByte
  else -1

/-- The configuration of `src/decoder.c` calibrated for a 48 kHz device. -/
def legacyCfg48k : DecoderConfig := legacyCalibrate legacyConfig 48000

/-- The tone frequency of `src/encoder.c` (line 158) for the value `val`:
`BASE_FREQ + (val * BIN_SPACING)` with the `#define`s `BASE_FREQ 1218.75f`
and `BIN_SPACING 46.875f`. -/
def legacyToneFreq (val : Int) : ℚ := 4875 / 4 + (val : ℚ) * (375 / 8)

/-- The packed `ChordHeader` of `src/decoder.c` (38 bytes, no sync marker). -/
structure LegacyHeader where
  fileName : List Nat
  fileSize : Nat
  checksum : Nat
  fileType : Nat
  deriving DecidableEq, Repr

/-- `sizeof(ChordHeader)` in `src/decoder.c`: 32 + 4 + 1 + 1. -/
def LEGACY_HEADER_SIZE : Nat := 38

/-- The variables of the loop of `src/decoder.c` that its byte-processing
branch reads or writes. -/
structure LegacyState where
  state : ProtocolState
  processedByte : Int
  lastValidByte : Int
  bufPtr : Nat
  headerDone : Bool
  header : LegacyHeader
  fileBuffer : Nat → Nat

/-- The `memcpy(&header, fileBuffer, sizeof(ChordHeader))` of `src/decoder.c`
(line 319). -/
def legacyParseHeader (fileBuffer : Nat → Nat) : LegacyHeader :=
  { fileName := (List.range 32).map (fun i => fileBuffer i),
    fileSize := fileBuffer 32 + 256 * fileBuffer 33 + 65536 * fileBuffer 34
                  + 16777216 * fileBuffer 35,
    checksum := fileBuffer 36,
    fileType := fileBuffer 37 }

/-- The byte-processing branch of `src/decoder.c` (lines 308-329), entered
in `STATE_READ_DATA` once `stableCount >= DEBOUNCE_LIMIT && curByte !=
processedByte` holds. -/
def legacyAcceptSymbol (s : LegacyState) (curByte : Int) : LegacyState :=
  let byteToProcess := if curByte = REPEAT_IDX then s.lastValidByte else curByte
  let s1 := { s with processedByte := curByte,
                     lastValidByte := if 0 ≤ curByte ∧ curByte ≤ 255 then curByte
                                      else s.lastValidByte }
  if s1.bufPtr < MAX_FILE_SIZE ∧ byteToProcess ≥ 0 then
    let s2 := { s1 with fileBuffer := Function.update s1.fileBuffer s1.bufPtr
                                        (toUInt8 byteToProcess),
                        bufPtr := s1.bufPtr + 1 }
    if s2.headerDone = false ∧ s2.bufPtr = LEGACY_HEADER_SIZE then
      let s3 := { s2 with header := legacyParseHeader s2.fileBuffer }
      if s3.header.fileSize > MAX_FILE_SIZE - LEGACY_HEADER_SIZE then
        { s3 with state := STATE_IDLE }
      else { s3 with headerDone := true }
    else s2
  else s1

/-- A state of `src/decoder.c` in `STATE_READ_DATA` with 37 bytes buffered:
32 NUL name bytes, `fileSize = 0xFFFFFFFF` and the checksum `0`. -/
def legacyOversizeState : LegacyState :=
  { state := STATE_READ_DATA, processedByte := 256, lastValidByte := 0, bufPtr := 37,
    headerDone := false,
    header := { fileName := List.replicate 32 0, fileSize := 0, checksum := 0, fileType := 0 },
    fileBuffer := fun j => if 32 ≤ j ∧ j < 36 then 255 else 0 }

/-- The checksum as the specification words it: the sum of the payload bytes
modulo 256. -/
def specChecksum (payload : List Nat) : Nat := payload.sum % 256

/-! ## Spectrum analysis: peak scan and sliding window -/

/-- One iteration of the scan loop of `src/decoder/decoder.c` (lines 242-246)
on the pair `(maxM, maxI)`; `mag k` is the magnitude
`sqrtf(out[k].r * out[k].r + out[k].i * out[k].i)` of bin `k`. -/
def peakStep (mag : Nat → ℚ) (acc : ℚ × Nat) (k : Nat) : ℚ × Nat :=
  if mag k > acc.1 then (mag k, k) else acc

/-- The peak scan (lines 241-249): the loop over `k = 1 .. FFT_SIZE / 2 - 1`
starting from `maxM = 0`, `maxI = 0`, followed by `maxM *= 2.0f`.  The
result is `(maxM, maxI)`. -/
def peakScan (FFT_SIZE : Nat) (mag : Nat → ℚ) : ℚ × Nat :=
  (((List.range' 1 (FFT_SIZE / 2 - 1)).foldl (peakStep mag) (0, 0)).1 * 2,
   ((List.range' 1 (FFT_SIZE / 2 - 1)).foldl (peakStep mag) (0, 0)).2)

/-- The analysis frame computed from the bin magnitudes (lines 241-251):
`freq = maxI * BIN_WIDTH` and the scaled `maxM`. -/
def analysisFrame (cfg : DecoderConfig) (mag : Nat → ℚ) : Frame :=
  { freq := ((peakScan cfg.FFT_SIZE mag).2 : ℚ) * cfg.BIN_WIDTH,
    maxM := (peakScan cfg.FFT_SIZE mag).1 }

/-- One iteration of the scan loop of `src/decoder.c` (lines 188-209) on the
pair `(maxM, maxI)`: the magnitude of bin `k` is compensated and doubled,
and the pair is overwritten whenever it exceeds the local threshold. -/
def legacyPeakStep (binWidth threshold : ℚ) (mag : Nat → ℚ) (acc : ℚ × Nat) (k : Nat) :
    ℚ × Nat :=
  let currentFreq : ℚ := (k : ℚ) * binWidth
  let compensation : ℚ := 1 + currentFreq / 20000
  let m : ℚ := mag k * compensation * 2
  let localThreshold : ℚ := if currentFreq > 10000 then threshold * (3 / 5) else threshold
  if m > localThreshold then (m, k) else acc

/-- The peak scan of `src/decoder.c` (lines 186-209): the loop over
`k = 1 .. FFT_SIZE / 2 - 1` from `maxM = 0`, `maxI = 0`. -/
def legacyPeakScan (FFT_SIZE : Nat) (binWidth threshold : ℚ) (mag : Nat → ℚ) : ℚ × Nat :=
  (List.range' 1 (FFT_SIZE / 2 - 1)).foldl (legacyPeakStep binWidth threshold mag) (0, 0)

/-- Bin magnitudes with a strong peak on bin `100` and a weaker one on bin
`200`. -/
def twoPeaks : Nat → ℚ := fun k => if k = 100 then 100 else if k = 200 then 20 else 0

/-- The sample buffer and the two `static` counters of the sample loop
(lines 224-231). -/
structure WindowState where
  slidingBuffer : Nat → ℚ
  writeIdx : Nat
  stepCounter : Int

/-- The state before the first sample: the buffer zeroed by `calloc`, both
counters `0`. -/
def initialWindow : WindowState :=
  { slidingBuffer := fun _ => 0, writeIdx := 0, stepCounter := 0 }

/-- One iteration of the sample loop (lines 224-236) on the sample `x`: the
new state and, when an analysis step runs, the real parts `in[j].r` handed
to the FFT (`j = 0 .. FFT_SIZE - 1`). -/
def feedSample (cfg : DecoderConfig) (w : WindowState) (x : ℚ) :
    WindowState × Option (List ℚ) :=
  let slidingBuffer := Function.update w.slidingBuffer w.writeIdx x
  let writeIdx := (w.writeIdx + 1) % cfg.FFT_SIZE
  if w.stepCounter + 1 ≥ (cfg.STEP_SIZE : Int) then
    ({ slidingBuffer := slidingBuffer, writeIdx := writeIdx, stepCounter := 0 },
     some ((List.range cfg.FFT_SIZE).map
       (fun j => slidingBuffer ((writeIdx + j) % cfg.FFT_SIZE))))
  else
    ({ slidingBuffer := slidingBuffer, writeIdx := writeIdx,
       stepCounter := w.stepCounter + 1 }, none)

/-- The state of the sample loop after the first `n` samples of the stream
`x` (`x 0` is the first sample). -/
def windowAfter (cfg : DecoderConfig) (x : Nat → ℚ) : Nat → WindowState
  | 0 => initialWindow
  | n + 1 => (feedSample cfg (windowAfter cfg x n) (x n)).1

/-- A crafted 39-byte header with a usable file name: sync marker, the name
`"t"` followed by 31 NUL bytes, `fileSize = 0xFFFFFFFF`, checksum `0`,
type `0`. -/
def namedWrapHeaderBytes : List Nat :=
  [254, 116] ++ List.replicate 31 0 ++ [255, 255, 255, 255] ++ [0, 0]

/-- The frames of hello, header and the tones of `namedWrapHeaderBytes` under
the plan of `cfg48k`, every tone seen as seven frames of magnitude `10`. -/
def namedWrapFrames : List Frame :=
  (sevenFrameView (dataSegments enc48k namedWrapHeaderBytes)).flatten

/-! ## Repeat escaping -/

theorem toUInt8_natCast (b : Nat) (hb : b < 256) : toUInt8 (b : Int) = b := by
  unfold toUInt8
  omega

theorem escapeLoop_length (prev : Int) (lwr : Bool) (data : List Nat) :
    (escapeLoop prev lwr data).length = data.length := by
  induction data generalizing prev lwr with
  | nil => simp [escapeLoop]
  | cons b rest ih =>
    unfold escapeLoop
    split <;> simp [ih]

/-- Chain form of the no-equal-neighbours property: `last` is the symbol sent
just before the loop is (re-)entered with `prev_byte` and `last_was_repeat`. -/
theorem escapeLoop_chain (prev last : Int) (lwr : Bool) (data : List Nat)
    (hdata : ∀ b ∈ data, b < 256)
    (hrep : lwr = true → last = REPEAT_IDX) (hlit : lwr = false → last = prev) :
    List.Chain (fun a b => a ≠ b) last (escapeLoop prev lwr data) := by
  induction data generalizing prev last lwr with
  | nil => simp [escapeLoop]
  | cons b rest ih =>
    have hb : b < 256 := hdata b (List.mem_cons_self _ _)
    have hrest : ∀ c ∈ rest, c < 256 := fun c hc => hdata c (List.mem_cons_of_mem _ hc)
    unfold escapeLoop
    split
    · rename_i h
      refine List.Chain.cons ?_ (ih _ _ true hrest (fun _ => rfl) (by simp))
      have := hlit h.2
      unfold REPEAT_IDX
      omega
    · rename_i h
      refine List.Chain.cons ?_ (ih _ _ false hrest (by simp) (fun _ => rfl))
      cases lwr with
      | true =>
        have := hrep rfl
        unfold REPEAT_IDX at this
        omega
      | false =>
        have := hlit rfl
        intro hEq
        exact h ⟨by omega, rfl⟩

theorem resolveSymbols_escapeLoop (prev : Int) (lwr : Bool) (data : List Nat)
    (hdata : ∀ b ∈ data, b < 256) :
    resolveSymbols prev (escapeLoop prev lwr data) = data := by
  induction data generalizing prev lwr with
  | nil => simp [escapeLoop, resolveSymbols]
  | cons b rest ih =>
    have hb : b < 256 := hdata b (List.mem_cons_self _ _)
    have hrest : ∀ c ∈ rest, c < 256 := fun c hc => hdata c (List.mem_cons_of_mem _ hc)
    unfold escapeLoop
    split
    · rename_i h
      have h1 : (resolveSymbol prev REPEAT_IDX) = (b, (b : Int)) := by
        simp only [resolveSymbol, REPEAT_IDX, if_true]
        rw [← h.1, toUInt8_natCast b hb]
        simp
      simp only [resolveSymbols, h1, ih _ _ hrest]
    · have h1 : (resolveSymbol prev (b : Int)) = (b, (b : Int)) := by
        have h256 : ¬ ((b : Int) = REPEAT_IDX) := by unfold REPEAT_IDX; omega
        have hr : (0 : Int) ≤ (b : Int) ∧ (b : Int) ≤ 255 := by omega
        simp only [resolveSymbol, h256, if_false, hr, and_self, if_true, toUInt8_natCast b hb]
      simp only [resolveSymbols, h1, ih _ _ hrest]

theorem escapeLoop_repeat_pos (prev : Int) (lwr : Bool) (data : List Nat)
    (hdata : ∀ b ∈ data, b < 256) (i : Nat)
    (hi : (escapeLoop prev lwr data)[i]? = some REPEAT_IDX) :
    ∃ b, data[i]? = some b ∧ (i = 0 → (b : Int) = prev ∧ lwr = false) ∧
      (0 < i → data[i - 1]? = some b ∧ (escapeLoop prev lwr data)[i - 1]? = some (b : Int)) := by
  induction data generalizing prev lwr i with
  | nil => simp [escapeLoop] at hi
  | cons b rest ih =>
    have hb : b < 256 := hdata b (List.mem_cons_self _ _)
    have hrest : ∀ c ∈ rest, c < 256 := fun c hc => hdata c (List.mem_cons_of_mem _ hc)
    unfold escapeLoop at hi ⊢
    by_cases h : (b : Int) = prev ∧ lwr = false
    · rw [if_pos h] at hi ⊢
      cases i with
      | zero => exact ⟨b, by simp, fun _ => h, fun h0 => absurd h0 (by omega)⟩
      | succ j =>
        simp only [List.getElem?_cons_succ] at hi
        obtain ⟨c, hc, h0, hpos⟩ := ih _ _ hrest j hi
        cases j with
        | zero => exact absurd (h0 rfl).2 (by simp)
        | succ k =>
          have h3 := hpos (by omega)
          simp only [Nat.add_sub_cancel] at h3
          refine ⟨c, by simpa using hc, fun h0 => absurd h0 (by omega), fun _ => ?_⟩
          simp only [Nat.add_sub_cancel, List.getElem?_cons_succ]
          exact h3
    · rw [if_neg h] at hi ⊢
      cases i with
      | zero =>
        simp only [List.getElem?_cons_zero, Option.some.injEq, REPEAT_IDX] at hi
        omega
      | succ j =>
        simp only [List.getElem?_cons_succ] at hi
        obtain ⟨c, hc, h0, hpos⟩ := ih _ _ hrest j hi
        cases j with
        | zero =>
          have hcb := (h0 rfl).1
          have hcb2 : c = b := by omega
          subst hcb2
          exact ⟨c, by simpa using hc, fun h0 => absurd h0 (by omega), fun _ => by simp⟩
        | succ k =>
          have h3 := hpos (by omega)
          simp only [Nat.add_sub_cancel] at h3
          refine ⟨c, by simpa using hc, fun h0 => absurd h0 (by omega), fun _ => ?_⟩
          simp only [Nat.add_sub_cancel, List.getElem?_cons_succ]
          exact h3

/-- Position-wise description of the loop: symbol `i` is `REPEAT_IDX` exactly
when byte `i` equals byte `i - 1` and symbol `i - 1` was not `REPEAT_IDX`
(at position `0`: when the byte equals `prev_byte` and `last_was_repeat` is
off); otherwise it is the literal byte. -/
theorem escapeLoop_getElem (prev : Int) (lwr : Bool) (data : List Nat)
    (hdata : ∀ b ∈ data, b < 256) (i b : Nat) (hi : data[i]? = some b) :
    (escapeLoop prev lwr data)[i]? =
      some (if (i = 0 ∧ (b : Int) = prev ∧ lwr = false) ∨
               (0 < i ∧ data[i - 1]? = some b ∧
                 (escapeLoop prev lwr data)[i - 1]? ≠ some REPEAT_IDX)
            then REPEAT_IDX else (b : Int)) := by
  induction data generalizing prev lwr i with
  | nil => simp at hi
  | cons b0 rest ih =>
    have hb : b0 < 256 := hdata b0 (List.mem_cons_self _ _)
    have hrest : ∀ c ∈ rest, c < 256 := fun c hc => hdata c (List.mem_cons_of_mem _ hc)
    unfold escapeLoop
    cases i with
    | zero =>
      simp only [List.getElem?_cons_zero, Option.some.injEq] at hi
      subst hi
      by_cases h : (b0 : Int) = prev ∧ lwr = false
      · simp [h]
      · simp [h]
    | succ j =>
      simp only [List.getElem?_cons_succ] at hi
      by_cases h : (b0 : Int) = prev ∧ lwr = false
      · rw [if_pos h]
        simp only [List.getElem?_cons_succ, Nat.add_sub_cancel]
        rw [ih _ _ hrest j hi]
        cases j with
        | zero => simp
        | succ k => simp
      · rw [if_neg h]
        simp only [List.getElem?_cons_succ, Nat.add_sub_cancel]
        rw [ih _ _ hrest j hi]
        cases j with
        | zero =>
          have h256 : ¬ (REPEAT_IDX = (b0 : Int)) := by unfold REPEAT_IDX; omega
          simp [h256, eq_comm]
        | succ k => simp

/-- C2: for every byte sequence, the symbol sequence of the encoder's
repeat-escape loop has the same length as the input, symbol `i` is
`REPEAT_IDX = 256` exactly when byte `i` equals byte `i - 1` and symbol
`i - 1` was not `REPEAT_IDX` (otherwise it is the literal byte), and no two
adjacent symbols are equal. -/
theorem C2_escape_no_equal_neighbours (data : List Nat) (hdata : ∀ b ∈ data, b < 256) :
    (escapeSymbols data).length = data.length ∧
    (∀ (i b : Nat), data[i]? = some b →
      (escapeSymbols data)[i]? =
        some (if 0 < i ∧ data[i - 1]? = some b ∧
                 (escapeSymbols data)[i - 1]? ≠ some REPEAT_IDX
              then REPEAT_IDX else (b : Int))) ∧
    List.Chain' (fun a b => a ≠ b) (escapeSymbols data) := by
  refine ⟨escapeLoop_length _ _ _, ?_, ?_⟩
  · intro i b hi
    have h := escapeLoop_getElem (-1) false data hdata i b hi
    unfold escapeSymbols
    rw [h]
    have hneg : ¬ ((b : Int) = -1) := by omega
    simp [hneg]
  · have h := escapeLoop_chain (-1) (-1) false data hdata (by simp) (fun _ => rfl)
    have h2 : List.Chain' (fun a b => a ≠ b) ((-1 : Int) :: escapeSymbols data) := h
    exact h2.tail

/-- C2 at the input `[7, 7, 7, 7, 9]`. -/
theorem C2_escape_no_equal_neighbours_witness :
    (∀ b ∈ ([7, 7, 7, 7, 9] : List Nat), b < 256) ∧
    (escapeSymbols [7, 7, 7, 7, 9]).length = ([7, 7, 7, 7, 9] : List Nat).length ∧
    (∀ (i b : Nat), ([7, 7, 7, 7, 9] : List Nat)[i]? = some b →
      (escapeSymbols [7, 7, 7, 7, 9])[i]? =
        some (if 0 < i ∧ ([7, 7, 7, 7, 9] : List Nat)[i - 1]? = some b ∧
                 (escapeSymbols [7, 7, 7, 7, 9])[i - 1]? ≠ some REPEAT_IDX
              then REPEAT_IDX else (b : Int))) ∧
    List.Chain' (fun a b => a ≠ b) (escapeSymbols [7, 7, 7, 7, 9]) :=
  ⟨by decide, C2_escape_no_equal_neighbours [7, 7, 7, 7, 9] (by decide)⟩

/-- C3: for every byte sequence, replacing each `REPEAT_IDX` of the escaped
sequence by the most recent literal (the decoder's `lastValidByte` rule,
started at `-1`) gives back the original bytes; the escaped sequence never
starts with `REPEAT_IDX`, and a `REPEAT_IDX` at position `i` is immediately
preceded by the literal symbol of the byte it repeats. -/
theorem C3_escape_invertible (data : List Nat) (hdata : ∀ b ∈ data, b < 256) :
    resolveSymbols (-1) (escapeSymbols data) = data ∧
    (escapeSymbols data)[0]? ≠ some REPEAT_IDX ∧
    (∀ i, (escapeSymbols data)[i]? = some REPEAT_IDX →
      ∃ b : Nat, data[i]? = some b ∧ 0 < i ∧ data[i - 1]? = some b ∧
        (escapeSymbols data)[i - 1]? = some (b : Int)) := by
  refine ⟨resolveSymbols_escapeLoop (-1) false data hdata, ?_, ?_⟩
  · intro h0
    obtain ⟨b, _, h1, _⟩ := escapeLoop_repeat_pos (-1) false data hdata 0 h0
    have := (h1 rfl).1
    omega
  · intro i hi
    obtain ⟨b, hb, h1, h2⟩ := escapeLoop_repeat_pos (-1) false data hdata i hi
    have hpos : 0 < i := by
      rcases Nat.eq_zero_or_pos i with h | h
      · have := (h1 h).1
        omega
      · exact h
    exact ⟨b, hb, hpos, h2 hpos⟩

/-- C3 at the input `[254, 5, 5, 5, 0, 0]`. -/
theorem C3_escape_invertible_witness :
    (∀ b ∈ ([254, 5, 5, 5, 0, 0] : List Nat), b < 256) ∧
    resolveSymbols (-1) (escapeSymbols [254, 5, 5, 5, 0, 0]) = [254, 5, 5, 5, 0, 0] ∧
    (escapeSymbols [254, 5, 5, 5, 0, 0])[0]? ≠ some REPEAT_IDX ∧
    (∀ i, (escapeSymbols [254, 5, 5, 5, 0, 0])[i]? = some REPEAT_IDX →
      ∃ b : Nat, ([254, 5, 5, 5, 0, 0] : List Nat)[i]? = some b ∧ 0 < i ∧
        ([254, 5, 5, 5, 0, 0] : List Nat)[i - 1]? = some b ∧
        (escapeSymbols [254, 5, 5, 5, 0, 0])[i - 1]? = some (b : Int)) :=
  ⟨by decide, C3_escape_invertible [254, 5, 5, 5, 0, 0] (by decide)⟩

/-! ## Termination and validation -/

theorem adaptiveThreshold_of_not_idle (cfg : DecoderConfig) (s : DecoderState) (m : ℚ)
    (h : s.state ≠ STATE_IDLE) : adaptiveThreshold cfg s m = s := by
  simp [adaptiveThreshold, h]

/-- A step whose frame satisfies the termination guard: the link goes back to
`STATE_IDLE`, `processedByte` and `stableCount` are cleared, and the events
are those of the validation. -/
theorem analysisStep_termination (cfg : DecoderConfig) (s : DecoderState) (fr : Frame)
    (hterm : isTermination cfg s fr) :
    analysisStep cfg s fr =
      ({ s with state := STATE_IDLE, processedByte := -1, stableCount := 0 }, validate s) := by
  have hst : s.state ≠ STATE_IDLE := by rw [hterm.1]; decide
  simp only [analysisStep, adaptiveThreshold_of_not_idle cfg s fr.maxM hst, hterm, if_true]

theorem calcSum_loop_eq (f : Nat → Nat) (n : Nat) :
    (List.range n).foldl (fun acc j => (acc + f j) % 256) 0
      = ((List.range n).map f).sum % 256 := by
  induction n with
  | zero => simp
  | succ n ih =>
    rw [List.range_succ, List.foldl_append, List.map_append, List.sum_append, ih]
    simp only [List.foldl_cons, List.foldl_nil, List.map_cons, List.map_nil, List.sum_cons,
      List.sum_nil]
    omega

/-- With at least `39 + fileSize` bytes buffered, the checksum loop sums
exactly the `fileSize` payload bytes. -/
theorem calcSum_eq_payload_sum (buf : Nat → Nat) (fileSize bufPtr : Nat)
    (h : HEADER_SIZE + fileSize ≤ bufPtr) :
    calcSum buf fileSize bufPtr = (payloadOf buf fileSize).sum % 256 := by
  unfold calcSum payloadOf
  have hmin : min fileSize (bufPtr - HEADER_SIZE) = fileSize := by omega
  rw [hmin]
  exact calcSum_loop_eq (fun j => buf (HEADER_SIZE + j)) fileSize

theorem sum_set_add (l : List Nat) (i v : Nat) (hi : i < l.length) :
    (l.set i v).sum + l[i] = l.sum + v := by
  induction l generalizing i with
  | nil => simp at hi
  | cons a t ih =>
    cases i with
    | zero => simp; omega
    | succ j =>
      have hj : j < t.length := by simpa using hi
      have := ih j hj
      simp only [List.set_cons_succ, List.sum_cons, List.getElem_cons_succ]
      omega

theorem flip_bit_ne (b k : Nat) : b ^^^ 2 ^ k ≠ b := by
  intro h
  have h1 : b ^^^ (b ^^^ 2 ^ k) = b ^^^ b := by rw [h]
  rw [Nat.xor_cancel_left, Nat.xor_self] at h1
  exact absurd h1 (by positivity)

theorem flip_bit_lt (b k : Nat) (hb : b < 256) (hk : k < 8) : b ^^^ 2 ^ k < 256 := by
  have h8 : (256 : Nat) = 2 ^ 8 := by norm_num
  rw [h8] at hb ⊢
  exact Nat.xor_lt_two_pow hb (Nat.pow_lt_pow_right (by norm_num) hk)

/-- C4: the receive buffer holds a complete frame (`39 + fileSize` bytes,
header complete) whose header checksum is the mod-256 sum of the original
payload, but whose payload has bit `k` of byte `i` flipped.  The termination
step then reports a checksum mismatch and nothing else: no file is
delivered. -/
theorem C4_checksum_sensitivity (cfg : DecoderConfig) (s : DecoderState) (fr : Frame)
    (payload : List Nat) (i k : Nat)
    (hpay : ∀ b ∈ payload, b < 256) (hi : i < payload.length) (hk : k < 8)
    (hterm : isTermination cfg s fr)
    (hdone : s.headerDone = true)
    (hsize : s.header.fileSize = payload.length)
    (hsum : s.header.checksum = payload.sum % 256)
    (hptr : s.bufPtr = HEADER_SIZE + payload.length)
    (h32 : s.bufPtr < 2 ^ 32)
    (hbuf : payloadOf s.fileBuffer payload.length = payload.set i (payload[i] ^^^ 2 ^ k)) :
    ∃ c, c ≠ s.header.checksum ∧
      (analysisStep cfg s fr).2 = [Event.checksumMismatch s.header.checksum c] ∧
      ∀ n d, Event.saved n d ∉ (analysisStep cfg s fr).2 := by
  have hb : payload[i] < 256 := hpay _ (List.getElem_mem _)
  have hne := flip_bit_ne payload[i] k
  have hlt := flip_bit_lt payload[i] k hb hk
  have hs := sum_set_add payload i (payload[i] ^^^ 2 ^ k) hi
  have hcalc : calcSum s.fileBuffer s.header.fileSize s.bufPtr
      = (payload.set i (payload[i] ^^^ 2 ^ k)).sum % 256 := by
    rw [calcSum_eq_payload_sum _ _ _ (by omega), hsize, hbuf]
  have hmis : calcSum s.fileBuffer s.header.fileSize s.bufPtr ≠ s.header.checksum := by
    rw [hcalc, hsum]
    omega
  have hexp : ¬ (s.bufPtr < (HEADER_SIZE + s.header.fileSize) % 2 ^ 32) := by
    rw [hsize, ← hptr, Nat.mod_eq_of_lt h32]
    omega
  have hev : (analysisStep cfg s fr).2
      = [Event.checksumMismatch s.header.checksum
          (calcSum s.fileBuffer s.header.fileSize s.bufPtr)] := by
    rw [analysisStep_termination cfg s fr hterm]
    simp only [validate, hdone, if_true, hexp, if_false, hmis, ne_eq, not_false_eq_true]
  refine ⟨_, hmis, hev, ?_⟩
  intro n d hmem
  rw [hev] at hmem
  simp at hmem

theorem cfg48k_BIN_WIDTH : cfg48k.BIN_WIDTH = 375 / 16 := by
  norm_num [cfg48k, calibrate, defaultConfig]

theorem cfg48k_FREQ_TERM : cfg48k.FREQ_TERM = 375 / 16 * 588 := by
  norm_num [cfg48k, calibrate, defaultConfig]

/-- A frame on the terminate bin above `0.7 * THRESHOLD` satisfies the
termination guard in `STATE_READ_DATA`. -/
theorem isTermination_bin588 (s : DecoderState) (m : ℚ) (hs : s.state = STATE_READ_DATA)
    (hm : m > s.THRESHOLD * (7 / 10)) : isTermination cfg48k s (binFrame 588 m) := by
  refine ⟨hs, hm, ?_⟩
  rw [cfg48k_BIN_WIDTH, cfg48k_FREQ_TERM]
  norm_num [binFrame]

/-- C4 at a one-byte payload `[1]` whose bit 1 was flipped (buffered byte `3`). -/
theorem C4_checksum_sensitivity_witness :
    ∃ c, c ≠ flippedState.header.checksum ∧
      (analysisStep cfg48k flippedState (binFrame 588 10)).2
        = [Event.checksumMismatch flippedState.header.checksum c] ∧
      ∀ n d, Event.saved n d ∉ (analysisStep cfg48k flippedState (binFrame 588 10)).2 :=
  C4_checksum_sensitivity cfg48k flippedState (binFrame 588 10) [1] 0 1
    (by decide) (by decide) (by decide)
    (isTermination_bin588 flippedState 10 rfl (by norm_num [flippedState, initialState]))
    rfl rfl rfl rfl (by norm_num [flippedState]) (by decide)

theorem runDecoder_append (cfg : DecoderConfig) (s : DecoderState) (a b : List Frame) :
    runDecoder cfg s (a ++ b) =
      ((runDecoder cfg (runDecoder cfg s a).1 b).1,
       (runDecoder cfg s a).2 ++ (runDecoder cfg (runDecoder cfg s a).1 b).2) := by
  induction a generalizing s with
  | nil => simp [runDecoder]
  | cons fr frs ih => simp [runDecoder, ih, List.append_assoc]

theorem inv_initialState (thr : ℚ) : Inv (initialState thr) := by
  simp [Inv, initialState, DROP_LIMIT]

theorem inv_adaptiveThreshold (cfg : DecoderConfig) (s : DecoderState) (m : ℚ) (h : Inv s) :
    Inv (adaptiveThreshold cfg s m) := by
  unfold adaptiveThreshold
  split_ifs <;> exact h

theorem inv_stability (s : DecoderState) (c : Int) (m : ℚ) (h : Inv s) :
    Inv (stability s c m) := by
  obtain ⟨a1, a2, a3, a4, a5⟩ := h
  unfold stability
  split_ifs with h1 h2 h3
  · exact ⟨le_refl _, by simp only; omega, fun _ => ⟨rfl, rfl⟩, a4, a5⟩
  · refine ⟨a1, by simp only; omega, fun h6 => ?_, a4, a5⟩
    simp only [ge_iff_le, not_le] at h2 h6
    omega
  · refine ⟨le_refl _, le_refl _, fun h6 => ?_, a4, a5⟩
    simp only [DROP_LIMIT] at h6
    omega
  · refine ⟨by simp only; omega, le_refl _, fun h6 => ?_, a4, a5⟩
    simp only [DROP_LIMIT] at h6
    omega

theorem stability_dropCount_of_not_below (s : DecoderState) (c : Int) (m : ℚ)
    (h : ¬ m < s.THRESHOLD) : (stability s c m).dropCount = 0 := by
  unfold stability
  split_ifs <;> rfl

theorem stability_THRESHOLD (s : DecoderState) (c : Int) (m : ℚ) :
    (stability s c m).THRESHOLD = s.THRESHOLD := by
  unfold stability
  split_ifs <;> rfl

theorem inv_acceptSymbol (s : DecoderState) (c : Int) (h : Inv s) (hd : s.dropCount = 0) :
    Inv (acceptSymbol s c).1 := by
  obtain ⟨a1, a2, a3, a4, a5⟩ := h
  have hnd : ¬ (DROP_LIMIT ≤ s.dropCount) := by rw [hd]; decide
  unfold acceptSymbol
  simp only
  generalize (if c = REPEAT_IDX then s.lastValidByte else c) = btp
  generalize (if 0 ≤ c ∧ c ≤ 255 then c else s.lastValidByte) = lv
  split_ifs with h1 h2 h3 h4
  · exact ⟨a1, a2, fun h6 => absurd h6 hnd, a4, a5⟩
  · refine ⟨a1, a2, fun h6 => absurd h6 hnd, fun h6 => absurd h6 (by simp), by simp⟩
  · refine ⟨a1, a2, fun h6 => absurd h6 hnd, fun _ => ?_, ?_⟩
    · simp only [ne_eq, not_not, parseHeader] at h4
      exact h4
    · simp only [HEADER_SIZE] at h3
      simp only [h3.2, MAX_FILE_SIZE]
      omega
  · refine ⟨a1, a2, fun h6 => absurd h6 hnd, fun _ => ?_, ?_⟩
    · simp only [Function.update]
      by_cases hb : s.bufPtr = 0
      · simp only [hb, not_true_eq_false, not_and, not_not, true_implies, ne_eq] at h1
        simp [hb, h1]
      · have := a4 (by omega)
        simp [Ne.symm hb, this]
    · simp only
      omega
  · exact ⟨a1, a2, fun h6 => absurd h6 hnd, a4, a5⟩
theorem inv_stateMachine (cfg : DecoderConfig) (s : DecoderState) (fr : Frame) (c : Int)
    (h : Inv s) (hd : fr.maxM > s.THRESHOLD → s.dropCount = 0) :
    Inv (stateMachine cfg s fr c).1 := by
  unfold stateMachine
  by_cases h1 : fr.maxM > s.THRESHOLD
  · rw [if_pos h1]
    split
    · split_ifs
      · exact h
      · exact h
    · obtain ⟨a1, a2, a3, a4, a5⟩ := h
      have hnd : ¬ (DROP_LIMIT ≤ s.dropCount) := by rw [hd h1]; decide
      split_ifs
      · exact ⟨a1, a2, fun h6 => absurd h6 hnd, fun h6 => absurd h6 (by simp), by simp⟩
      · exact ⟨a1, a2, a3, a4, a5⟩
    · split_ifs
      · exact inv_acceptSymbol s c h (hd h1)
      · exact h
  · rw [if_neg h1]
    exact h

theorem inv_analysisStep (cfg : DecoderConfig) (s : DecoderState) (fr : Frame) (h : Inv s) :
    Inv (analysisStep cfg s fr).1 := by
  have h1 := inv_adaptiveThreshold cfg s fr.maxM h
  unfold analysisStep
  simp only
  generalize adaptiveThreshold cfg s fr.maxM = s1 at h1 ⊢
  by_cases ht : isTermination cfg s1 fr
  · rw [if_pos ht]
    obtain ⟨a1, a2, a3, a4, a5⟩ := h1
    exact ⟨le_refl _, a2, fun _ => ⟨rfl, rfl⟩, a4, a5⟩
  · rw [if_neg ht]
    refine inv_stateMachine cfg _ fr _ (inv_stability s1 _ fr.maxM h1) (fun hm => ?_)
    rw [stability_THRESHOLD] at hm
    exact stability_dropCount_of_not_below s1 _ fr.maxM (not_lt.mpr (le_of_lt hm))

theorem inv_runDecoder (cfg : DecoderConfig) (s : DecoderState) (frs : List Frame) (h : Inv s) :
    Inv (runDecoder cfg s frs).1 := by
  induction frs generalizing s with
  | nil => exact h
  | cons fr frs ih => exact ih _ (inv_analysisStep cfg s fr h)

theorem inv_of_reachable (cfg : DecoderConfig) (thr : ℚ) (s : DecoderState)
    (h : Reachable cfg thr s) : Inv s := by
  obtain ⟨frs, rfl⟩ := h
  exact inv_runDecoder cfg _ frs (inv_initialState thr)

/-! ## Single steps -/

theorem thresholdAt_of_not_idle (cfg : DecoderConfig) (s : DecoderState) (fr : Frame)
    (h : s.state ≠ STATE_IDLE) : thresholdAt cfg s fr = s.THRESHOLD := by
  simp [thresholdAt, adaptiveThreshold_of_not_idle cfg s fr.maxM h]

theorem stability_below (s : DecoderState) (c : Int) (m : ℚ) (h : m < s.THRESHOLD) :
    stability s c m = dropStep s := by
  unfold stability dropStep
  rw [if_pos h]
  by_cases h2 : DROP_LIMIT ≤ s.dropCount + 1
  · simp [h2]
  · simp [h2]

theorem stability_above (s : DecoderState) (c : Int) (m : ℚ) (h : ¬ m < s.THRESHOLD) :
    stability s c m = setStab s c (effCount c s + 1) 0 := by
  unfold stability setStab effCount
  rw [if_neg h]
  by_cases h2 : c = s.lastByte
  · simp [h2]
  · have h3 : ¬ s.lastByte = c := fun h => h2 h.symm
    simp [h2, h3]

theorem stateMachine_of_not_above (cfg : DecoderConfig) (s : DecoderState) (fr : Frame)
    (c : Int) (h : ¬ fr.maxM > s.THRESHOLD) : stateMachine cfg s fr c = (s, []) := by
  unfold stateMachine
  rw [if_neg h]

theorem stateMachine_read (cfg : DecoderConfig) (s : DecoderState) (fr : Frame)
    (c : Int) (h : fr.maxM > s.THRESHOLD) (hs : s.state = STATE_READ_DATA) :
    stateMachine cfg s fr c =
      if s.stableCount ≥ cfg.DEBOUNCE_LIMIT ∧ c ≠ s.processedByte then acceptSymbol s c
      else (s, []) := by
  unfold stateMachine
  rw [if_pos h]
  simp only [hs]

/-- A step in `STATE_READ_DATA` below the threshold that does not terminate:
only the drop counter advances (clearing the lock at `DROP_LIMIT`). -/
theorem analysisStep_read_below (cfg : DecoderConfig) (s : DecoderState) (fr : Frame)
    (hs : s.state = STATE_READ_DATA) (hm : fr.maxM < s.THRESHOLD)
    (ht : ¬ isTermination cfg s fr) :
    analysisStep cfg s fr = (dropStep s, []) := by
  have hst : s.state ≠ STATE_IDLE := by rw [hs]; decide
  simp only [analysisStep, adaptiveThreshold_of_not_idle cfg s fr.maxM hst, ht, if_false]
  rw [stability_below _ _ _ hm]
  exact stateMachine_of_not_above cfg _ fr _ (by simp only [dropStep]; exact not_lt.mpr (le_of_lt hm))

/-- A step in `STATE_READ_DATA` above the threshold that does not match the
terminate tone: the stability variables are updated, and the symbol is
accepted when the count has reached `DEBOUNCE_LIMIT` and the symbol is not
the locked one. -/
theorem analysisStep_read_above (cfg : DecoderConfig) (s : DecoderState) (fr : Frame) (c : Int)
    (hs : s.state = STATE_READ_DATA) (hm : fr.maxM > s.THRESHOLD)
    (hc : detectSymbol cfg s.THRESHOLD fr = c) (ht : ¬ matchesTerm cfg fr) :
    analysisStep cfg s fr =
      if effCount c s + 1 ≥ cfg.DEBOUNCE_LIMIT ∧ c ≠ s.processedByte then
        acceptSymbol (setStab s c (effCount c s + 1) 0) c
      else (setStab s c (effCount c s + 1) 0, []) := by
  have hst : s.state ≠ STATE_IDLE := by rw [hs]; decide
  have ht2 : ¬ isTermination cfg s fr := fun h => ht h.2.2
  simp only [analysisStep, adaptiveThreshold_of_not_idle cfg s fr.maxM hst, ht2, if_false, hc]
  rw [stability_above _ _ _ (not_lt.mpr (le_of_lt hm))]
  rw [stateMachine_read cfg _ fr c (by simpa [setStab] using hm) (by simpa [setStab] using hs)]
  simp only [setStab]

theorem acceptSymbol_setStab (s : DecoderState) (c a b d : Int) :
    acceptSymbol (setStab s a b d) c =
      (setStab (acceptSymbol s c).1 a b d, (acceptSymbol s c).2) := by
  unfold acceptSymbol setStab
  simp only
  generalize (if c = REPEAT_IDX then s.lastValidByte else c) = btp
  generalize (if 0 ≤ c ∧ c ≤ 255 then c else s.lastValidByte) = lv
  split_ifs <;> rfl

theorem appendedBytes_validate (s : DecoderState) : appendedBytes (validate s) = [] := by
  unfold validate appendedBytes
  simp only
  split_ifs <;> rfl

theorem appendedBytes_append (a b : List Event) :
    appendedBytes (a ++ b) = appendedBytes a ++ appendedBytes b := by
  simp [appendedBytes, List.filterMap_append]

theorem adaptiveThreshold_fields (cfg : DecoderConfig) (s : DecoderState) (m : ℚ) :
    (adaptiveThreshold cfg s m).state = s.state ∧
    (adaptiveThreshold cfg s m).stableCount = s.stableCount ∧
    (adaptiveThreshold cfg s m).lastByte = s.lastByte ∧
    (adaptiveThreshold cfg s m).processedByte = s.processedByte ∧
    (adaptiveThreshold cfg s m).fileBuffer = s.fileBuffer ∧
    (adaptiveThreshold cfg s m).dropCount = s.dropCount ∧
    (adaptiveThreshold cfg s m).bufPtr = s.bufPtr := by
  unfold adaptiveThreshold
  split_ifs <;> exact ⟨rfl, rfl, rfl, rfl, rfl, rfl, rfl⟩

/-- When the debounce count is below `DEBOUNCE_LIMIT` the state machine
accepts nothing: no event, and the buffer and the stability variables are
as before. -/
theorem stateMachine_no_accept (cfg : DecoderConfig) (s : DecoderState) (fr : Frame) (c : Int)
    (h : ¬ (s.stableCount ≥ cfg.DEBOUNCE_LIMIT)) :
    (stateMachine cfg s fr c).2 = [] ∧
    (stateMachine cfg s fr c).1.fileBuffer = s.fileBuffer ∧
    (stateMachine cfg s fr c).1.lastByte = s.lastByte ∧
    (stateMachine cfg s fr c).1.stableCount = s.stableCount ∧
    (stateMachine cfg s fr c).1.dropCount = s.dropCount := by
  unfold stateMachine
  by_cases h1 : fr.maxM > s.THRESHOLD
  · rw [if_pos h1]
    split
    · split_ifs <;> exact ⟨rfl, rfl, rfl, rfl, rfl⟩
    · split_ifs <;> exact ⟨rfl, rfl, rfl, rfl, rfl⟩
    · rw [if_neg (fun hh => h hh.1)]
      exact ⟨rfl, rfl, rfl, rfl, rfl⟩
  · rw [if_neg h1]
    exact ⟨rfl, rfl, rfl, rfl, rfl⟩

/-- A step below the threshold, in any link state: nothing is appended, the
buffer and `lastByte` are unchanged, and `stableCount` is either cleared or
kept while the drop counter advances below `DROP_LIMIT`. -/
theorem below_step (cfg : DecoderConfig) (s : DecoderState) (fr : Frame)
    (hm : fr.maxM < thresholdAt cfg s fr) :
    appendedBytes (analysisStep cfg s fr).2 = [] ∧
    (analysisStep cfg s fr).1.fileBuffer = s.fileBuffer ∧
    (analysisStep cfg s fr).1.lastByte = s.lastByte ∧
    ((analysisStep cfg s fr).1.stableCount = 0 ∨
      ((analysisStep cfg s fr).1.stableCount = s.stableCount ∧
       (analysisStep cfg s fr).1.dropCount = s.dropCount + 1 ∧
       (analysisStep cfg s fr).1.dropCount < DROP_LIMIT)) := by
  obtain ⟨f1, f2, f3, f4, f5, f6, f7⟩ := adaptiveThreshold_fields cfg s fr.maxM
  unfold thresholdAt at hm
  unfold analysisStep
  simp only
  generalize adaptiveThreshold cfg s fr.maxM = s1 at *
  by_cases ht : isTermination cfg s1 fr
  · rw [if_pos ht]
    exact ⟨appendedBytes_validate s1, f5, f3, Or.inl rfl⟩
  · rw [if_neg ht, stability_below _ _ _ hm,
      stateMachine_of_not_above cfg _ fr _
        (by simp only [dropStep]; exact not_lt.mpr (le_of_lt hm))]
    refine ⟨rfl, f5, f3, ?_⟩
    simp only [dropStep]
    by_cases h6 : DROP_LIMIT ≤ s1.dropCount + 1
    · left; simp [h6]
    · right
      simp only [h6, if_false]
      exact ⟨f2, by rw [f6], by omega⟩

theorem below_run (cfg : DecoderConfig) (s : DecoderState) (frs : List Frame)
    (h : BelowRun cfg s frs) :
    appendedBytes (runDecoder cfg s frs).2 = [] ∧
    (runDecoder cfg s frs).1.fileBuffer = s.fileBuffer ∧
    (runDecoder cfg s frs).1.lastByte = s.lastByte ∧
    ((runDecoder cfg s frs).1.stableCount = 0 ∨
      ((runDecoder cfg s frs).1.stableCount = s.stableCount ∧
       (runDecoder cfg s frs).1.dropCount = s.dropCount + frs.length ∧
       ((runDecoder cfg s frs).1.dropCount < DROP_LIMIT ∨ frs = []))) := by
  induction frs generalizing s with
  | nil => exact ⟨rfl, rfl, rfl, Or.inr ⟨rfl, by simp [runDecoder], Or.inr rfl⟩⟩
  | cons fr frs ih =>
    obtain ⟨hm, hrest⟩ := h
    obtain ⟨b1, b2, b3, b4⟩ := below_step cfg s fr hm
    obtain ⟨i1, i2, i3, i4⟩ := ih _ hrest
    simp only [runDecoder, appendedBytes_append, b1, i1, List.append_nil, i2, b2, i3, b3,
      List.length_cons, true_and]
    rcases i4 with i4 | ⟨i5, i6, i7⟩
    · exact Or.inl i4
    · rcases b4 with b4 | ⟨b5, b6, b7⟩
      · left; rw [i5, b4]
      · right
        refine ⟨by rw [i5, b5], by rw [i6, b6]; push_cast; ring, ?_⟩
        rcases i7 with i7 | i7
        · exact Or.inl i7
        · left
          subst i7
          simpa [runDecoder] using b7

/-! ## The auto spacing plan -/

theorem calibrate_autoPlan (cfg0 : DecoderConfig) (sr : Nat) (hauto : cfg0.AUTO_SPACING = true)
    (hsr : 0 < sr) (hN : 0 < cfg0.FFT_SIZE) : AutoPlan (calibrate cfg0 sr) := by
  have hbw : (0 : ℚ) < (sr : ℚ) / (cfg0.FFT_SIZE : ℚ) :=
    div_pos (by exact_mod_cast hsr) (by exact_mod_cast hN)
  simp only [calibrate, hauto, if_true, AutoPlan, and_self, and_true]
  exact hbw

theorem cTrunc_lt (x : ℚ) (c : Int) (hc0 : 0 ≤ c) (h : cTrunc x = c) : x < (c : ℚ) + 1 := by
  unfold cTrunc at h
  split_ifs at h with h0
  · rw [← h]
    exact Int.lt_floor_add_one x
  · have hc : (0 : ℚ) ≤ (c : ℚ) := by exact_mod_cast hc0
    linarith

/-- Under the auto spacing plan a frame that is detected as a byte symbol
does not pass the frequency test of the termination guard. -/
theorem byte_symbol_not_term (cfg : DecoderConfig) (hp : AutoPlan cfg) (thr : ℚ) (fr : Frame)
    (c : Int) (hc0 : 0 ≤ c) (hc : c ≤ 255) (hm : fr.maxM > thr)
    (hd : detectSymbol cfg thr fr = c) : ¬ matchesTerm cfg fr := by
  obtain ⟨hbw, hsp, _, _, hbase, hterm⟩ := hp
  unfold detectSymbol at hd
  rw [if_pos hm] at hd
  have hlt := cTrunc_lt _ c hc0 hd
  have hcq : (c : ℚ) ≤ 255 := by exact_mod_cast hc
  rw [hsp, hbase] at hlt
  have hx : (fr.freq - cfg.BIN_WIDTH * 52) / (cfg.BIN_WIDTH * 2) < 256 - 1 / 2 := by linarith
  rw [div_lt_iff₀ (by positivity)] at hx
  unfold matchesTerm
  rw [hterm, abs_lt]
  rintro ⟨h1, _⟩
  nlinarith

/-! ## Debounce -/

/-- A step that observes `c` above the threshold while the count it continues
from is at most `j` with `j + 1 < DEBOUNCE_LIMIT`: nothing is appended, in
any link state. -/
theorem held_step_short (cfg : DecoderConfig) (s : DecoderState) (fr : Frame) (c j : Int)
    (hm : fr.maxM > thresholdAt cfg s fr) (hc : curByteAt cfg s fr = c)
    (hj : -1 ≤ j) (hk : s.lastByte = c → s.stableCount ≤ j) (hd : j + 1 < cfg.DEBOUNCE_LIMIT) :
    appendedBytes (analysisStep cfg s fr).2 = [] ∧
    (analysisStep cfg s fr).1.fileBuffer = s.fileBuffer ∧
    ((analysisStep cfg s fr).1.lastByte = c → (analysisStep cfg s fr).1.stableCount ≤ j + 1) := by
  obtain ⟨f1, f2, f3, f4, f5, f6, f7⟩ := adaptiveThreshold_fields cfg s fr.maxM
  unfold curByteAt at hc
  unfold thresholdAt at hm hc
  unfold analysisStep
  simp only
  generalize adaptiveThreshold cfg s fr.maxM = s1 at *
  by_cases ht : isTermination cfg s1 fr
  · rw [if_pos ht]
    exact ⟨appendedBytes_validate s1, f5, fun _ => by simp only; omega⟩
  · rw [if_neg ht, hc, stability_above _ _ _ (not_lt.mpr (le_of_lt hm))]
    have he : effCount c s1 + 1 ≤ j + 1 := by
      unfold effCount
      split_ifs with h1
      · have := hk (f3 ▸ h1)
        omega
      · omega
    have hna : ¬ ((setStab s1 c (effCount c s1 + 1) 0).stableCount ≥ cfg.DEBOUNCE_LIMIT) := by
      simp only [setStab]
      omega
    obtain ⟨g1, g2, g3, g4, g5⟩ := stateMachine_no_accept cfg _ fr c hna
    refine ⟨by rw [g1]; rfl, by rw [g2]; exact f5, fun _ => ?_⟩
    rw [g4]
    exact he

theorem held_run_short (cfg : DecoderConfig) (c : Int) (frs : List Frame) (s : DecoderState)
    (j : Int) (hrun : HeldRun cfg c s frs)
    (hj : -1 ≤ j) (hk : s.lastByte = c → s.stableCount ≤ j)
    (hd : j + frs.length < cfg.DEBOUNCE_LIMIT) :
    appendedBytes (runDecoder cfg s frs).2 = [] ∧
    (runDecoder cfg s frs).1.fileBuffer = s.fileBuffer := by
  induction frs generalizing s j with
  | nil => exact ⟨rfl, rfl⟩
  | cons fr frs ih =>
    obtain ⟨⟨hm, hc⟩, hrest⟩ := hrun
    simp only [List.length_cons, Nat.cast_add, Nat.cast_one] at hd
    obtain ⟨a1, a2, a3⟩ := held_step_short cfg s fr c j hm hc hj hk (by omega)
    obtain ⟨i1, i2⟩ := ih _ (j + 1) hrest (by omega) a3 (by omega)
    simp only [runDecoder, appendedBytes_append, a1, i1, List.append_nil, i2, a2, and_self]

/-- After a `FreshStart` the count a run of `c` continues from is at most `0`. -/
theorem freshStart_count (cfg : DecoderConfig) (c : Int) (s0 : DecoderState)
    (left : List Frame) (hdrop : 0 ≤ s0.dropCount) (h : FreshStart cfg c s0 left) :
    (runDecoder cfg s0 left).1.lastByte = c → (runDecoder cfg s0 left).1.stableCount ≤ 0 := by
  rcases h with ⟨fL, gs, rfl, hm, hc, hbelow⟩ | ⟨hlen, hbelow⟩
  · obtain ⟨b1, b2, b3, b4⟩ := below_run cfg _ gs hbelow
    have hstep : (analysisStep cfg s0 fL).1.lastByte = c →
        (analysisStep cfg s0 fL).1.stableCount ≤ 0 := by
      obtain ⟨f1, f2, f3, f4, f5, f6, f7⟩ := adaptiveThreshold_fields cfg s0 fL.maxM
      unfold curByteAt at hc
      unfold thresholdAt at hm hc
      unfold analysisStep
      simp only
      generalize adaptiveThreshold cfg s0 fL.maxM = s1 at *
      by_cases ht : isTermination cfg s1 fL
      · rw [if_pos ht]
        intro _
        exact le_refl _
      · rw [if_neg ht, stability_above _ _ _ hm]
        intro hl
        exfalso
        unfold stateMachine at hl
        by_cases h1 : fL.maxM > (setStab s1 (detectSymbol cfg s1.THRESHOLD fL)
            (effCount (detectSymbol cfg s1.THRESHOLD fL) s1 + 1) 0).THRESHOLD
        · rw [if_pos h1] at hl
          have hacc : ∀ x : DecoderState, (acceptSymbol x
              (detectSymbol cfg s1.THRESHOLD fL)).1.lastByte = x.lastByte := by
            intro x
            rw [show x = setStab x x.lastByte x.stableCount x.dropCount from rfl,
              acceptSymbol_setStab]
            rfl
          split at hl
          · split_ifs at hl <;> exact hc hl
          · split_ifs at hl <;> exact hc hl
          · split_ifs at hl
            · rw [hacc] at hl
              exact hc hl
            · exact hc hl
        · rw [if_neg h1] at hl
          exact hc hl
    intro hl
    simp only [runDecoder] at hl ⊢
    rw [b3] at hl
    have h0 := hstep hl
    rcases b4 with b4 | ⟨b5, _, _⟩
    · rw [b4]
    · rw [b5]; exact h0
  · obtain ⟨b1, b2, b3, b4⟩ := below_run cfg s0 left hbelow
    intro _
    rcases b4 with b4 | ⟨_, b6, b7⟩
    · rw [b4]
    · exfalso
      rcases b7 with b7 | b7
      · simp only [DROP_LIMIT] at b7 hlen
        omega
      · subst b7
        simp [DROP_LIMIT] at hlen

/-- C7 (counterexample): from the reachable `STATE_READ_DATA` state
`sixSyncState` (the tone of `0xFE` was seen for six steps, not yet accepted),
one step below the threshold delimits a new run of the same symbol on the
left; that run lasts a single step (fewer than `DEBOUNCE_LIMIT = 6`), is
followed by a step below the threshold, and a byte is appended during it. -/
theorem C7_debounce_lower_counterexample :
    Reachable cfg48k 5 sixSyncState ∧
    sixSyncState.state = STATE_READ_DATA ∧
    BelowRun cfg48k sixSyncState [binFrame 0 0] ∧
    (runDecoder cfg48k sixSyncState [binFrame 0 0]).1.state = STATE_READ_DATA ∧
    HeldRun cfg48k 254 (runDecoder cfg48k sixSyncState [binFrame 0 0]).1 [binFrame 560 10] ∧
    BelowRun cfg48k
      (runDecoder cfg48k (runDecoder cfg48k sixSyncState [binFrame 0 0]).1 [binFrame 560 10]).1
      [binFrame 0 0] ∧
    (([binFrame 560 10] : List Frame).length : Int) < cfg48k.DEBOUNCE_LIMIT ∧
    appendedBytes
      (runDecoder cfg48k (runDecoder cfg48k sixSyncState [binFrame 0 0]).1 [binFrame 560 10]).2
      = [254] := by
  refine ⟨⟨sixSyncFrames, rfl⟩, ?_, ?_, ?_, ?_, ?_, ?_, ?_⟩ <;> with_unfolding_all decide

/-- C7 (amended): in every reachable state (in particular every reachable
`STATE_READ_DATA` state), let a run of steps that observe the symbol `c`
above the threshold be preceded by a `FreshStart`: a step at or above the
threshold carrying another symbol and then any number of steps below the
threshold, or at least `DROP_LIMIT` consecutive steps below the threshold.
If the run has fewer than `DEBOUNCE_LIMIT` steps, no byte is appended to the
receive buffer during the run and the buffer content is unchanged. -/
theorem C7_debounce_lower (cfg : DecoderConfig) (thr0 : ℚ) (s0 : DecoderState) (c : Int)
    (left run : List Frame)
    (hreach : Reachable cfg thr0 s0)
    (hleft : FreshStart cfg c s0 left)
    (hrun : HeldRun cfg c (runDecoder cfg s0 left).1 run)
    (hlen : (run.length : Int) < cfg.DEBOUNCE_LIMIT) :
    appendedBytes (runDecoder cfg (runDecoder cfg s0 left).1 run).2 = [] ∧
    (runDecoder cfg (runDecoder cfg s0 left).1 run).1.fileBuffer
      = (runDecoder cfg s0 left).1.fileBuffer := by
  have hinv := inv_of_reachable cfg thr0 s0 hreach
  have hk := freshStart_count cfg c s0 left hinv.2.1 hleft
  exact held_run_short cfg c run _ 0 hrun (by norm_num) hk (by omega)

/-- C7 (amended) at the reachable `STATE_READ_DATA` state `syncLockedState`:
a further `HEADER` frame (symbol `-7`) on the left, then five frames of the
tone of `0xFE`. -/
theorem C7_debounce_lower_witness :
    syncLockedState.state = STATE_READ_DATA ∧
    appendedBytes (runDecoder cfg48k (runDecoder cfg48k syncLockedState [binFrame 36 10]).1
      (List.replicate 5 (binFrame 560 10))).2 = [] ∧
    (runDecoder cfg48k (runDecoder cfg48k syncLockedState [binFrame 36 10]).1
      (List.replicate 5 (binFrame 560 10))).1.fileBuffer
      = (runDecoder cfg48k syncLockedState [binFrame 36 10]).1.fileBuffer :=
  ⟨by with_unfolding_all decide,
   C7_debounce_lower cfg48k 5 syncLockedState 254 [binFrame 36 10]
    (List.replicate 5 (binFrame 560 10))
    ⟨[binFrame 26 10, binFrame 36 10], rfl⟩
    (Or.inl ⟨binFrame 36 10, [], rfl, by with_unfolding_all decide,
      by with_unfolding_all decide, trivial⟩)
    (by with_unfolding_all decide) (by with_unfolding_all decide)⟩

theorem setStab_setStab (s : DecoderState) (a b d a2 b2 d2 : Int) :
    setStab (setStab s a b d) a2 b2 d2 = setStab s a2 b2 d2 := rfl

theorem effCount_setStab (s : DecoderState) (c b d : Int) :
    effCount c (setStab s c b d) = b := by
  simp [effCount, setStab]

theorem acceptSymbol_fields (s : DecoderState) (c : Int) :
    (acceptSymbol s c).1.processedByte = c ∧
    (acceptSymbol s c).1.state = s.state ∧
    (acceptSymbol s c).1.THRESHOLD = s.THRESHOLD := by
  unfold acceptSymbol
  simp only
  generalize (if c = REPEAT_IDX then s.lastValidByte else c) = btp
  generalize (if 0 ≤ c ∧ c ≤ 255 then c else s.lastValidByte) = lv
  split_ifs <;> exact ⟨rfl, rfl, rfl⟩

/-- A run of `c` in `STATE_READ_DATA` during which `c` is not accepted (it is
the locked symbol, or the count stays below `DEBOUNCE_LIMIT`): only the
stability variables move. -/
theorem held_run_idle (cfg : DecoderConfig) (c : Int) (frs : List Frame) (s : DecoderState)
    (fr : Frame) (hs : s.state = STATE_READ_DATA)
    (hheld : HeldIn cfg s.THRESHOLD c (fr :: frs))
    (hno : s.processedByte = c ∨ effCount c s + (frs.length + 1) < cfg.DEBOUNCE_LIMIT) :
    runDecoder cfg s (fr :: frs) = (setStab s c (effCount c s + (frs.length + 1)) 0, []) := by
  induction frs generalizing s fr with
  | nil =>
    obtain ⟨hm, hc, ht⟩ := hheld fr (List.mem_cons_self _ _)
    have hcond : ¬ (effCount c s + 1 ≥ cfg.DEBOUNCE_LIMIT ∧ c ≠ s.processedByte) := by
      rintro ⟨h1, h2⟩
      rcases hno with h | h
      · exact h2 h.symm
      · simp only [List.length_nil, Nat.cast_zero, zero_add] at h
        omega
    simp only [runDecoder, analysisStep_read_above cfg s fr c hs hm hc ht, if_neg hcond,
      List.length_nil, Nat.cast_zero, zero_add, List.append_nil]
  | cons fr2 frs ih =>
    obtain ⟨hm, hc, ht⟩ := hheld fr (List.mem_cons_self _ _)
    have hcond : ¬ (effCount c s + 1 ≥ cfg.DEBOUNCE_LIMIT ∧ c ≠ s.processedByte) := by
      rintro ⟨h1, h2⟩
      rcases hno with h | h
      · exact h2 h.symm
      · simp only [List.length_cons, Nat.cast_add, Nat.cast_one] at h
        omega
    have hstep := analysisStep_read_above cfg s fr c hs hm hc ht
    rw [if_neg hcond] at hstep
    have hrest := ih (setStab s c (effCount c s + 1) 0) fr2 hs
      (fun f hf => hheld f (List.mem_cons_of_mem _ hf))
      (by
        rcases hno with h | h
        · exact Or.inl h
        · right
          rw [effCount_setStab]
          simp only [List.length_cons, Nat.cast_add, Nat.cast_one] at h
          omega)
    rw [runDecoder, hstep]
    simp only [hrest, effCount_setStab, setStab_setStab, List.length_cons, Nat.cast_add,
      Nat.cast_one, List.append_nil]
    congr 2
    ring

/-- A run of `c` in `STATE_READ_DATA` during which the count reaches
`DEBOUNCE_LIMIT` while `c` is not the locked symbol: the byte-processing
branch is executed exactly once. -/
theorem held_run_accept (cfg : DecoderConfig) (c : Int) (frs : List Frame) (s : DecoderState)
    (fr : Frame) (hs : s.state = STATE_READ_DATA)
    (hheld : HeldIn cfg s.THRESHOLD c (fr :: frs))
    (hp : s.processedByte ≠ c)
    (hd : effCount c s + (frs.length + 1) ≥ cfg.DEBOUNCE_LIMIT) :
    runDecoder cfg s (fr :: frs) =
      (setStab (acceptSymbol s c).1 c (effCount c s + (frs.length + 1)) 0,
       (acceptSymbol s c).2) := by
  induction frs generalizing s fr with
  | nil =>
    obtain ⟨hm, hc, ht⟩ := hheld fr (List.mem_cons_self _ _)
    simp only [List.length_nil, Nat.cast_zero, zero_add] at hd
    have hcond : effCount c s + 1 ≥ cfg.DEBOUNCE_LIMIT ∧ c ≠ s.processedByte :=
      ⟨hd, fun h => hp h.symm⟩
    simp only [runDecoder, analysisStep_read_above cfg s fr c hs hm hc ht, if_pos hcond,
      acceptSymbol_setStab, List.length_nil, Nat.cast_zero, zero_add, List.append_nil]
  | cons fr2 frs ih =>
    obtain ⟨hm, hc, ht⟩ := hheld fr (List.mem_cons_self _ _)
    have hstep := analysisStep_read_above cfg s fr c hs hm hc ht
    have hheld2 : ∀ t : DecoderState, t.THRESHOLD = s.THRESHOLD →
        HeldIn cfg t.THRESHOLD c (fr2 :: frs) := by
      intro t ht2
      rw [ht2]
      exact fun f hf => hheld f (List.mem_cons_of_mem _ hf)
    obtain ⟨p1, p2, p3⟩ := acceptSymbol_fields s c
    by_cases hnow : effCount c s + 1 ≥ cfg.DEBOUNCE_LIMIT
    · rw [if_pos ⟨hnow, fun h => hp h.symm⟩, acceptSymbol_setStab] at hstep
      have hrest := held_run_idle cfg c frs
        (setStab (acceptSymbol s c).1 c (effCount c s + 1) 0) fr2
        (by simpa [setStab, p2] using hs)
        (hheld2 _ (by simp [setStab, p3]))
        (Or.inl (by simp [setStab, p1]))
      rw [runDecoder, hstep]
      simp only [hrest, effCount_setStab, setStab_setStab, List.length_cons, Nat.cast_add,
        Nat.cast_one, List.append_nil]
      congr 2
      ring
    · rw [if_neg (fun h => hnow h.1)] at hstep
      have hrest := ih (setStab s c (effCount c s + 1) 0) fr2 hs (hheld2 _ rfl) hp
        (by
          rw [effCount_setStab]
          simp only [List.length_cons, Nat.cast_add, Nat.cast_one] at hd
          omega)
      rw [runDecoder, hstep]
      simp only [hrest, effCount_setStab, acceptSymbol_setStab, setStab_setStab,
        List.length_cons, Nat.cast_add, Nat.cast_one, List.nil_append]
      congr 2
      ring

/-- The byte-processing branch appends the resolved byte when the buffer has
room, the byte is not below `-1`, and an empty buffer receives the sync
marker. -/
theorem acceptSymbol_appends (s : DecoderState) (c : Int)
    (hcap : s.bufPtr < MAX_FILE_SIZE)
    (hge : (if c = REPEAT_IDX then s.lastValidByte else c) ≥ -1)
    (hsync : s.bufPtr = 0 →
      toUInt8 (if c = REPEAT_IDX then s.lastValidByte else c) = SYNC_MARKER) :
    appendedBytes (acceptSymbol s c).2
      = [toUInt8 (if c = REPEAT_IDX then s.lastValidByte else c)] := by
  unfold acceptSymbol
  simp only
  generalize (if c = REPEAT_IDX then s.lastValidByte else c) = btp at *
  generalize (if 0 ≤ c ∧ c ≤ 255 then c else s.lastValidByte) = lv
  have h1 : ¬ (s.bufPtr = 0 ∧ toUInt8 btp ≠ SYNC_MARKER) := fun h => h.2 (hsync h.1)
  rw [if_neg h1, if_pos ⟨hcap, hge⟩]
  split_ifs <;> rfl

/-- C8 (counterexample): in the `STATE_READ_DATA` state `syncLockedState`
(empty buffer, `lastByte = -7`, `processedByte = -1`) the valid byte symbol
`254 = 0xFE` passes the first-byte sync rule; held above the threshold for
exactly `DEBOUNCE_LIMIT = 6` steps and followed by steps below the threshold
it is not appended at all. -/
theorem C8_debounce_exact_counterexample :
    syncLockedState.state = STATE_READ_DATA ∧
    syncLockedState.bufPtr < MAX_FILE_SIZE ∧
    (254 : Int) ≠ syncLockedState.lastByte ∧
    (254 : Int) ≠ syncLockedState.processedByte ∧
    toUInt8 254 = SYNC_MARKER ∧
    HeldIn cfg48k syncLockedState.THRESHOLD 254 (List.replicate 6 (binFrame 560 10)) ∧
    ((List.replicate 6 (binFrame 560 10)).length : Int) = cfg48k.DEBOUNCE_LIMIT ∧
    BelowRun cfg48k (runDecoder cfg48k syncLockedState (List.replicate 6 (binFrame 560 10))).1
      (List.replicate 3 (binFrame 0 0)) ∧
    appendedBytes (runDecoder cfg48k syncLockedState
      (List.replicate 6 (binFrame 560 10) ++ List.replicate 3 (binFrame 0 0))).2 = [] := by
  refine ⟨?_, ?_, ?_, ?_, ?_, ?_, ?_, ?_, ?_⟩ <;> with_unfolding_all decide

/-- C8 (amended): in `STATE_READ_DATA`, with buffer capacity remaining, let
a valid byte symbol `c` differ from `lastByte` and from `processedByte` and
pass the first-byte sync rule.  If `c` is held above the threshold for `n`
consecutive steps and steps below the threshold follow, then `c` is appended
exactly once when `n ≥ DEBOUNCE_LIMIT + 1` (and `n ≥ 1`), and not at all
otherwise: in particular not when it is held for exactly `DEBOUNCE_LIMIT`
steps.  This holds under the auto spacing plan, and under any other plan as
long as the frames of `c` do not pass the frequency test of the termination
guard. -/
theorem C8_debounce_exact (cfg : DecoderConfig) (s : DecoderState) (c : Int)
    (run tail : List Frame)
    (hs : s.state = STATE_READ_DATA) (hcap : s.bufPtr < MAX_FILE_SIZE)
    (hbyte : 0 ≤ c ∧ c ≤ 255) (hlast : c ≠ s.lastByte) (hproc : c ≠ s.processedByte)
    (hsync : s.bufPtr = 0 → toUInt8 c = SYNC_MARKER)
    (hheld : ∀ fr ∈ run, fr.maxM > s.THRESHOLD ∧ detectSymbol cfg s.THRESHOLD fr = c)
    (hplan : AutoPlan cfg ∨ ∀ fr ∈ run, ¬ matchesTerm cfg fr)
    (htail : BelowRun cfg (runDecoder cfg s run).1 tail) :
    appendedBytes (runDecoder cfg s (run ++ tail)).2 =
      if 1 ≤ run.length ∧ cfg.DEBOUNCE_LIMIT + 1 ≤ run.length then [toUInt8 c] else [] := by
  have hrun : HeldIn cfg s.THRESHOLD c run := by
    intro fr hfr
    obtain ⟨h1, h2⟩ := hheld fr hfr
    refine ⟨h1, h2, ?_⟩
    rcases hplan with hp | hnt
    · exact byte_symbol_not_term cfg hp s.THRESHOLD fr c hbyte.1 hbyte.2 h1 h2
    · exact hnt fr hfr
  have htl := (below_run cfg _ tail htail).1
  rw [runDecoder_append]
  simp only [appendedBytes_append, htl, List.append_nil]
  have he : effCount c s = -1 := by
    unfold effCount
    rw [if_neg (fun h => hlast h.symm)]
  have h256 : ¬ (c = REPEAT_IDX) := by unfold REPEAT_IDX; omega
  cases run with
  | nil => simp [runDecoder, appendedBytes]
  | cons fr frs =>
    by_cases hn : cfg.DEBOUNCE_LIMIT + 1 ≤ ((fr :: frs).length : Int)
    · have h1 : 1 ≤ (fr :: frs).length := by simp
      rw [if_pos ⟨h1, hn⟩]
      have hacc := held_run_accept cfg c frs s fr hs hrun (fun h => hproc h.symm)
        (by rw [he]; simp only [List.length_cons, Nat.cast_add, Nat.cast_one] at hn; omega)
      rw [hacc]
      have happ := acceptSymbol_appends s c hcap
        (by rw [if_neg h256]; omega) (by rw [if_neg h256]; exact hsync)
      rw [if_neg h256] at happ
      exact happ
    · rw [if_neg (fun h => hn h.2)]
      have hidle := held_run_idle cfg c frs s fr hs hrun
        (Or.inr (by rw [he]; simp only [List.length_cons, Nat.cast_add, Nat.cast_one] at hn;
                    omega))
      rw [hidle]
      rfl

/-- C8 (amended) at `syncLockedState`: the tone of `0xFE` held for seven
steps, then three steps below the threshold. -/
theorem C8_debounce_exact_witness :
    appendedBytes (runDecoder cfg48k syncLockedState
      (List.replicate 7 (binFrame 560 10) ++ List.replicate 3 (binFrame 0 0))).2 =
      if 1 ≤ (List.replicate 7 (binFrame 560 10)).length ∧
          cfg48k.DEBOUNCE_LIMIT + 1 ≤ (List.replicate 7 (binFrame 560 10)).length
      then [toUInt8 254] else [] :=
  C8_debounce_exact cfg48k syncLockedState 254
    (List.replicate 7 (binFrame 560 10)) (List.replicate 3 (binFrame 0 0))
    (by with_unfolding_all decide) (by with_unfolding_all decide)
    (by decide) (by with_unfolding_all decide) (by with_unfolding_all decide)
    (fun _ => by decide)
    (by with_unfolding_all decide)
    (Or.inl (calibrate_autoPlan defaultConfig 48000 rfl (by decide) (by decide)))
    (by with_unfolding_all decide)

/-! ## Drop hysteresis -/

theorem dropStep_iterate_fields (k : Nat) (s : DecoderState) :
    (dropStep^[k] s).state = s.state ∧
    (dropStep^[k] s).THRESHOLD = s.THRESHOLD ∧
    (dropStep^[k] s).lastByte = s.lastByte ∧
    (dropStep^[k] s).bufPtr = s.bufPtr ∧
    (dropStep^[k] s).fileBuffer = s.fileBuffer ∧
    (dropStep^[k] s).lastValidByte = s.lastValidByte ∧
    (dropStep^[k] s).headerDone = s.headerDone ∧
    (dropStep^[k] s).header = s.header ∧
    (dropStep^[k] s).dropCount = s.dropCount + k := by
  induction k with
  | zero => simp
  | succ k ih =>
    obtain ⟨a1, a2, a3, a4, a5, a6, a7, a8, a9⟩ := ih
    rw [Function.iterate_succ_apply']
    refine ⟨a1, a2, a3, a4, a5, a6, a7, a8, ?_⟩
    simp only [dropStep, a9]
    push_cast
    ring

theorem dropStep_iterate_lock (k : Nat) (s : DecoderState)
    (h : DROP_LIMIT ≤ s.dropCount → s.processedByte = -1 ∧ s.stableCount = 0) :
    (dropStep^[k] s).processedByte
      = (if DROP_LIMIT ≤ s.dropCount + k then -1 else s.processedByte) ∧
    (dropStep^[k] s).stableCount
      = (if DROP_LIMIT ≤ s.dropCount + k then 0 else s.stableCount) := by
  induction k with
  | zero =>
    by_cases h6 : DROP_LIMIT ≤ s.dropCount
    · simp [h6, h h6]
    · simp [h6]
  | succ k ih =>
    obtain ⟨i1, i2⟩ := ih
    have hd := (dropStep_iterate_fields k s).2.2.2.2.2.2.2.2
    rw [Function.iterate_succ_apply']
    simp only [dropStep, hd, i1, i2]
    push_cast
    have e : s.dropCount + (k : Int) + 1 = s.dropCount + ((k : Int) + 1) := by ring
    rw [e]
    by_cases h6 : DROP_LIMIT ≤ s.dropCount + ((k : Int) + 1)
    · simp only [h6, if_true, and_self]
    · have h7 : ¬ (DROP_LIMIT ≤ s.dropCount + (k : Int)) := by
        simp only [DROP_LIMIT] at h6 ⊢
        omega
      simp only [h6, h7, if_false, and_self]

/-- Steps below the threshold in `STATE_READ_DATA` that do not match the
terminate tone only advance the drop counter. -/
theorem quiet_run (cfg : DecoderConfig) (frs : List Frame) (s : DecoderState)
    (hs : s.state = STATE_READ_DATA) (hq : QuietIn cfg s.THRESHOLD frs) :
    runDecoder cfg s frs = (dropStep^[frs.length] s, []) := by
  induction frs generalizing s with
  | nil => rfl
  | cons fr frs ih =>
    obtain ⟨hm, ht⟩ := hq fr (List.mem_cons_self _ _)
    have hstep := analysisStep_read_below cfg s fr hs hm (fun h => ht h.2.2)
    have hrest := ih (dropStep s) hs (fun f hf => hq f (List.mem_cons_of_mem _ hf))
    rw [runDecoder, hstep]
    simp only [hrest, List.length_cons, Function.iterate_succ_apply, List.append_nil]

theorem acceptSymbol_bufPtr_pos (s : DecoderState) (c : Int)
    (hsync : 0 < s.bufPtr → s.fileBuffer 0 = SYNC_MARKER)
    (happ : appendedBytes (acceptSymbol s c).2 ≠ []) :
    0 < (acceptSymbol s c).1.bufPtr := by
  unfold acceptSymbol at happ ⊢
  simp only at happ ⊢
  generalize (if c = REPEAT_IDX then s.lastValidByte else c) = btp at *
  generalize (if 0 ≤ c ∧ c ≤ 255 then c else s.lastValidByte) = lv at *
  split_ifs at happ ⊢ with h1 h2 h3 h4
  · exact absurd rfl happ
  · exfalso
    apply h4
    simp only [parseHeader, Function.update]
    have h38 : s.bufPtr = 38 := by
      have := h3.2
      simp only [HEADER_SIZE] at this
      omega
    simp only [h38]
    rw [dif_neg (by decide)]
    exact hsync (by omega)
  · simp
  · simp
  · exact absurd rfl happ

/-- The state after a step of `STATE_READ_DATA` that appended a byte. -/
theorem accept_step_post (cfg : DecoderConfig) (s : DecoderState) (fr : Frame)
    (hs : s.state = STATE_READ_DATA)
    (hsync : 0 < s.bufPtr → s.fileBuffer 0 = SYNC_MARKER)
    (happ : appendedBytes (analysisStep cfg s fr).2 ≠ []) :
    (analysisStep cfg s fr).1.state = STATE_READ_DATA ∧
    (analysisStep cfg s fr).1.THRESHOLD = s.THRESHOLD ∧
    (analysisStep cfg s fr).1.processedByte = curByteAt cfg s fr ∧
    (analysisStep cfg s fr).1.lastByte = curByteAt cfg s fr ∧
    (analysisStep cfg s fr).1.dropCount = 0 ∧
    (analysisStep cfg s fr).1.stableCount = effCount (curByteAt cfg s fr) s + 1 ∧
    0 < (analysisStep cfg s fr).1.bufPtr := by
  have hst : s.state ≠ STATE_IDLE := by rw [hs]; decide
  have hthr : thresholdAt cfg s fr = s.THRESHOLD := thresholdAt_of_not_idle cfg s fr hst
  unfold curByteAt
  rw [hthr]
  by_cases ht : isTermination cfg s fr
  · rw [analysisStep_termination cfg s fr ht] at happ
    exact absurd (appendedBytes_validate s) happ
  · by_cases hm : fr.maxM < s.THRESHOLD
    · rw [analysisStep_read_below cfg s fr hs hm ht] at happ
      exact absurd rfl happ
    · have hstep : analysisStep cfg s fr =
          stateMachine cfg (setStab s (detectSymbol cfg s.THRESHOLD fr)
            (effCount (detectSymbol cfg s.THRESHOLD fr) s + 1) 0) fr
            (detectSymbol cfg s.THRESHOLD fr) := by
        simp only [analysisStep, adaptiveThreshold_of_not_idle cfg s fr.maxM hst, ht, if_false]
        rw [stability_above _ _ _ hm]
      rw [hstep] at happ ⊢
      by_cases hab : fr.maxM > s.THRESHOLD
      · rw [stateMachine_read cfg _ fr _ (by simpa [setStab] using hab)
          (by simpa [setStab] using hs)] at happ ⊢
        split_ifs at happ ⊢ with hcond
        · rw [acceptSymbol_setStab] at happ ⊢
          obtain ⟨p1, p2, p3⟩ := acceptSymbol_fields s (detectSymbol cfg s.THRESHOLD fr)
          refine ⟨by simpa [setStab, p2] using hs, by simp [setStab, p3],
            by simp [setStab, p1], rfl, rfl, rfl, ?_⟩
          exact acceptSymbol_bufPtr_pos s _ hsync happ
        · exact absurd rfl happ
      · rw [stateMachine_of_not_above cfg _ fr _ (by simpa [setStab] using hab)] at happ
        exact absurd rfl happ

/-- C9: in `STATE_READ_DATA`, let a step of a reachable state accept and
append the byte symbol `c`; let `k` steps follow that are strictly below the
threshold and do not match the terminate tone; then let `c` resume above the
threshold for at least `DEBOUNCE_LIMIT` steps (at least one), with capacity
remaining.  Then `c` is appended again exactly once when `k ≥ DROP_LIMIT`,
and not appended at all when `k < DROP_LIMIT`.  This holds under the auto
spacing plan, and under any other plan as long as the resumed frames of `c`
do not pass the frequency test of the termination guard. -/
theorem C9_drop_hysteresis (cfg : DecoderConfig) (thr0 : ℚ) (s0 : DecoderState) (f0 : Frame)
    (c : Int) (gap run : List Frame)
    (hreach : Reachable cfg thr0 s0) (hs0 : s0.state = STATE_READ_DATA)
    (hbyte : 0 ≤ c ∧ c ≤ 255) (hc : curByteAt cfg s0 f0 = c)
    (hacc : appendedBytes (analysisStep cfg s0 f0).2 ≠ [])
    (hgap : QuietIn cfg s0.THRESHOLD gap)
    (hheld : ∀ fr ∈ run, fr.maxM > s0.THRESHOLD ∧ detectSymbol cfg s0.THRESHOLD fr = c)
    (hplan : AutoPlan cfg ∨ ∀ fr ∈ run, ¬ matchesTerm cfg fr)
    (hn : 1 ≤ run.length ∧ cfg.DEBOUNCE_LIMIT ≤ (run.length : Int))
    (hcap : (analysisStep cfg s0 f0).1.bufPtr < MAX_FILE_SIZE) :
    appendedBytes (runDecoder cfg (runDecoder cfg (analysisStep cfg s0 f0).1 gap).1 run).2
      = if DROP_LIMIT ≤ (gap.length : Int) then [toUInt8 c] else [] := by
  have hrun : HeldIn cfg s0.THRESHOLD c run := by
    intro fr hfr
    obtain ⟨h1, h2⟩ := hheld fr hfr
    refine ⟨h1, h2, ?_⟩
    rcases hplan with hp | hnt
    · exact byte_symbol_not_term cfg hp s0.THRESHOLD fr c hbyte.1 hbyte.2 h1 h2
    · exact hnt fr hfr
  have hinv := inv_of_reachable cfg thr0 s0 hreach
  obtain ⟨q1, q2, q3, q4, q5, q6, q7⟩ := accept_step_post cfg s0 f0 hs0 hinv.2.2.2.1 hacc
  rw [hc] at q3 q4
  generalize (analysisStep cfg s0 f0).1 = s1 at *
  rw [← q2] at hgap hrun
  rw [quiet_run cfg gap s1 q1 hgap]
  simp only
  obtain ⟨d1, d2, d3, d4, d5, d6, d7, d8, d9⟩ := dropStep_iterate_fields gap.length s1
  obtain ⟨l1, l2⟩ := dropStep_iterate_lock gap.length s1
    (fun h => by rw [q5] at h; exact absurd h (by decide))
  rw [q5, zero_add] at l1 l2
  generalize dropStep^[gap.length] s1 = s2 at *
  rw [← d2] at hrun
  have h256 : ¬ (c = REPEAT_IDX) := by unfold REPEAT_IDX; omega
  cases run with
  | nil => simp at hn
  | cons fr frs =>
    by_cases hk : DROP_LIMIT ≤ (gap.length : Int)
    · rw [if_pos hk] at l1 l2 ⊢
      have he : effCount c s2 = 0 := by
        unfold effCount
        rw [if_pos (by rw [d3, q4]), l2]
      have hrunacc := held_run_accept cfg c frs s2 fr (by rw [d1, q1]) hrun
        (by rw [l1]; omega)
        (by
          rw [he]
          have := hn.2
          simp only [List.length_cons, Nat.cast_add, Nat.cast_one] at this
          omega)
      rw [hrunacc]
      have happ := acceptSymbol_appends s2 c (by rw [d4]; exact hcap)
        (by rw [if_neg h256]; omega)
        (fun h0 => by rw [d4] at h0; omega)
      rw [if_neg h256] at happ
      exact happ
    · rw [if_neg hk] at l1 ⊢
      have hrunidle := held_run_idle cfg c frs s2 fr (by rw [d1, q1]) hrun
        (Or.inl (by rw [l1, q3]))
      rw [hrunidle]
      rfl

/-- C9 at the reachable state `sixSyncState`: the seventh frame of the tone
of `0xFE` is accepted and appended; six quiet steps follow; the tone resumes
for six steps. -/
theorem C9_drop_hysteresis_witness :
    appendedBytes (runDecoder cfg48k
      (runDecoder cfg48k (analysisStep cfg48k sixSyncState (binFrame 560 10)).1
        (List.replicate 6 (binFrame 0 0))).1 (List.replicate 6 (binFrame 560 10))).2
      = if DROP_LIMIT ≤ ((List.replicate 6 (binFrame 0 0)).length : Int)
        then [toUInt8 254] else [] :=
  C9_drop_hysteresis cfg48k 5 sixSyncState (binFrame 560 10) 254
    (List.replicate 6 (binFrame 0 0)) (List.replicate 6 (binFrame 560 10))
    ⟨sixSyncFrames, rfl⟩ (by with_unfolding_all decide) (by decide)
    (by with_unfolding_all decide) (by with_unfolding_all decide)
    (by with_unfolding_all decide) (by with_unfolding_all decide)
    (Or.inl (calibrate_autoPlan defaultConfig 48000 rfl (by decide) (by decide)))
    (by with_unfolding_all decide) (by with_unfolding_all decide)

set_option maxRecDepth 100000 in
/-- C10 (evaluation of the code at the failing inputs): in the reachable
`STATE_READ_DATA` state `syncByteState` (sync marker buffered), a tone on bin
`652` has rounded index `300`, outside `[0, 256]`; the detected symbol is
`300`, not `-1`, and after seven steps the byte `300 mod 256 = 44` is
appended.  A tone on bin `48` has rounded index `-2`; the detected symbol is
`-1`, which passes the test `byteToProcess >= -1`, and the byte `0xFF` is
appended. -/
theorem C10_out_of_range_appends :
    Reachable cfg48k 5 syncByteState ∧
    syncByteState.state = STATE_READ_DATA ∧
    ((binFrame 652 10).freq - cfg48k.BASE_FREQ) / cfg48k.BIN_SPACING = 300 ∧
    curByteAt cfg48k syncByteState (binFrame 652 10) = 300 ∧
    appendedBytes (runDecoder cfg48k syncByteState (List.replicate 7 (binFrame 652 10))).2
      = [44] ∧
    ((binFrame 48 10).freq - cfg48k.BASE_FREQ) / cfg48k.BIN_SPACING = -2 ∧
    curByteAt cfg48k syncByteState (binFrame 48 10) = -1 ∧
    appendedBytes (runDecoder cfg48k syncByteState (List.replicate 7 (binFrame 48 10))).2
      = [255] := by
  refine ⟨⟨sixSyncFrames ++ [binFrame 560 10], ?_⟩, ?_, ?_, ?_, ?_, ?_, ?_, ?_⟩
  · rw [runDecoder_append]
    rfl
  all_goals with_unfolding_all decide

/-! ## Round trip: the frequency plan -/

theorem cTrunc_add_half (v : Int) (hv : 0 ≤ v) : cTrunc ((v : ℚ) + 1 / 2) = v := by
  have h0 : (0 : ℚ) ≤ (v : ℚ) + 1 / 2 := by
    have : (0 : ℚ) ≤ (v : ℚ) := by exact_mod_cast hv
    linarith
  unfold cTrunc
  rw [if_pos h0, Int.floor_eq_iff]
  constructor <;> linarith

theorem cTrunc_neg_fifteen_halves : cTrunc (-8 + 1 / 2) = -7 := by
  unfold cTrunc
  rw [if_neg (by norm_num), Int.ceil_eq_iff]
  constructor <;> norm_num

theorem detect_data (cfg : DecoderConfig) (hp : AutoPlan cfg) (thr : ℚ) (fr : Frame) (v : Int)
    (hv : 0 ≤ v) (hf : fr.freq = cfg.BASE_FREQ + (v : ℚ) * cfg.BIN_SPACING)
    (hm : fr.maxM > thr) : detectSymbol cfg thr fr = v := by
  obtain ⟨hbw, hsp, _, _, hbase, _⟩ := hp
  unfold detectSymbol
  rw [if_pos hm, hf, hsp]
  have hne : cfg.BIN_WIDTH * 2 ≠ 0 := by positivity
  have e : (cfg.BASE_FREQ + (v : ℚ) * (cfg.BIN_WIDTH * 2) - cfg.BASE_FREQ) / (cfg.BIN_WIDTH * 2)
      = (v : ℚ) := by
    field_simp
  rw [e]
  exact cTrunc_add_half v hv

theorem not_term_data (cfg : DecoderConfig) (hp : AutoPlan cfg) (fr : Frame) (v : Int)
    (hv : v ≤ 256) (hf : fr.freq = cfg.BASE_FREQ + (v : ℚ) * cfg.BIN_SPACING) :
    ¬ matchesTerm cfg fr := by
  obtain ⟨hbw, hsp, _, _, hbase, hterm⟩ := hp
  unfold matchesTerm
  rw [hf, hsp, hbase, hterm, abs_lt]
  rintro ⟨h1, _⟩
  have hv2 : (v : ℚ) ≤ 256 := by exact_mod_cast hv
  nlinarith

theorem detect_header (cfg : DecoderConfig) (hp : AutoPlan cfg) (thr : ℚ) (fr : Frame)
    (hf : fr.freq = cfg.FREQ_HEADER) (hm : fr.maxM > thr) : detectSymbol cfg thr fr = -7 := by
  obtain ⟨hbw, hsp, _, hhdr, hbase, _⟩ := hp
  unfold detectSymbol
  rw [if_pos hm, hf, hsp, hhdr, hbase]
  have hne : cfg.BIN_WIDTH ≠ 0 := ne_of_gt hbw
  have e : (cfg.BIN_WIDTH * 36 - cfg.BIN_WIDTH * 52) / (cfg.BIN_WIDTH * 2) = (-8 : ℚ) := by
    field_simp
    ring
  rw [e]
  exact cTrunc_neg_fifteen_halves

theorem not_term_header (cfg : DecoderConfig) (hp : AutoPlan cfg) (fr : Frame)
    (hf : fr.freq = cfg.FREQ_HEADER) : ¬ matchesTerm cfg fr := by
  obtain ⟨hbw, _, _, hhdr, _, hterm⟩ := hp
  unfold matchesTerm
  rw [hf, hhdr, hterm, abs_lt]
  rintro ⟨h1, _⟩
  nlinarith

theorem header_match (cfg : DecoderConfig) (hp : AutoPlan cfg) (fr : Frame)
    (hf : fr.freq = cfg.FREQ_HEADER) :
    |fr.freq - cfg.FREQ_HEADER| < cfg.BIN_WIDTH * (3 / 2) := by
  rw [hf, sub_self, abs_zero]
  have := hp.1
  positivity

theorem hello_match (cfg : DecoderConfig) (hp : AutoPlan cfg) (fr : Frame)
    (hf : fr.freq = cfg.FREQ_HELLO) :
    |fr.freq - cfg.FREQ_HELLO| < cfg.BIN_WIDTH * (3 / 2) := by
  rw [hf, sub_self, abs_zero]
  have := hp.1
  positivity

theorem hello_not_header (cfg : DecoderConfig) (hp : AutoPlan cfg) (fr : Frame)
    (hf : fr.freq = cfg.FREQ_HELLO) :
    ¬ |fr.freq - cfg.FREQ_HEADER| < cfg.BIN_WIDTH * (3 / 2) := by
  obtain ⟨hbw, _, hhello, hhdr, _, _⟩ := hp
  rw [hf, hhello, hhdr, abs_lt]
  rintro ⟨h1, _⟩
  nlinarith

theorem term_match (cfg : DecoderConfig) (hp : AutoPlan cfg) (fr : Frame)
    (hf : fr.freq = cfg.FREQ_TERM) : matchesTerm cfg fr := by
  unfold matchesTerm
  rw [hf, sub_self, abs_zero]
  have := hp.1
  positivity

theorem term_not_hello (cfg : DecoderConfig) (hp : AutoPlan cfg) (fr : Frame)
    (hf : fr.freq = cfg.FREQ_TERM) :
    ¬ |fr.freq - cfg.FREQ_HELLO| < cfg.BIN_WIDTH * (3 / 2) := by
  obtain ⟨hbw, _, hhello, _, _, hterm⟩ := hp
  rw [hf, hhello, hterm, abs_lt]
  rintro ⟨_, h2⟩
  nlinarith

/-! ## Round trip: handshake and sync -/

theorem stability_state (s : DecoderState) (c : Int) (m : ℚ) :
    (stability s c m).state = s.state := by
  unfold stability
  split_ifs <;> rfl

/-- A step in `STATE_IDLE` with a fixed threshold. -/
theorem idle_step (cfg : DecoderConfig) (s : DecoderState) (fr : Frame)
    (hs : s.state = STATE_IDLE) (hfix : cfg.AUTO_THRESHOLD = false) :
    (analysisStep cfg s fr).2 = [] ∧
    (analysisStep cfg s fr).1.THRESHOLD = s.THRESHOLD ∧
    (analysisStep cfg s fr).1.state =
      if fr.maxM > s.THRESHOLD ∧ |fr.freq - cfg.FREQ_HELLO| < cfg.BIN_WIDTH * (3 / 2)
      then STATE_WAIT_HEADER else STATE_IDLE := by
  have h1 : adaptiveThreshold cfg s fr.maxM
      = { s with smoothedNoise := s.smoothedNoise * (19 / 20) + fr.maxM * (1 / 20) } := by
    simp [adaptiveThreshold, hs, hfix]
  have hnt : ¬ isTermination cfg
      { s with smoothedNoise := s.smoothedNoise * (19 / 20) + fr.maxM * (1 / 20) } fr := by
    intro h
    have := h.1
    simp only [hs] at this
    exact absurd this (by decide)
  simp only [analysisStep, h1, hnt, if_false]
  generalize hs1 : ({ s with smoothedNoise := s.smoothedNoise * (19 / 20) + fr.maxM * (1 / 20) }
    : DecoderState) = s1
  have e1 : s1.state = STATE_IDLE := by rw [← hs1]; exact hs
  have e2 : s1.THRESHOLD = s.THRESHOLD := by rw [← hs1]
  generalize hs2 : stability s1 (detectSymbol cfg s.THRESHOLD fr) fr.maxM = s2
  have e3 : s2.state = STATE_IDLE := by rw [← hs2, stability_state]; exact e1
  have e4 : s2.THRESHOLD = s.THRESHOLD := by rw [← hs2, stability_THRESHOLD]; exact e2
  unfold stateMachine
  rw [e4]
  by_cases hm : fr.maxM > s.THRESHOLD
  · rw [if_pos hm]
    simp only [e3]
    by_cases hh : |fr.freq - cfg.FREQ_HELLO| < cfg.BIN_WIDTH * (3 / 2)
    · simp [hh, hm, e4]
    · simp [hh, e4, e3]
  · rw [if_neg hm]
    simp [hm, e4, e3]

/-- A step in `STATE_WAIT_HEADER`. -/
theorem wait_step (cfg : DecoderConfig) (s : DecoderState) (fr : Frame)
    (hs : s.state = STATE_WAIT_HEADER) :
    (analysisStep cfg s fr).2 = [] ∧
    (analysisStep cfg s fr).1.THRESHOLD = s.THRESHOLD ∧
    ((fr.maxM > s.THRESHOLD ∧ |fr.freq - cfg.FREQ_HEADER| < cfg.BIN_WIDTH * (3 / 2)) →
      (analysisStep cfg s fr).1.state = STATE_READ_DATA ∧
      (analysisStep cfg s fr).1.bufPtr = 0 ∧
      (analysisStep cfg s fr).1.headerDone = false ∧
      (analysisStep cfg s fr).1.processedByte = -1 ∧
      (analysisStep cfg s fr).1.lastByte = detectSymbol cfg s.THRESHOLD fr) ∧
    (¬ (fr.maxM > s.THRESHOLD ∧ |fr.freq - cfg.FREQ_HEADER| < cfg.BIN_WIDTH * (3 / 2)) →
      (analysisStep cfg s fr).1.state = STATE_WAIT_HEADER) := by
  have hst : s.state ≠ STATE_IDLE := by rw [hs]; decide
  have hnt : ¬ isTermination cfg s fr := by
    intro h
    have := h.1
    rw [hs] at this
    exact absurd this (by decide)
  simp only [analysisStep, adaptiveThreshold_of_not_idle cfg s fr.maxM hst, hnt, if_false]
  by_cases hm : fr.maxM > s.THRESHOLD
  · rw [stability_above _ _ _ (not_lt.mpr (le_of_lt hm))]
    unfold stateMachine
    rw [if_pos (by simpa [setStab] using hm)]
    have e3 : (setStab s (detectSymbol cfg s.THRESHOLD fr)
        (effCount (detectSymbol cfg s.THRESHOLD fr) s + 1) 0).state = STATE_WAIT_HEADER := hs
    simp only [e3]
    by_cases hh : |fr.freq - cfg.FREQ_HEADER| < cfg.BIN_WIDTH * (3 / 2)
    · simp [hh, hm, setStab]
    · simp [hh, setStab, hs]
  · rw [stateMachine_of_not_above cfg _ fr _ (by rw [stability_THRESHOLD]; exact hm)]
    simp [hm, stability_THRESHOLD, stability_state, hs]

/-- Steps in `STATE_WAIT_HEADER` none of which is a header tone above the
threshold: the link stays in `STATE_WAIT_HEADER`. -/
theorem wait_stay (cfg : DecoderConfig) (frs : List Frame) (s : DecoderState)
    (hs : s.state = STATE_WAIT_HEADER)
    (h : ∀ fr ∈ frs,
      ¬ (fr.maxM > s.THRESHOLD ∧ |fr.freq - cfg.FREQ_HEADER| < cfg.BIN_WIDTH * (3 / 2))) :
    (runDecoder cfg s frs).2 = [] ∧
    (runDecoder cfg s frs).1.THRESHOLD = s.THRESHOLD ∧
    (runDecoder cfg s frs).1.state = STATE_WAIT_HEADER := by
  induction frs generalizing s with
  | nil => exact ⟨rfl, rfl, hs⟩
  | cons fr frs ih =>
    obtain ⟨w1, w2, _, w4⟩ := wait_step cfg s fr hs
    have w5 := w4 (h fr (List.mem_cons_self _ _))
    obtain ⟨i1, i2, i3⟩ := ih _ w5 (fun f hf => by
      rw [w2]; exact h f (List.mem_cons_of_mem _ hf))
    simp only [runDecoder, w1, i1, List.append_nil, i2, w2, i3, and_self]

/-- Steps in `STATE_IDLE` (fixed threshold) none of which is a hello tone
above the threshold: the link stays in `STATE_IDLE` and nothing happens. -/
theorem idle_stay (cfg : DecoderConfig) (frs : List Frame) (s : DecoderState)
    (hs : s.state = STATE_IDLE) (hfix : cfg.AUTO_THRESHOLD = false)
    (h : ∀ fr ∈ frs,
      ¬ (fr.maxM > s.THRESHOLD ∧ |fr.freq - cfg.FREQ_HELLO| < cfg.BIN_WIDTH * (3 / 2))) :
    (runDecoder cfg s frs).2 = [] ∧
    (runDecoder cfg s frs).1.THRESHOLD = s.THRESHOLD ∧
    (runDecoder cfg s frs).1.state = STATE_IDLE := by
  induction frs generalizing s with
  | nil => exact ⟨rfl, rfl, hs⟩
  | cons fr frs ih =>
    obtain ⟨w1, w2, w3⟩ := idle_step cfg s fr hs hfix
    rw [if_neg (h fr (List.mem_cons_self _ _))] at w3
    obtain ⟨i1, i2, i3⟩ := ih _ w3 (fun f hf => by
      rw [w2]; exact h f (List.mem_cons_of_mem _ hf))
    simp only [runDecoder, w1, i1, List.append_nil, i2, w2, i3, and_self]

/-! ## Round trip: the data phase -/

theorem bufIs_update (buf : Nat → Nat) (done : List Nat) (b : Nat) (h : BufIs buf done) :
    BufIs (Function.update buf done.length b) (done ++ [b]) := by
  intro i hi
  simp only [List.length_append, List.length_singleton] at hi
  by_cases hlt : i < done.length
  · rw [List.getElem?_append_left hlt, h i hlt, Function.update_noteq (by omega)]
  · have he : i = done.length := by omega
    subst he
    simp

theorem parseHeader_update_ge (buf : Nat → Nat) (n b : Nat) (hn : HEADER_SIZE ≤ n) :
    parseHeader (Function.update buf n b) = parseHeader buf := by
  simp only [HEADER_SIZE] at hn
  have hne : ∀ i, i < 39 → Function.update buf n b i = buf i := fun i hi =>
    Function.update_noteq (by omega) _ _
  unfold parseHeader
  rw [hne 0 (by omega), hne 33 (by omega), hne 34 (by omega), hne 35 (by omega),
    hne 36 (by omega), hne 37 (by omega), hne 38 (by omega)]
  congr 1
  apply List.map_congr_left
  intro i hi
  rw [List.mem_range] at hi
  exact hne (1 + i) (by omega)

theorem dropStep_iterate_processed (k : Nat) (s : DecoderState) :
    (dropStep^[k] s).processedByte = s.processedByte ∨ (dropStep^[k] s).processedByte = -1 := by
  induction k with
  | zero => exact Or.inl rfl
  | succ k ih =>
    rw [Function.iterate_succ_apply']
    simp only [dropStep]
    split_ifs
    · exact Or.inr rfl
    · exact ih

/-- Steps in `STATE_READ_DATA` that are below the threshold and do not
satisfy the termination guard only advance the drop counter. -/
theorem silent_run (cfg : DecoderConfig) (frs : List Frame) (s : DecoderState)
    (hs : s.state = STATE_READ_DATA)
    (hq : ∀ fr ∈ frs, fr.maxM < s.THRESHOLD ∧ ¬ fr.maxM > s.THRESHOLD * (7 / 10)) :
    runDecoder cfg s frs = (dropStep^[frs.length] s, []) := by
  induction frs generalizing s with
  | nil => rfl
  | cons fr frs ih =>
    obtain ⟨hm, ht⟩ := hq fr (List.mem_cons_self _ _)
    have hstep := analysisStep_read_below cfg s fr hs hm (fun h => ht h.2.1)
    have hrest := ih (dropStep s) hs (fun f hf => hq f (List.mem_cons_of_mem _ hf))
    rw [runDecoder, hstep]
    simp only [hrest, List.length_cons, Function.iterate_succ_apply, List.append_nil]

/-- A silence block in the data phase changes nothing that matters. -/
theorem silence_block (cfg : DecoderConfig) (thr : ℚ) (L : Int) (done : List Nat)
    (s : DecoderState) (blk : List Frame) (hinv : DataInv thr L done s)
    (hblk : ∀ fr ∈ blk, 0 ≤ fr.maxM ∧ fr.maxM < thr * (7 / 10)) :
    (runDecoder cfg s blk).2 = [] ∧ DataInv thr L done (runDecoder cfg s blk).1 ∧
    (runDecoder cfg s blk).1.lastValidByte = s.lastValidByte := by
  obtain ⟨i1, i2, i3, i4, i5, i6, i7, i8⟩ := hinv
  have hq : ∀ fr ∈ blk, fr.maxM < s.THRESHOLD ∧ ¬ fr.maxM > s.THRESHOLD * (7 / 10) := by
    intro fr hfr
    obtain ⟨h0, h1⟩ := hblk fr hfr
    rw [i2]
    constructor
    · linarith
    · linarith
  rw [silent_run cfg blk s i1 hq]
  obtain ⟨d1, d2, d3, d4, d5, d6, d7, d8, d9⟩ := dropStep_iterate_fields blk.length s
  refine ⟨rfl, ⟨by rw [d1, i1], by rw [d2, i2], by rw [d3, i3], ?_, by rw [d4, i5],
    by rw [d5]; exact i6, by rw [d7]; exact i7, by rw [d8, d5]; exact i8⟩, d6⟩
  rcases dropStep_iterate_processed blk.length s with h | h
  · rw [h]; exact i4
  · exact Or.inr h

/-- The byte-processing branch in the data phase: the resolved byte `b` is
written behind the bytes already buffered, and the header is parsed when the
39th byte arrives. -/
theorem acceptSymbol_data (thr : ℚ) (L v x : Int) (done : List Nat) (b : Nat)
    (s : DecoderState) (hinv : DataInv thr L done s)
    (hb : (if v = REPEAT_IDX then s.lastValidByte else v) = (b : Int)) (hb256 : b < 256)
    (hcap : done.length < MAX_FILE_SIZE)
    (hsync : (done ++ [b])[0]? = some SYNC_MARKER) :
    (acceptSymbol s v).2 = [Event.appended b] ∧
    DataInv thr v (done ++ [b]) (setStab (acceptSymbol s v).1 v x 0) ∧
    (acceptSymbol s v).1.lastValidByte
      = (if 0 ≤ v ∧ v ≤ 255 then v else s.lastValidByte) := by
  obtain ⟨i1, i2, i3, i4, i5, i6, i7, i8⟩ := hinv
  have hu : toUInt8 (b : Int) = b := toUInt8_natCast b hb256
  have hbuf := bufIs_update s.fileBuffer done b i6
  have hfirst : Function.update s.fileBuffer done.length b 0 = SYNC_MARKER := by
    have := hbuf 0 (by simp)
    rw [hsync] at this
    exact (Option.some.inj this).symm
  unfold acceptSymbol
  simp only [hb, hu]
  generalize (if 0 ≤ v ∧ v ≤ 255 then v else s.lastValidByte) = lv
  have h1 : ¬ (s.bufPtr = 0 ∧ b ≠ SYNC_MARKER) := by
    rintro ⟨h0, hne⟩
    rw [i5] at h0
    have hnil : done = [] := List.length_eq_zero.mp h0
    subst hnil
    simp at hsync
    exact hne hsync
  have h2 : s.bufPtr < MAX_FILE_SIZE ∧ (b : Int) ≥ -1 := ⟨by rw [i5]; exact hcap, by omega⟩
  rw [if_neg h1, if_pos h2]
  simp only [i5]
  have hlen1 : (done ++ [b]).length = done.length + 1 := by simp
  by_cases h3 : s.headerDone = false ∧ done.length + 1 = HEADER_SIZE
  · rw [if_pos h3]
    have h4 : ¬ ((parseHeader (Function.update s.fileBuffer done.length b)).syncMarker
        ≠ SYNC_MARKER) := by
      simp only [parseHeader, ne_eq, not_not]
      exact hfirst
    rw [if_neg h4]
    refine ⟨rfl, ?_, rfl⟩
    unfold DataInv setStab
    rw [hlen1]
    refine ⟨i1, i2, rfl, Or.inl rfl, rfl, hbuf, ?_, fun _ => rfl⟩
    have h39 := h3.2
    exact ⟨fun _ => by omega, fun _ => rfl⟩
  · rw [if_neg h3]
    refine ⟨rfl, ?_, rfl⟩
    unfold DataInv setStab
    rw [hlen1]
    refine ⟨i1, i2, rfl, Or.inl rfl, rfl, hbuf, ?_, ?_⟩
    · constructor
      · intro hd
        have := i7.mp hd
        omega
      · intro hlen
        by_cases hd : s.headerDone = true
        · exact hd
        · exfalso
          have hd2 : s.headerDone = false := by simpa using hd
          have hlt : ¬ (HEADER_SIZE ≤ done.length) := fun h => hd (i7.mpr h)
          exact h3 ⟨hd2, by omega⟩
    · intro hlen
      have hge : HEADER_SIZE ≤ done.length := by
        by_contra hlt
        have hd2 : s.headerDone = false := by
          by_cases hd : s.headerDone = true
          · exact absurd (i7.mp hd) hlt
          · simpa using hd
        exact h3 ⟨hd2, by omega⟩
      rw [parseHeader_update_ge _ _ _ hge]
      exact i8 hge

/-- A data tone block in the data phase: the symbol `v`, different from the
symbol seen last, is accepted exactly once and its byte `b` is buffered. -/
theorem tone_block (cfg : DecoderConfig) (hp : AutoPlan cfg) (thr : ℚ) (L v : Int)
    (done : List Nat) (b : Nat) (s : DecoderState) (blk : List Frame)
    (hinv : DataInv thr L done s) (hvL : v ≠ L) (hv0 : 0 ≤ v) (hv256 : v ≤ 256)
    (hb : (if v = REPEAT_IDX then s.lastValidByte else v) = (b : Int)) (hb256 : b < 256)
    (hcap : done.length < MAX_FILE_SIZE)
    (hsync : (done ++ [b])[0]? = some SYNC_MARKER)
    (hlen : 1 ≤ blk.length ∧ cfg.DEBOUNCE_LIMIT + 1 ≤ (blk.length : Int))
    (hblk : ∀ fr ∈ blk,
      fr.freq = cfg.BASE_FREQ + (v : ℚ) * cfg.BIN_SPACING ∧ fr.maxM > thr ∧ 0 ≤ fr.maxM) :
    (runDecoder cfg s blk).2 = [Event.appended b] ∧
    DataInv thr v (done ++ [b]) (runDecoder cfg s blk).1 ∧
    (runDecoder cfg s blk).1.lastValidByte
      = (if 0 ≤ v ∧ v ≤ 255 then v else s.lastValidByte) := by
  have hinv2 := hinv
  obtain ⟨i1, i2, i3, i4, i5, i6, i7, i8⟩ := hinv2
  cases blk with
  | nil => simp at hlen
  | cons fr frs =>
    have hheld : HeldIn cfg s.THRESHOLD v (fr :: frs) := by
      intro f hf
      obtain ⟨h1, h2, _⟩ := hblk f hf
      rw [i2]
      exact ⟨h2, detect_data cfg hp thr f v hv0 h1 h2, not_term_data cfg hp f v hv256 h1⟩
    have he : effCount v s = -1 := by
      unfold effCount
      rw [if_neg (by rw [i3]; exact fun h => hvL h.symm)]
    have hpb : s.processedByte ≠ v := by
      rcases i4 with h | h
      · rw [h]; exact fun h => hvL h.symm
      · rw [h]; omega
    have hrun := held_run_accept cfg v frs s fr i1 hheld hpb
      (by
        rw [he]
        have := hlen.2
        simp only [List.length_cons, Nat.cast_add, Nat.cast_one] at this
        omega)
    rw [hrun]
    obtain ⟨a1, a2, a3⟩ := acceptSymbol_data thr L v (effCount v s + (frs.length + 1)) done b s
      hinv hb hb256 hcap hsync
    exact ⟨a1, a2, a3⟩

/-- The byte-processing branch on an empty buffer with a byte that is not
the sync marker: the symbol is locked and nothing is buffered. -/
theorem acceptSymbol_reject (s : DecoderState) (v : Int) (h0 : s.bufPtr = 0)
    (hne : toUInt8 (if v = REPEAT_IDX then s.lastValidByte else v) ≠ SYNC_MARKER) :
    (acceptSymbol s v).2 = [] ∧
    (acceptSymbol s v).1.bufPtr = 0 ∧
    (acceptSymbol s v).1.fileBuffer = s.fileBuffer ∧
    (acceptSymbol s v).1.headerDone = s.headerDone ∧
    (acceptSymbol s v).1.header = s.header := by
  unfold acceptSymbol
  simp only
  rw [if_pos ⟨h0, hne⟩]
  exact ⟨rfl, h0, rfl, rfl, rfl⟩

/-- The header tone block: the first frame moves `STATE_WAIT_HEADER` to
`STATE_READ_DATA` with an empty buffer; the remaining frames carry the symbol
`-7`, which is never buffered. -/
theorem header_block (cfg : DecoderConfig) (hp : AutoPlan cfg) (s : DecoderState)
    (blk : List Frame) (hs : s.state = STATE_WAIT_HEADER) (hne : 1 ≤ blk.length)
    (hblk : ∀ fr ∈ blk, fr.freq = cfg.FREQ_HEADER ∧ fr.maxM > s.THRESHOLD) :
    (runDecoder cfg s blk).2 = [] ∧ DataInv s.THRESHOLD (-7) [] (runDecoder cfg s blk).1 := by
  cases blk with
  | nil => simp at hne
  | cons fr frs =>
    obtain ⟨hf, hm⟩ := hblk fr (List.mem_cons_self _ _)
    obtain ⟨w1, w2, w3, _⟩ := wait_step cfg s fr hs
    obtain ⟨r1, r2, r3, r4, r5⟩ := w3 ⟨hm, header_match cfg hp fr hf⟩
    rw [detect_header cfg hp s.THRESHOLD fr hf hm] at r5
    simp only [runDecoder, w1, List.nil_append]
    generalize (analysisStep cfg s fr).1 = s1 at *
    have hbase : DataInv s.THRESHOLD (-7) [] s1 := by
      refine ⟨r1, w2, r5, Or.inr r4, by simpa using r2, fun i hi => absurd hi (by simp), ?_, ?_⟩
      · simp [r3, HEADER_SIZE]
      · intro h
        simp [HEADER_SIZE] at h
    cases frs with
    | nil => exact ⟨rfl, hbase⟩
    | cons f2 fs =>
      have hheld : HeldIn cfg s1.THRESHOLD (-7) (f2 :: fs) := by
        intro f hf2
        obtain ⟨h1, h2⟩ := hblk f (List.mem_cons_of_mem _ hf2)
        rw [w2]
        exact ⟨h2, detect_header cfg hp s.THRESHOLD f h1 h2, not_term_header cfg hp f h1⟩
      by_cases hacc : effCount (-7) s1 + ((fs.length : Int) + 1) ≥ cfg.DEBOUNCE_LIMIT
      · rw [held_run_accept cfg (-7) fs s1 f2 r1 hheld (by rw [r4]; decide) hacc]
        obtain ⟨q1, q2, q3, q4, q5⟩ := acceptSymbol_reject s1 (-7) r2 (by
          rw [if_neg (by decide)]
          decide)
        obtain ⟨p1, p2, p3⟩ := acceptSymbol_fields s1 (-7)
        refine ⟨q1, ?_⟩
        unfold DataInv setStab
        refine ⟨by rw [p2]; exact r1, by rw [p3]; exact w2, rfl, Or.inl p1, by simpa using q2,
          fun i hi => absurd hi (by simp), ?_, ?_⟩
        · simp [q4, r3, HEADER_SIZE]
        · intro h
          simp [HEADER_SIZE] at h
      · rw [held_run_idle cfg (-7) fs s1 f2 r1 hheld (Or.inr (by omega))]
        refine ⟨rfl, ?_⟩
        obtain ⟨b1, b2, b3, b4, b5, b6, b7, b8⟩ := hbase
        exact ⟨b1, b2, rfl, Or.inr r4, b5, b6, b7, b8⟩

theorem idealFrames_cons (thr : ℚ) (d : Int) (seg : Segment) (segs : List Segment)
    (blocks : List (List Frame)) (h : IdealFrames thr d (seg :: segs) blocks) :
    ∃ blk rest, blocks = blk :: rest ∧ IdealBlock thr d seg blk ∧ IdealFrames thr d segs rest := by
  cases blocks with
  | nil => exact absurd h (by simp [IdealFrames])
  | cons blk rest => exact ⟨blk, rest, rfl, h.1, h.2⟩

theorem idealBlock_tone (thr : ℚ) (d : Int) (seg : Segment) (blk : List Frame)
    (hf : seg.freq > 0) (h : IdealBlock thr d seg blk) :
    (1 ≤ blk.length ∧ d + 1 ≤ (blk.length : Int)) ∧
      ∀ fr ∈ blk, fr.freq = seg.freq ∧ fr.maxM > thr ∧ 0 ≤ fr.maxM := by
  unfold IdealBlock at h
  rw [if_pos hf] at h
  exact h

theorem idealBlock_silence (thr : ℚ) (d : Int) (seg : Segment) (blk : List Frame)
    (hf : seg.freq = 0) (h : IdealBlock thr d seg blk) :
    ∀ fr ∈ blk, 0 ≤ fr.maxM ∧ fr.maxM < thr * (7 / 10) := by
  unfold IdealBlock at h
  rw [if_neg (by rw [hf]; exact lt_irrefl _)] at h
  exact h

/-- The data phase: every symbol of the escaped sequence, sent as a tone
block followed by a silence block, appends exactly its byte. -/
theorem data_phase (cfg : DecoderConfig) (hp : AutoPlan cfg) (enc : EncoderConfig)
    (hsame : SamePlan enc cfg) (thr : ℚ) (tailSegs : List Segment) :
    ∀ (data : List Nat) (prev : Int) (lwr : Bool) (L : Int) (done : List Nat)
      (s : DecoderState) (blocks : List (List Frame)),
      (∀ b ∈ data, b < 256) →
      DataInv thr L done s →
      (lwr = true → L = REPEAT_IDX) → (lwr = false → L = prev ∨ L < 0) →
      (0 ≤ prev → s.lastValidByte = prev) →
      (done ++ data)[0]? = some SYNC_MARKER →
      done.length + data.length ≤ MAX_FILE_SIZE →
      IdealFrames thr cfg.DEBOUNCE_LIMIT
        (((escapeLoop prev lwr data).map (symbolSegments enc)).flatten ++ tailSegs) blocks →
      ∃ (L2 : Int) (s2 : DecoderState) (blocks2 : List (List Frame)),
        IdealFrames thr cfg.DEBOUNCE_LIMIT tailSegs blocks2 ∧
        DataInv thr L2 (done ++ data) s2 ∧
        runDecoder cfg s blocks.flatten =
          ((runDecoder cfg s2 blocks2.flatten).1,
           data.map Event.appended ++ (runDecoder cfg s2 blocks2.flatten).2) := by
  intro data
  induction data with
  | nil =>
    intro prev lwr L done s blocks _ hinv _ _ _ _ _ hideal
    refine ⟨L, s, blocks, ?_, by simpa using hinv, by simp⟩
    simpa [escapeLoop] using hideal
  | cons b rest ih =>
    intro prev lwr L done s blocks hdata hinv hrep hlit hlv hsync hsize hideal
    have hb : b < 256 := hdata b (List.mem_cons_self _ _)
    have hrest : ∀ c ∈ rest, c < 256 := fun c hc => hdata c (List.mem_cons_of_mem _ hc)
    obtain ⟨hbw, hsp, _, _, hbase, _⟩ := hp
    obtain ⟨sb, ss, _, _, _⟩ := hsame
    -- the symbol sent for `b` and the loop state after it
    obtain ⟨v, lwr2, hesc, hv0, hv256, hvL, hres, hlwr2t, hlwr2f, hlv2⟩ :
        ∃ (v : Int) (lwr2 : Bool),
          escapeLoop prev lwr (b :: rest) = v :: escapeLoop (b : Int) lwr2 rest ∧
          0 ≤ v ∧ v ≤ 256 ∧ v ≠ L ∧
          (if v = REPEAT_IDX then s.lastValidByte else v) = (b : Int) ∧
          (lwr2 = true → v = REPEAT_IDX) ∧ (lwr2 = false → v = (b : Int)) ∧
          (if 0 ≤ v ∧ v ≤ 255 then v else s.lastValidByte) = (b : Int) := by
      by_cases hc : (b : Int) = prev ∧ lwr = false
      · have hprev : s.lastValidByte = (b : Int) := by
          rw [hlv (by omega)]
          exact hc.1.symm
        refine ⟨REPEAT_IDX, true, ?_, by decide, by decide, ?_, ?_, fun _ => rfl, ?_, ?_⟩
        · rw [escapeLoop, if_pos hc]
        · rcases hlit hc.2 with h | h
          · rw [h]
            unfold REPEAT_IDX
            omega
          · unfold REPEAT_IDX
            omega
        · rw [if_pos rfl]
          exact hprev
        · intro h
          exact absurd h (by decide)
        · rw [if_neg (by decide)]
          exact hprev
      · have h256 : ¬ ((b : Int) = REPEAT_IDX) := by unfold REPEAT_IDX; omega
        refine ⟨(b : Int), false, ?_, by omega, by omega, ?_, ?_, ?_, fun _ => rfl, ?_⟩
        · rw [escapeLoop, if_neg hc]
        · cases lwr with
          | true =>
            rw [hrep rfl]
            exact h256
          | false =>
            rcases hlit rfl with h | h
            · rw [h]
              exact fun hh => hc ⟨hh, rfl⟩
            · omega
        · rw [if_neg h256]
        · intro h
          exact absurd h (by decide)
        · rw [if_pos ⟨by omega, by omega⟩]
    rw [hesc] at hideal
    simp only [List.map_cons, List.flatten_cons, symbolSegments, List.cons_append,
      List.nil_append] at hideal
    obtain ⟨blk1, r1, rfl, hb1, hideal1⟩ := idealFrames_cons _ _ _ _ _ hideal
    obtain ⟨blk2, r2, rfl, hb2, hideal2⟩ := idealFrames_cons _ _ _ _ _ hideal1
    have hv0q : (0 : ℚ) ≤ (v : ℚ) := by exact_mod_cast hv0
    have hfreq : enc.BASE_FREQ + (v : ℚ) * enc.BIN_SPACING > 0 := by
      rw [sb, ss, hbase, hsp]
      positivity
    obtain ⟨hlen1, hfr1⟩ := idealBlock_tone _ _ _ _ hfreq hb1
    have hfr2 := idealBlock_silence _ _ _ _ rfl hb2
    have hsync1 : (done ++ [b])[0]? = some SYNC_MARKER := by
      cases done with
      | nil => simpa using hsync
      | cons d0 ds => simpa using hsync
    simp only [List.length_cons] at hsize
    obtain ⟨t1, t2, t3⟩ := tone_block cfg ⟨hbw, hsp, ‹_›, ‹_›, hbase, ‹_›⟩ thr L v done b s blk1
      hinv hvL hv0 hv256 hres hb (by omega) hsync1 hlen1
      (fun fr hfr => by
        obtain ⟨h1, h2, h3⟩ := hfr1 fr hfr
        simp only at h1
        rw [sb, ss] at h1
        exact ⟨h1, h2, h3⟩)
    obtain ⟨q1, q2, q3⟩ := silence_block cfg thr v (done ++ [b]) (runDecoder cfg s blk1).1 blk2
      t2 hfr2
    obtain ⟨L2, s2, blocks2, k1, k2, k3⟩ := ih (b : Int) lwr2 v (done ++ [b])
      (runDecoder cfg (runDecoder cfg s blk1).1 blk2).1 r2 hrest q2 hlwr2t
      (fun h => Or.inl (hlwr2f h))
      (fun _ => by rw [q3, t3]; exact hlv2)
      (by simpa [List.append_assoc] using hsync)
      (by simp only [List.length_append, List.length_singleton]; omega)
      hideal2
    refine ⟨L2, s2, blocks2, k1, by simpa [List.append_assoc] using k2, ?_⟩
    simp only [List.flatten_cons]
    rw [runDecoder_append, runDecoder_append, k3, t1, q1]
    simp

/-! ## Round trip: the frame and its validation -/

theorem encoderChecksum_eq (l : List Nat) : encoderChecksum l = l.sum % 256 := by
  have h : ∀ (l : List Nat) (acc : Nat),
      (l.foldl (fun sum b => (sum + b) % 2 ^ 32) acc) % 2 ^ 32 = (acc + l.sum) % 2 ^ 32 := by
    intro l
    induction l with
    | nil => intro acc; simp
    | cons a t ih =>
      intro acc
      simp only [List.foldl_cons, List.sum_cons]
      rw [ih]
      norm_num
      omega
  have h0 := h l 0
  unfold encoderChecksum
  norm_num at h0 ⊢
  omega

theorem fileNameField_length (name : List Nat) : (fileNameField name).length = 32 := by
  unfold fileNameField
  simp only [List.length_append, List.length_replicate, List.length_take]
  omega

theorem fileNameField_lt (name : List Nat) (hname : ∀ c ∈ name, c < 256) :
    ∀ c ∈ fileNameField name, c < 256 := by
  intro c hc
  unfold fileNameField at hc
  simp only [List.mem_append, List.mem_replicate] at hc
  rcases hc with h | h
  · exact hname c (List.takeWhile_subset _ (List.mem_of_mem_take h))
  · rw [h.2]
    decide

theorem headerBytes_length (h : ChordHeader) (hfn : h.fileName.length = 32) :
    (headerBytes h).length = HEADER_SIZE := by
  simp [headerBytes, hfn, HEADER_SIZE]

theorem allData_lt (name payload : List Nat) (hname : ∀ c ∈ name, c < 256)
    (hpay : ∀ b ∈ payload, b < 256) : ∀ b ∈ allData name payload, b < 256 := by
  intro b hb
  unfold allData headerBytes buildHeader at hb
  simp only [List.mem_append, List.mem_cons, List.mem_singleton, List.not_mem_nil,
    or_false] at hb
  rcases hb with (((h | h) | h) | h) | h
  · rw [h]; decide
  · exact fileNameField_lt name hname b h
  · rcases h with h | h | h | h <;> (rw [h]; exact Nat.mod_lt _ (by decide))
  · rcases h with h | h
    · rw [h, encoderChecksum_eq]
      exact Nat.mod_lt _ (by decide)
    · rw [h]; decide
  · exact hpay b h

theorem allData_head (name payload : List Nat) :
    (allData name payload)[0]? = some SYNC_MARKER := by
  simp [allData, headerBytes, buildHeader, SYNC_MARKER]

theorem allData_length (name payload : List Nat) :
    (allData name payload).length = HEADER_SIZE + payload.length := by
  unfold allData
  rw [List.length_append, headerBytes_length _ (fileNameField_length name)]

/-- Reading the header back from a buffer that starts with its 39 bytes. -/
theorem parseHeader_of_bufIs (buf : Nat → Nat) (h : ChordHeader) (rest : List Nat)
    (hbuf : BufIs buf (headerBytes h ++ rest)) (hfn : h.fileName.length = 32)
    (hsz : h.fileSize < 2 ^ 32) : parseHeader buf = h := by
  have hlen : (headerBytes h ++ rest).length = 39 + rest.length := by
    rw [List.length_append, headerBytes_length h hfn, HEADER_SIZE]
  have hget : ∀ i, i < 39 → (headerBytes h)[i]? = some (buf i) := by
    intro i hi
    have := hbuf i (by omega)
    rwa [List.getElem?_append_left (by rw [headerBytes_length h hfn, HEADER_SIZE]; exact hi)]
      at this
  have hname : ∀ i, i < 32 → h.fileName[i]? = some (buf (1 + i)) := by
    intro i hi
    have := hget (1 + i) (by omega)
    unfold headerBytes at this
    rw [List.append_assoc, List.append_assoc, List.singleton_append,
      Nat.add_comm 1 i, List.getElem?_cons_succ,
      List.getElem?_append_left (by omega)] at this
    rw [Nat.add_comm 1 i]
    exact this
  have htail : ∀ j, j < 6 →
      ([h.fileSize % 256, h.fileSize / 256 % 256, h.fileSize / 65536 % 256,
        h.fileSize / 16777216 % 256, h.checksum, h.fileType] : List Nat)[j]?
        = some (buf (33 + j)) := by
    intro j hj
    have := hget (33 + j) (by omega)
    unfold headerBytes at this
    rw [List.append_assoc, List.append_assoc, List.singleton_append,
      show 33 + j = (32 + j) + 1 by omega, List.getElem?_cons_succ,
      List.getElem?_append_right (by omega)] at this
    rw [show 33 + j = (32 + j) + 1 by omega, ← this, hfn]
    simp
  have h0 : h.syncMarker = buf 0 := by
    have := hget 0 (by omega)
    unfold headerBytes at this
    simpa using this
  have t0 := htail 0 (by omega)
  have t1 := htail 1 (by omega)
  have t2 := htail 2 (by omega)
  have t3 := htail 3 (by omega)
  have t4 := htail 4 (by omega)
  have t5 := htail 5 (by omega)
  simp only [List.getElem?_cons_zero, List.getElem?_cons_succ, Option.some.injEq,
    Nat.add_zero] at t0 t1 t2 t3 t4 t5
  have hfname : (List.range 32).map (fun i => buf (1 + i)) = h.fileName := by
    apply List.ext_getElem?
    intro i
    by_cases hi : i < 32
    · rw [hname i hi]
      simp [List.getElem?_range, hi]
    · rw [List.getElem?_eq_none (by simp; omega), List.getElem?_eq_none (by omega)]
  unfold parseHeader
  rw [hfname, ← h0, ← t0, ← t1, ← t2, ← t3, ← t4, ← t5]
  have hsize : h.fileSize % 256 + 256 * (h.fileSize / 256 % 256)
      + 65536 * (h.fileSize / 65536 % 256) + 16777216 * (h.fileSize / 16777216 % 256)
      = h.fileSize := by
    norm_num at hsz
    omega
  rw [hsize]

theorem payloadOf_of_bufIs (buf : Nat → Nat) (hdr payload : List Nat)
    (hbuf : BufIs buf (hdr ++ payload)) (hlen : hdr.length = HEADER_SIZE) :
    payloadOf buf payload.length = payload := by
  unfold payloadOf
  apply List.ext_getElem?
  intro i
  by_cases hi : i < payload.length
  · have := hbuf (HEADER_SIZE + i) (by rw [List.length_append, hlen]; omega)
    rw [List.getElem?_append_right (by omega), hlen, Nat.add_sub_cancel_left] at this
    rw [this]
    simp [List.getElem?_range, hi]
  · rw [List.getElem?_eq_none (by simp; omega), List.getElem?_eq_none (by omega)]

/-- With the whole frame buffered, validation delivers the payload under the
file name field of the header. -/
theorem validate_allData (thr : ℚ) (L : Int) (name payload : List Nat) (s : DecoderState)
    (hinv : DataInv thr L (allData name payload) s)
    (hsize : HEADER_SIZE + payload.length ≤ MAX_FILE_SIZE) :
    validate s = [Event.saved (fileNameField name) payload] := by
  obtain ⟨i1, i2, i3, i4, i5, i6, i7, i8⟩ := hinv
  rw [allData_length] at i5 i7 i8
  have hdone : s.headerDone = true := i7.mpr (by omega)
  have hlt : payload.length < 2 ^ 32 := by
    have : MAX_FILE_SIZE < 2 ^ 32 := by decide
    omega
  have hhdr : s.header = buildHeader name payload := by
    rw [i8 (by omega)]
    exact parseHeader_of_bufIs s.fileBuffer (buildHeader name payload) payload i6
      (fileNameField_length name) (Nat.mod_lt _ (by norm_num))
  have hfs : s.header.fileSize = payload.length := by
    rw [hhdr]
    exact Nat.mod_eq_of_lt hlt
  have hck : s.header.checksum = payload.sum % 256 := by
    rw [hhdr]
    exact encoderChecksum_eq payload
  have hfn : s.header.fileName = fileNameField name := by rw [hhdr]; rfl
  have hpl : payloadOf s.fileBuffer payload.length = payload :=
    payloadOf_of_bufIs s.fileBuffer _ payload i6
      (headerBytes_length _ (fileNameField_length name))
  have hexp : ¬ (s.bufPtr < (HEADER_SIZE + payload.length) % 2 ^ 32) := by
    rw [i5, Nat.mod_eq_of_lt (by
      have : MAX_FILE_SIZE < 2 ^ 32 := by decide
      omega)]
    omega
  have hsum : calcSum s.fileBuffer payload.length s.bufPtr = s.header.checksum := by
    rw [calcSum_eq_payload_sum _ _ _ (by rw [i5]), hpl, hck]
  simp only [validate, hdone, if_true, hfs, hexp, if_false, hsum, ne_eq, not_true_eq_false, hfn,
    hpl]

/-- The hello tone block moves `STATE_IDLE` to `STATE_WAIT_HEADER`. -/
theorem hello_block (cfg : DecoderConfig) (hp : AutoPlan cfg) (hfix : cfg.AUTO_THRESHOLD = false)
    (s : DecoderState) (blk : List Frame) (hs : s.state = STATE_IDLE) (hne : 1 ≤ blk.length)
    (hblk : ∀ fr ∈ blk, fr.freq = cfg.FREQ_HELLO ∧ fr.maxM > s.THRESHOLD) :
    (runDecoder cfg s blk).2 = [] ∧
    (runDecoder cfg s blk).1.THRESHOLD = s.THRESHOLD ∧
    (runDecoder cfg s blk).1.state = STATE_WAIT_HEADER := by
  cases blk with
  | nil => simp at hne
  | cons fr frs =>
    obtain ⟨hf, hm⟩ := hblk fr (List.mem_cons_self _ _)
    obtain ⟨w1, w2, w3⟩ := idle_step cfg s fr hs hfix
    rw [if_pos ⟨hm, hello_match cfg hp fr hf⟩] at w3
    obtain ⟨i1, i2, i3⟩ := wait_stay cfg frs _ w3 (fun f hf2 h =>
      hello_not_header cfg hp f (hblk f (List.mem_cons_of_mem _ hf2)).1 h.2)
    simp only [runDecoder, w1, i1, List.append_nil, i2, w2, i3, and_self]

/-- The final gap and the three terminate tones: the first terminate frame
ends the transfer with the validation of the buffered frame, and the link
stays in `STATE_IDLE` afterwards. -/
theorem term_phase (cfg : DecoderConfig) (hp : AutoPlan cfg) (hfix : cfg.AUTO_THRESHOLD = false)
    (enc : EncoderConfig) (hsame : SamePlan enc cfg) (thr : ℚ) (L : Int) (done : List Nat)
    (s : DecoderState) (blocks : List (List Frame)) (hinv : DataInv thr L done s)
    (hideal : IdealFrames thr cfg.DEBOUNCE_LIMIT
      ([({ freq := 0, duration := enc.BYTE_GAP } : Segment)] ++ termSegments enc) blocks) :
    ∃ s3, DataInv thr L done s3 ∧
      (runDecoder cfg s blocks.flatten).2 = validate s3 ∧
      (runDecoder cfg s blocks.flatten).1.state = STATE_IDLE := by
  have hbw := hp.1
  have hterm := hp.2.2.2.2.2
  have hst := hsame.2.2.2.2
  have htpos : enc.FREQ_TERM > 0 := by rw [hst, hterm]; positivity
  simp only [termSegments, List.replicate, List.flatten_cons, List.flatten_nil,
    List.cons_append, List.nil_append, List.append_nil] at hideal
  obtain ⟨g3, r0, rfl, hg3, h0⟩ := idealFrames_cons _ _ _ _ _ hideal
  obtain ⟨t1, r1, rfl, ht1, h1⟩ := idealFrames_cons _ _ _ _ _ h0
  obtain ⟨q1, r2, rfl, hq1, h2⟩ := idealFrames_cons _ _ _ _ _ h1
  obtain ⟨t2, r3, rfl, ht2, h3⟩ := idealFrames_cons _ _ _ _ _ h2
  obtain ⟨q2, r4, rfl, hq2, h4⟩ := idealFrames_cons _ _ _ _ _ h3
  obtain ⟨t3, r5, rfl, ht3, h5⟩ := idealFrames_cons _ _ _ _ _ h4
  obtain ⟨q3, r6, rfl, hq3, h6⟩ := idealFrames_cons _ _ _ _ _ h5
  have hr6 : r6 = [] := by
    cases r6 with
    | nil => rfl
    | cons a t => exact absurd h6 (by simp [IdealFrames])
  subst hr6
  have sg3 := idealBlock_silence _ _ _ _ rfl hg3
  have sq1 := idealBlock_silence _ _ _ _ rfl hq1
  have sq2 := idealBlock_silence _ _ _ _ rfl hq2
  have sq3 := idealBlock_silence _ _ _ _ rfl hq3
  obtain ⟨l1, f1⟩ := idealBlock_tone _ _ _ _ htpos ht1
  obtain ⟨_, f2⟩ := idealBlock_tone _ _ _ _ htpos ht2
  obtain ⟨_, f3⟩ := idealBlock_tone _ _ _ _ htpos ht3
  obtain ⟨e1, e2, _⟩ := silence_block cfg thr L done s g3 hinv sg3
  refine ⟨(runDecoder cfg s g3).1, e2, ?_⟩
  obtain ⟨s3, hs3⟩ : ∃ s3, (runDecoder cfg s g3).1 = s3 := ⟨_, rfl⟩
  rw [hs3] at e2 ⊢
  obtain ⟨j1, j2, j3, j4, j5, j6, j7, j8⟩ := e2
  cases t1 with
  | nil => simp at l1
  | cons fr frs =>
    obtain ⟨ff, fm, f0⟩ := f1 fr (List.mem_cons_self _ _)
    simp only at ff
    have hT : isTermination cfg s3 fr := by
      refine ⟨j1, ?_, term_match cfg hp fr (by rw [ff, hst])⟩
      rw [j2]
      by_cases h0 : 0 ≤ thr
      · have : thr * (7 / 10) ≤ thr := by linarith
        exact lt_of_le_of_lt this fm
      · have : thr * (7 / 10) < 0 := by
          have : thr < 0 := not_le.mp h0
          linarith
        exact lt_of_lt_of_le this f0
    have hstep := analysisStep_termination cfg s3 fr hT
    have hquiet : ∀ (q : List Frame), (∀ f ∈ q, 0 ≤ f.maxM ∧ f.maxM < thr * (7 / 10)) →
        ∀ f ∈ q, ¬ (f.maxM > thr ∧ |f.freq - cfg.FREQ_HELLO| < cfg.BIN_WIDTH * (3 / 2)) := by
      intro q hq f hf h
      obtain ⟨h0, h1⟩ := hq f hf
      linarith [h.1]
    have htone : ∀ (t : List Frame),
        (∀ f ∈ t, f.freq = enc.FREQ_TERM ∧ f.maxM > thr ∧ 0 ≤ f.maxM) →
        ∀ f ∈ t, ¬ (f.maxM > thr ∧ |f.freq - cfg.FREQ_HELLO| < cfg.BIN_WIDTH * (3 / 2)) := by
      intro t ht f hf h
      exact term_not_hello cfg hp f (by rw [(ht f hf).1, hst]) h.2
    have hrest : ∀ f ∈ frs ++ (q1 ++ (t2 ++ (q2 ++ (t3 ++ q3)))),
        ¬ (f.maxM > thr ∧ |f.freq - cfg.FREQ_HELLO| < cfg.BIN_WIDTH * (3 / 2)) := by
      intro f hf
      simp only [List.mem_append] at hf
      rcases hf with h | h | h | h | h | h
      · exact htone (fr :: frs) f1 f (List.mem_cons_of_mem _ h)
      · exact hquiet q1 sq1 f h
      · exact htone t2 f2 f h
      · exact hquiet q2 sq2 f h
      · exact htone t3 f3 f h
      · exact hquiet q3 sq3 f h
    have hidle := idle_stay cfg (frs ++ (q1 ++ (t2 ++ (q2 ++ (t3 ++ q3)))))
      { s3 with state := STATE_IDLE, processedByte := -1, stableCount := 0 } rfl hfix
      (by simpa [j2] using hrest)
    obtain ⟨k1, k2, k3⟩ := hidle
    simp only [List.flatten_cons, List.flatten_nil, List.append_nil]
    rw [runDecoder_append, e1, List.nil_append, hs3, List.cons_append, runDecoder, hstep]
    simp only [k1, List.append_nil, k3, and_self]

theorem reports_map_appended (l : List Nat) : reports (l.map Event.appended) = [] := by
  induction l with
  | nil => rfl
  | cons a t ih => simp [reports]

theorem appendedBytes_map_appended (l : List Nat) :
    appendedBytes (l.map Event.appended) = l := by
  induction l with
  | nil => rfl
  | cons a t ih => simpa [appendedBytes] using ih

/-- Handshake, sync and data phase: over an ideal view of the segments
`dataSegments enc data`, for any bytes `data` that start with the sync
marker, the decoder buffers exactly `data` and stays in `STATE_READ_DATA`. -/
theorem receive_phase (cfg : DecoderConfig) (hp : AutoPlan cfg)
    (hfix : cfg.AUTO_THRESHOLD = false) (enc : EncoderConfig) (hsame : SamePlan enc cfg)
    (thr : ℚ) (data : List Nat) (tailSegs : List Segment) (blocks : List (List Frame))
    (hdata : ∀ b ∈ data, b < 256) (hsync : data[0]? = some SYNC_MARKER)
    (hsize : data.length ≤ MAX_FILE_SIZE)
    (hideal : IdealFrames thr cfg.DEBOUNCE_LIMIT (dataSegments enc data ++ tailSegs) blocks) :
    ∃ (L2 : Int) (s5 : DecoderState) (blocks2 : List (List Frame)),
      IdealFrames thr cfg.DEBOUNCE_LIMIT tailSegs blocks2 ∧
      DataInv thr L2 data s5 ∧
      runDecoder cfg (initialState thr) blocks.flatten =
        ((runDecoder cfg s5 blocks2.flatten).1,
         data.map Event.appended ++ (runDecoder cfg s5 blocks2.flatten).2) := by
  have hp2 := hp
  obtain ⟨hbw, hsp, hhello, hhdr, hbase, hterm⟩ := hp2
  have hs2 := hsame
  obtain ⟨sb, ss, shello, shdr, sterm⟩ := hs2
  unfold dataSegments escapeSymbols at hideal
  simp only [List.append_assoc, List.cons_append, List.nil_append] at hideal
  obtain ⟨bh, r1, rfl, hbh, h1⟩ := idealFrames_cons _ _ _ _ _ hideal
  obtain ⟨g1, r2, rfl, hg1, h2⟩ := idealFrames_cons _ _ _ _ _ h1
  obtain ⟨bH, r3, rfl, hbH, h3⟩ := idealFrames_cons _ _ _ _ _ h2
  obtain ⟨g2, r4, rfl, hg2, h4⟩ := idealFrames_cons _ _ _ _ _ h3
  obtain ⟨lh, fh⟩ := idealBlock_tone _ _ _ _ (by
    show enc.FREQ_HELLO > 0
    rw [shello, hhello]; positivity) hbh
  obtain ⟨lH, fH⟩ := idealBlock_tone _ _ _ _ (by
    show enc.FREQ_HEADER > 0
    rw [shdr, hhdr]; positivity) hbH
  have sg1 := idealBlock_silence _ _ _ _ rfl hg1
  have sg2 := idealBlock_silence _ _ _ _ rfl hg2
  -- hello
  obtain ⟨a1, a2, a3⟩ := hello_block cfg hp hfix (initialState thr) bh rfl lh.1
    (fun fr hfr => ⟨by rw [(fh fr hfr).1]; exact shello, (fh fr hfr).2.1⟩)
  obtain ⟨s1, hs1⟩ : ∃ s1, (runDecoder cfg (initialState thr) bh).1 = s1 := ⟨_, rfl⟩
  rw [hs1] at a2 a3
  have a2' : s1.THRESHOLD = thr := a2
  -- first gap
  obtain ⟨b1, b2, b3⟩ := wait_stay cfg g1 s1 a3 (fun fr hfr h => by
    obtain ⟨h0, h1⟩ := sg1 fr hfr
    rw [a2'] at h
    linarith [h.1])
  obtain ⟨s2, hs2⟩ : ∃ s2, (runDecoder cfg s1 g1).1 = s2 := ⟨_, rfl⟩
  rw [hs2] at b2 b3
  have b2' : s2.THRESHOLD = thr := by rw [b2, a2']
  -- header
  obtain ⟨c1, c2⟩ := header_block cfg hp s2 bH b3 lH.1
    (fun fr hfr => ⟨by rw [(fH fr hfr).1]; exact shdr, by rw [b2']; exact (fH fr hfr).2.1⟩)
  rw [b2'] at c2
  obtain ⟨s3, hs3⟩ : ∃ s3, (runDecoder cfg s2 bH).1 = s3 := ⟨_, rfl⟩
  rw [hs3] at c2
  -- second gap
  obtain ⟨d1, d2, _⟩ := silence_block cfg thr (-7) [] s3 g2 c2 sg2
  obtain ⟨s4, hs4⟩ : ∃ s4, (runDecoder cfg s3 g2).1 = s4 := ⟨_, rfl⟩
  rw [hs4] at d2
  -- data
  obtain ⟨L2, s5, blocks2, e1, e2, e3⟩ := data_phase cfg hp enc hsame thr tailSegs
    data (-1) false (-7) [] s4 r4
    hdata d2 (fun h => absurd h (by decide))
    (fun _ => Or.inr (by decide)) (fun h => absurd h (by decide))
    (by rw [List.nil_append]; exact hsync)
    (by simp only [List.length_nil]; omega)
    h4
  rw [List.nil_append] at e2
  refine ⟨L2, s5, blocks2, e1, e2, ?_⟩
  simp only [List.flatten_cons]
  rw [runDecoder_append, hs1, runDecoder_append, hs2, runDecoder_append, hs3, runDecoder_append,
    hs4, e3, a1, b1, c1, d1]
  simp

/-- The round trip for any decoder configuration that uses the auto spacing
plan with a fixed threshold. -/
theorem round_trip_core (cfg : DecoderConfig) (hp : AutoPlan cfg)
    (hfix : cfg.AUTO_THRESHOLD = false) (enc : EncoderConfig) (hsame : SamePlan enc cfg)
    (thr : ℚ) (payload : List Nat) (blocks : List (List Frame))
    (hname : ∀ c ∈ enc.INPUT_FILE, c < 256) (hpay : ∀ b ∈ payload, b < 256)
    (hsize : HEADER_SIZE + payload.length ≤ MAX_FILE_SIZE)
    (hideal : IdealFrames thr cfg.DEBOUNCE_LIMIT (encoderSegments enc payload) blocks) :
    (runDecoder cfg (initialState thr) blocks.flatten).1.state = STATE_IDLE ∧
    (runDecoder cfg (initialState thr) blocks.flatten).2 =
      (allData enc.INPUT_FILE payload).map Event.appended ++
        [Event.saved (fileNameField enc.INPUT_FILE) payload] := by
  have hsegs : encoderSegments enc payload =
      dataSegments enc (allData enc.INPUT_FILE payload) ++
        ({ freq := 0, duration := enc.BYTE_GAP } :: termSegments enc) := by
    simp [encoderSegments, dataSegments]
  rw [hsegs] at hideal
  obtain ⟨L2, s5, blocks2, e1, e2, e3⟩ := receive_phase cfg hp hfix enc hsame thr
    (allData enc.INPUT_FILE payload) _ blocks (allData_lt _ _ hname hpay) (allData_head _ _)
    (by rw [allData_length]; exact hsize) hideal
  obtain ⟨s6, f1, f2, f3⟩ := term_phase cfg hp hfix enc hsame thr L2 _ s5 blocks2 e2
    (by simp only [List.singleton_append]; exact e1)
  rw [validate_allData thr L2 _ payload s6 f1 hsize] at f2
  rw [e3, f2]
  exact ⟨f3, rfl⟩

/-- C1: symbol-level round trip.  For every file name and payload with
`39 + |payload| ≤ 5 MiB`, let `blocks` be an ideal view of the segments that
`src/encoder/encoder.c` emits (every tone as at least `DEBOUNCE_LIMIT + 1`
frames at exactly the tone frequency with magnitude above the threshold,
every silence as frames with magnitude below `0.7 * threshold`), under the
auto-calibrated frequency plan shared by both sides and a fixed threshold.
Started in the initial `STATE_IDLE` state, the decoder of
`src/decoder/decoder.c` ends in `STATE_IDLE`; its only report is one delivery
of a payload equal to the original under the header's file name field
(neither incomplete-transfer nor checksum mismatch), and the bytes it
buffered are exactly the transmitted frame. -/
theorem C1_round_trip (cfg0 : DecoderConfig) (sr : Nat) (enc : EncoderConfig) (thr : ℚ)
    (payload : List Nat) (blocks : List (List Frame))
    (hauto : cfg0.AUTO_SPACING = true) (hfix : cfg0.AUTO_THRESHOLD = false)
    (hsr : 0 < sr) (hN : 0 < cfg0.FFT_SIZE)
    (hplan : SamePlan enc (calibrate cfg0 sr))
    (hname : ∀ c ∈ enc.INPUT_FILE, c < 256) (hpay : ∀ b ∈ payload, b < 256)
    (hsize : HEADER_SIZE + payload.length ≤ MAX_FILE_SIZE)
    (hideal : IdealFrames thr cfg0.DEBOUNCE_LIMIT (encoderSegments enc payload) blocks) :
    (runDecoder (calibrate cfg0 sr) (initialState thr) blocks.flatten).1.state = STATE_IDLE ∧
    reports (runDecoder (calibrate cfg0 sr) (initialState thr) blocks.flatten).2
      = [Event.saved (fileNameField enc.INPUT_FILE) payload] ∧
    appendedBytes (runDecoder (calibrate cfg0 sr) (initialState thr) blocks.flatten).2
      = allData enc.INPUT_FILE payload := by
  have hp := calibrate_autoPlan cfg0 sr hauto hsr hN
  have hfix2 : (calibrate cfg0 sr).AUTO_THRESHOLD = false := by
    simp only [calibrate, hauto, if_true]
    exact hfix
  have hd : (calibrate cfg0 sr).DEBOUNCE_LIMIT = cfg0.DEBOUNCE_LIMIT := by
    simp only [calibrate, hauto, if_true]
  obtain ⟨h1, h2⟩ := round_trip_core (calibrate cfg0 sr) hp hfix2 enc hplan thr payload blocks
    hname hpay hsize (by rw [hd]; exact hideal)
  refine ⟨h1, ?_, ?_⟩
  · rw [h2]
    simp only [reports, List.filter_append, List.filter_cons, List.filter_nil]
    have := reports_map_appended (allData enc.INPUT_FILE payload)
    simp only [reports] at this
    rw [this]
    rfl
  · rw [h2, appendedBytes_append, appendedBytes_map_appended]
    simp [appendedBytes]

/-- The view `sevenFrameView` is ideal for the threshold `5` and any debounce
limit up to `6`. -/
theorem sevenFrameView_ideal (d : Int) (hd : d ≤ 6) (segs : List Segment) :
    IdealFrames 5 d segs (sevenFrameView segs) := by
  induction segs with
  | nil => exact trivial
  | cons seg segs ih =>
    have hb : IdealBlock 5 d seg
        (if seg.freq > 0 then List.replicate 7 { freq := seg.freq, maxM := 10 }
         else [{ freq := 0, maxM := 0 }]) := by
      unfold IdealBlock
      by_cases h : seg.freq > 0
      · simp only [if_pos h]
        refine ⟨⟨by simp, by simp only [List.length_replicate]; push_cast; omega⟩, ?_⟩
        intro fr hfr
        rw [List.eq_of_mem_replicate hfr]
        norm_num
      · simp only [if_neg h]
        intro fr hfr
        rw [List.mem_singleton.mp hfr]
        norm_num
    exact ⟨hb, ih⟩

/-- C1 at the file `"t"` with payload `[7, 7, 7, 200]` (a triple repeat),
48 kHz, FFT size 2048, threshold `5`, every tone seen as seven frames. -/
theorem C1_round_trip_witness :
    (runDecoder (calibrate defaultConfig 48000) (initialState 5)
      (sevenFrameView (encoderSegments enc48k [7, 7, 7, 200])).flatten).1.state = STATE_IDLE ∧
    reports (runDecoder (calibrate defaultConfig 48000) (initialState 5)
      (sevenFrameView (encoderSegments enc48k [7, 7, 7, 200])).flatten).2
      = [Event.saved (fileNameField enc48k.INPUT_FILE) [7, 7, 7, 200]] ∧
    appendedBytes (runDecoder (calibrate defaultConfig 48000) (initialState 5)
      (sevenFrameView (encoderSegments enc48k [7, 7, 7, 200])).flatten).2
      = allData enc48k.INPUT_FILE [7, 7, 7, 200] :=
  C1_round_trip defaultConfig 48000 enc48k 5 [7, 7, 7, 200]
    (sevenFrameView (encoderSegments enc48k [7, 7, 7, 200]))
    rfl rfl (by decide) (by decide)
    (by norm_num [SamePlan, enc48k, calibrate, defaultConfig])
    (by simp [enc48k])
    (by decide)
    (by simp [HEADER_SIZE, MAX_FILE_SIZE])
    (sevenFrameView_ideal _ (by decide) _)

/-- C5 (evaluation of the code at the failing input): from the initial state
the decoder receives hello, header and the 39 bytes of `wrapHeaderBytes`, a
header announcing `fileSize = 0xFFFFFFFF`.  In the state reached only the 39
header bytes are buffered, fewer than `39 + fileSize`; `expectedTotalBytes`
wraps to `38`, so a terminate frame reports no incomplete transfer and hands
a payload of `0xFFFFFFFF` bytes to the file sink. -/
theorem C5_truncation_wraps :
    (runDecoder cfg48k (initialState 5) wrapFrames).1.state = STATE_READ_DATA ∧
    (runDecoder cfg48k (initialState 5) wrapFrames).1.headerDone = true ∧
    (runDecoder cfg48k (initialState 5) wrapFrames).1.bufPtr = 39 ∧
    (runDecoder cfg48k (initialState 5) wrapFrames).1.header.fileSize = 4294967295 ∧
    (runDecoder cfg48k (initialState 5) wrapFrames).1.bufPtr
      < HEADER_SIZE + (runDecoder cfg48k (initialState 5) wrapFrames).1.header.fileSize ∧
    (analysisStep cfg48k (runDecoder cfg48k (initialState 5) wrapFrames).1 (binFrame 588 10)).2
      = [Event.saved (List.replicate 32 0)
          (payloadOf (runDecoder cfg48k (initialState 5) wrapFrames).1.fileBuffer
            4294967295)] := by
  have hp : AutoPlan cfg48k := calibrate_autoPlan defaultConfig 48000 rfl (by decide) (by decide)
  have hsame : SamePlan enc48k cfg48k := by
    norm_num [SamePlan, enc48k, cfg48k, calibrate, defaultConfig]
  obtain ⟨L2, s5, blocks2, e1, e2, e3⟩ := receive_phase cfg48k hp rfl enc48k hsame 5
    wrapHeaderBytes [] (sevenFrameView (dataSegments enc48k wrapHeaderBytes))
    (by decide) (by decide) (by decide)
    (by rw [List.append_nil]; exact sevenFrameView_ideal _ (by decide) _)
  have hb2 : blocks2 = [] := by
    cases blocks2 with
    | nil => rfl
    | cons a t => exact absurd e1 (by simp [IdealFrames])
  subst hb2
  have hrun : (runDecoder cfg48k (initialState 5) wrapFrames).1 = s5 := by
    unfold wrapFrames
    rw [e3]
    rfl
  rw [hrun]
  obtain ⟨i1, i2, i3, i4, i5, i6, i7, i8⟩ := e2
  have hlen : wrapHeaderBytes.length = 39 := by decide
  rw [hlen] at i5 i7 i8
  have hdone : s5.headerDone = true := i7.mpr (by decide)
  have hhdr : s5.header = ChordHeader.mk 254 (List.replicate 32 0) 4294967295 0 0 := by
    rw [i8 (by decide)]
    exact parseHeader_of_bufIs s5.fileBuffer _ [] (by rw [List.append_nil]; exact i6)
      (by decide) (by decide)
  have hT : isTermination cfg48k s5 (binFrame 588 10) :=
    isTermination_bin588 s5 10 i1 (by rw [i2]; norm_num)
  refine ⟨i1, hdone, i5, by rw [hhdr], by rw [hhdr, i5]; decide, ?_⟩
  rw [analysisStep_termination cfg48k s5 (binFrame 588 10) hT]
  have h1 : calcSum s5.fileBuffer 4294967295 39 = 0 := by
    unfold calcSum
    rw [show 39 - HEADER_SIZE = 0 by decide, Nat.min_zero]
    rfl
  have h2 : (HEADER_SIZE + 4294967295) % 2 ^ 32 = 38 := by decide
  simp only [validate, hdone, if_true, hhdr, i5, h1, h2]
  simp

/-! ## Capacity of the receive buffer -/

theorem stability_buffer (s : DecoderState) (c : Int) (m : ℚ) :
    (stability s c m).fileBuffer = s.fileBuffer ∧ (stability s c m).bufPtr = s.bufPtr ∧
    (stability s c m).headerDone = s.headerDone ∧ (stability s c m).header = s.header ∧
    (stability s c m).lastValidByte = s.lastValidByte := by
  unfold stability
  split_ifs <;> exact ⟨rfl, rfl, rfl, rfl, rfl⟩

/-- The accept branch either leaves the buffer alone and reports no write, or
writes one byte at index `bufPtr`, which is then below `MAX_FILE_SIZE`. -/
theorem acceptSymbol_write (s : DecoderState) (c : Int) :
    ((acceptSymbol s c).1.fileBuffer = s.fileBuffer ∧ appendedBytes (acceptSymbol s c).2 = []) ∨
    (∃ b, s.bufPtr < MAX_FILE_SIZE ∧
      (acceptSymbol s c).1.fileBuffer = Function.update s.fileBuffer s.bufPtr b ∧
      appendedBytes (acceptSymbol s c).2 = [b]) := by
  unfold acceptSymbol
  simp only
  generalize (if c = REPEAT_IDX then s.lastValidByte else c) = btp
  generalize (if 0 ≤ c ∧ c ≤ 255 then c else s.lastValidByte) = lv
  split_ifs with h1 h2 h3 h4
  · exact Or.inl ⟨rfl, rfl⟩
  · exact Or.inr ⟨_, h2.1, rfl, rfl⟩
  · exact Or.inr ⟨_, h2.1, rfl, rfl⟩
  · exact Or.inr ⟨_, h2.1, rfl, rfl⟩
  · exact Or.inl ⟨rfl, rfl⟩

theorem stateMachine_write (cfg : DecoderConfig) (s : DecoderState) (fr : Frame) (c : Int) :
    ((stateMachine cfg s fr c).1.fileBuffer = s.fileBuffer ∧
      appendedBytes (stateMachine cfg s fr c).2 = []) ∨
    (∃ b, s.bufPtr < MAX_FILE_SIZE ∧
      (stateMachine cfg s fr c).1.fileBuffer = Function.update s.fileBuffer s.bufPtr b ∧
      appendedBytes (stateMachine cfg s fr c).2 = [b]) := by
  unfold stateMachine
  by_cases h1 : fr.maxM > s.THRESHOLD
  · rw [if_pos h1]
    split
    · split_ifs <;> exact Or.inl ⟨rfl, rfl⟩
    · split_ifs <;> exact Or.inl ⟨rfl, rfl⟩
    · split_ifs
      · exact acceptSymbol_write s c
      · exact Or.inl ⟨rfl, rfl⟩
  · rw [if_neg h1]
    exact Or.inl ⟨rfl, rfl⟩

/-- One analysis step either leaves the receive buffer alone and reports no
write, or writes exactly one byte, at index `bufPtr < MAX_FILE_SIZE`. -/
theorem analysisStep_write (cfg : DecoderConfig) (s : DecoderState) (fr : Frame) :
    ((analysisStep cfg s fr).1.fileBuffer = s.fileBuffer ∧
      appendedBytes (analysisStep cfg s fr).2 = []) ∨
    (∃ b, s.bufPtr < MAX_FILE_SIZE ∧
      (analysisStep cfg s fr).1.fileBuffer = Function.update s.fileBuffer s.bufPtr b ∧
      appendedBytes (analysisStep cfg s fr).2 = [b]) := by
  obtain ⟨-, -, -, -, a5, -, a7⟩ := adaptiveThreshold_fields cfg s fr.maxM
  unfold analysisStep
  simp only
  generalize adaptiveThreshold cfg s fr.maxM = s1 at a5 a7 ⊢
  by_cases ht : isTermination cfg s1 fr
  · rw [if_pos ht]
    exact Or.inl ⟨a5, appendedBytes_validate s1⟩
  · rw [if_neg ht]
    obtain ⟨b1, b2, -, -, -⟩ := stability_buffer s1 (detectSymbol cfg s1.THRESHOLD fr) fr.maxM
    have := stateMachine_write cfg (stability s1 (detectSymbol cfg s1.THRESHOLD fr) fr.maxM) fr
      (detectSymbol cfg s1.THRESHOLD fr)
    rw [b1, b2, a5, a7] at this
    exact this

/-- C11: in every state reachable from the initial state under any sequence
of analysis frames, `bufPtr` is at most `MAX_FILE_SIZE`; and every step from
such a state either leaves the receive buffer unchanged (reporting no write)
or writes exactly one byte, at the index `bufPtr`, which is then strictly
below `MAX_FILE_SIZE`, so that no cell at or above `MAX_FILE_SIZE` is ever
changed. -/
theorem C11_capacity_bound (cfg : DecoderConfig) (threshold : ℚ) (s : DecoderState)
    (hreach : Reachable cfg threshold s) :
    s.bufPtr ≤ MAX_FILE_SIZE ∧
    ∀ fr : Frame,
      (((analysisStep cfg s fr).1.fileBuffer = s.fileBuffer ∧
          appendedBytes (analysisStep cfg s fr).2 = []) ∨
        (∃ b, s.bufPtr < MAX_FILE_SIZE ∧
          (analysisStep cfg s fr).1.fileBuffer = Function.update s.fileBuffer s.bufPtr b ∧
          appendedBytes (analysisStep cfg s fr).2 = [b])) ∧
      (∀ i, MAX_FILE_SIZE ≤ i → (analysisStep cfg s fr).1.fileBuffer i = s.fileBuffer i) ∧
      (analysisStep cfg s fr).1.bufPtr ≤ MAX_FILE_SIZE := by
  refine ⟨(inv_of_reachable cfg threshold s hreach).2.2.2.2, fun fr => ⟨analysisStep_write cfg s fr,
    fun i hi => ?_, (inv_analysisStep cfg s fr (inv_of_reachable cfg threshold s hreach)).2.2.2.2⟩⟩
  rcases analysisStep_write cfg s fr with ⟨h1, -⟩ | ⟨b, h1, h2, -⟩
  · rw [h1]
  · rw [h2, Function.update_noteq (by omega)]

set_option maxRecDepth 100000 in
/-- C11 at the reachable state `syncByteState` (sync marker buffered). -/
theorem C11_capacity_bound_witness :
    Reachable cfg48k 5 syncByteState ∧ syncByteState.bufPtr ≤ MAX_FILE_SIZE :=
  have h : Reachable cfg48k 5 syncByteState :=
    ⟨sixSyncFrames ++ [binFrame 560 10], by rw [runDecoder_append]; rfl⟩
  ⟨h, (C11_capacity_bound cfg48k 5 syncByteState h).1⟩

/-! ## The calibrated frequency plan -/

/-- C13: for every sample rate `sr > 0` and FFT size `N > 0`, with auto
spacing enabled the calibration computes, over exact rationals,
`BIN_WIDTH = sr / N > 0`, `BIN_SPACING = 2 * BIN_WIDTH`,
`FREQ_HELLO = 26 * BIN_WIDTH`, `FREQ_HEADER = 36 * BIN_WIDTH`,
`BASE_FREQ = 52 * BIN_WIDTH` and `FREQ_TERM = 588 * BIN_WIDTH` (the FFT size
itself is left as configured); hence every plan frequency, and every data
tone `BASE_FREQ + v * BIN_SPACING`, is an exact integer multiple of
`BIN_WIDTH`. -/
theorem C13_frequency_plan (cfg0 : DecoderConfig) (sr : Nat)
    (hauto : cfg0.AUTO_SPACING = true) (hsr : 0 < sr) (hN : 0 < cfg0.FFT_SIZE) :
    (calibrate cfg0 sr).FFT_SIZE = cfg0.FFT_SIZE ∧
    (calibrate cfg0 sr).BIN_WIDTH = (sr : ℚ) / (cfg0.FFT_SIZE : ℚ) ∧
    0 < (calibrate cfg0 sr).BIN_WIDTH ∧
    (calibrate cfg0 sr).BIN_SPACING = 2 * (calibrate cfg0 sr).BIN_WIDTH ∧
    (calibrate cfg0 sr).FREQ_HELLO = 26 * (calibrate cfg0 sr).BIN_WIDTH ∧
    (calibrate cfg0 sr).FREQ_HEADER = 36 * (calibrate cfg0 sr).BIN_WIDTH ∧
    (calibrate cfg0 sr).BASE_FREQ = 52 * (calibrate cfg0 sr).BIN_WIDTH ∧
    (calibrate cfg0 sr).FREQ_TERM = 588 * (calibrate cfg0 sr).BIN_WIDTH ∧
    (∀ f ∈ [(calibrate cfg0 sr).BIN_SPACING, (calibrate cfg0 sr).FREQ_HELLO,
            (calibrate cfg0 sr).FREQ_HEADER, (calibrate cfg0 sr).BASE_FREQ,
            (calibrate cfg0 sr).FREQ_TERM],
        ∃ k : Nat, f = (k : ℚ) * (calibrate cfg0 sr).BIN_WIDTH) ∧
    (∀ v : Nat, (calibrate cfg0 sr).BASE_FREQ + (v : ℚ) * (calibrate cfg0 sr).BIN_SPACING
        = ((52 + 2 * v : Nat) : ℚ) * (calibrate cfg0 sr).BIN_WIDTH) := by
  have hbw : (0 : ℚ) < (sr : ℚ) / (cfg0.FFT_SIZE : ℚ) :=
    div_pos (by exact_mod_cast hsr) (by exact_mod_cast hN)
  have e : calibrate cfg0 sr =
      { cfg0 with BIN_WIDTH := (sr : ℚ) / (cfg0.FFT_SIZE : ℚ),
                  BIN_SPACING := (sr : ℚ) / (cfg0.FFT_SIZE : ℚ) * 2,
                  FREQ_HELLO := (sr : ℚ) / (cfg0.FFT_SIZE : ℚ) * 26,
                  FREQ_HEADER := (sr : ℚ) / (cfg0.FFT_SIZE : ℚ) * 36,
                  BASE_FREQ := (sr : ℚ) / (cfg0.FFT_SIZE : ℚ) * 52,
                  FREQ_TERM := (sr : ℚ) / (cfg0.FFT_SIZE : ℚ) * 588 } := by
    simp only [calibrate, hauto, if_true]
  rw [e]
  refine ⟨rfl, rfl, hbw, mul_comm _ _, mul_comm _ _, mul_comm _ _, mul_comm _ _,
    mul_comm _ _, ?_, ?_⟩
  · intro f hf
    simp only [List.mem_cons, List.mem_singleton, List.not_mem_nil, or_false] at hf
    rcases hf with h | h | h | h | h
    · exact ⟨2, by rw [h]; push_cast; ring⟩
    · exact ⟨26, by rw [h]; push_cast; ring⟩
    · exact ⟨36, by rw [h]; push_cast; ring⟩
    · exact ⟨52, by rw [h]; push_cast; ring⟩
    · exact ⟨588, by rw [h]; push_cast; ring⟩
  · intro v
    push_cast
    ring

/-- C13 at the default configuration on a 48 kHz device: the bin width is
`48000 / 2048 = 23.4375` Hz. -/
theorem C13_frequency_plan_witness :
    (calibrate defaultConfig 48000).BIN_WIDTH = ((48000 : Nat) : ℚ) / ((2048 : Nat) : ℚ) ∧
    (calibrate defaultConfig 48000).FREQ_TERM = 588 * (calibrate defaultConfig 48000).BIN_WIDTH :=
  have h := C13_frequency_plan defaultConfig 48000 rfl (by decide) (by decide)
  ⟨h.2.1, h.2.2.2.2.2.2.2.1⟩

/-! ## The frame header -/

theorem header_getElem (a : Nat) (f : List Nat) (b0 b1 b2 b3 c d : Nat) (hf : f.length = 32) :
    ([a] ++ f ++ [b0, b1, b2, b3] ++ [c, d])[0]? = some a ∧
    (∀ i, i < 32 → ([a] ++ f ++ [b0, b1, b2, b3] ++ [c, d])[1 + i]? = f[i]?) ∧
    ([a] ++ f ++ [b0, b1, b2, b3] ++ [c, d])[33]? = some b0 ∧
    ([a] ++ f ++ [b0, b1, b2, b3] ++ [c, d])[34]? = some b1 ∧
    ([a] ++ f ++ [b0, b1, b2, b3] ++ [c, d])[35]? = some b2 ∧
    ([a] ++ f ++ [b0, b1, b2, b3] ++ [c, d])[36]? = some b3 ∧
    ([a] ++ f ++ [b0, b1, b2, b3] ++ [c, d])[37]? = some c ∧
    ([a] ++ f ++ [b0, b1, b2, b3] ++ [c, d])[38]? = some d := by
  have e : [a] ++ f ++ [b0, b1, b2, b3] ++ [c, d] = a :: (f ++ [b0, b1, b2, b3, c, d]) := by
    simp
  rw [e]
  refine ⟨List.getElem?_cons_zero, fun i hi => ?_, ?_, ?_, ?_, ?_, ?_, ?_⟩
  · rw [Nat.add_comm, List.getElem?_cons_succ, List.getElem?_append_left (by omega)]
  all_goals
    rw [List.getElem?_cons_succ, List.getElem?_append_right (by omega), hf]
    rfl

theorem le_bytes_value (n : Nat) (h : n < 2 ^ 32) :
    n % 256 + 256 * (n / 256 % 256) + 65536 * (n / 65536 % 256)
      + 16777216 * (n / 16777216 % 256) = n := by
  norm_num at h
  omega

/-- C14: for every file name and every payload whose length fits in 32 bits,
the bytes `all_data` that the encoder transmits are the 39 header bytes
followed by the payload unchanged: byte `0` is `0xFE`, bytes `1..32` are the
32-byte file name field, bytes `33..36` are the payload length in
little-endian order (each below `256`, and together they have the value of
the length), byte `37` is the sum of the payload bytes modulo `256`, byte
`38` is `0`. -/
theorem C14_header_layout (name payload : List Nat) (hlen : payload.length < 2 ^ 32) :
    (headerBytes (buildHeader name payload)).length = 39 ∧
    allData name payload = headerBytes (buildHeader name payload) ++ payload ∧
    (allData name payload).take 39 = headerBytes (buildHeader name payload) ∧
    (allData name payload).drop 39 = payload ∧
    headerBytes (buildHeader name payload) =
      [0xFE] ++ fileNameField name ++
        [payload.length % 256, payload.length / 256 % 256, payload.length / 65536 % 256,
         payload.length / 16777216 % 256] ++ [payload.sum % 256, 0] ∧
    (fileNameField name).length = 32 ∧
    payload.length % 256 + 256 * (payload.length / 256 % 256)
      + 65536 * (payload.length / 65536 % 256)
      + 16777216 * (payload.length / 16777216 % 256) = payload.length ∧
    (allData name payload)[0]? = some 0xFE ∧
    (∀ i, i < 32 → (allData name payload)[1 + i]? = (fileNameField name)[i]?) ∧
    (allData name payload)[33]? = some (payload.length % 256) ∧
    (allData name payload)[34]? = some (payload.length / 256 % 256) ∧
    (allData name payload)[35]? = some (payload.length / 65536 % 256) ∧
    (allData name payload)[36]? = some (payload.length / 16777216 % 256) ∧
    (allData name payload)[37]? = some (payload.sum % 256) ∧
    (allData name payload)[38]? = some 0 ∧
    (∀ j, (allData name payload)[39 + j]? = payload[j]?) := by
  have hl : (headerBytes (buildHeader name payload)).length = 39 :=
    headerBytes_length _ (fileNameField_length name)
  have hfn := fileNameField_length name
  have hmod : payload.length % 2 ^ 32 = payload.length := Nat.mod_eq_of_lt hlen
  have hb : headerBytes (buildHeader name payload) =
      [0xFE] ++ fileNameField name ++
        [payload.length % 256, payload.length / 256 % 256, payload.length / 65536 % 256,
         payload.length / 16777216 % 256] ++ [payload.sum % 256, 0] := by
    simp only [headerBytes, buildHeader, hmod, encoderChecksum_eq]
  have hget : ∀ i, i < 39 →
      (allData name payload)[i]? = (headerBytes (buildHeader name payload))[i]? := by
    intro i hi
    unfold allData
    rw [List.getElem?_append_left (by omega)]
  obtain ⟨g0, g1, g33, g34, g35, g36, g37, g38⟩ := header_getElem 0xFE (fileNameField name)
    (payload.length % 256) (payload.length / 256 % 256) (payload.length / 65536 % 256)
    (payload.length / 16777216 % 256) (payload.sum % 256) 0 hfn
  rw [← hb] at g0 g1 g33 g34 g35 g36 g37 g38
  refine ⟨hl, rfl, ?_, ?_, hb, hfn, le_bytes_value _ hlen, ?_, ?_, ?_, ?_, ?_, ?_, ?_, ?_, ?_⟩
  · unfold allData
    rw [← hl, List.take_left]
  · unfold allData
    rw [← hl, List.drop_left]
  · rw [hget 0 (by omega)]; exact g0
  · intro i hi
    rw [hget (1 + i) (by omega)]; exact g1 i hi
  · rw [hget 33 (by omega)]; exact g33
  · rw [hget 34 (by omega)]; exact g34
  · rw [hget 35 (by omega)]; exact g35
  · rw [hget 36 (by omega)]; exact g36
  · rw [hget 37 (by omega)]; exact g37
  · rw [hget 38 (by omega)]; exact g38
  · intro j
    unfold allData
    rw [List.getElem?_append_right (by omega), hl, Nat.add_sub_cancel_left]

/-- C14 for the file named `"t"` with payload `[1, 2, 3]`: the 42 transmitted
bytes. -/
theorem C14_header_layout_witness :
    ([1, 2, 3] : List Nat).length < 2 ^ 32 ∧
    allData [116] [1, 2, 3] =
      [0xFE, 116] ++ List.replicate 31 0 ++ [3, 0, 0, 0, 6, 0] ++ [1, 2, 3] :=
  ⟨by decide, (C14_header_layout [116] [1, 2, 3] (by decide)).2.1.trans (by decide)⟩

/-! ## The file name field -/

/-- C15 (counterexample): for the file name `"t"` the field is `t` followed
by 31 NUL bytes; the bytes after the name are `0x00`, not the space `0x20`.
For a name of 32 letters `a` the field holds 31 of them and a final NUL. -/
theorem C15_file_name_field_counterexample :
    (buildHeader [116] []).fileName = [116] ++ List.replicate 31 0 ∧
    ¬ (∀ i, 1 ≤ i → i < 32 → (buildHeader [116] []).fileName[i]? = some 0x20) ∧
    (buildHeader (List.replicate 32 97) []).fileName = List.replicate 31 97 ++ [0] := by
  refine ⟨by decide, fun h => ?_, by decide⟩
  have h1 := h 1 (by decide) (by decide)
  revert h1
  decide

/-- C15 (amended): for every input file name (a C string, so without a NUL
byte), the 32-byte `fileName` field of the header built by the encoder holds
the first `min (length name) 31` bytes of the name left-justified, and every
remaining byte of the field, among them always the last one, is NUL
(`0x00`). -/
theorem C15_file_name_field (name payload : List Nat) (hstr : ∀ c ∈ name, c ≠ 0) :
    (buildHeader name payload).fileName.length = 32 ∧
    (buildHeader name payload).fileName
      = name.take 31 ++ List.replicate (32 - min name.length 31) 0 ∧
    (∀ i, i < min name.length 31 → (buildHeader name payload).fileName[i]? = name[i]?) ∧
    (∀ i, min name.length 31 ≤ i → i < 32 →
      (buildHeader name payload).fileName[i]? = some 0) ∧
    (buildHeader name payload).fileName[31]? = some 0 := by
  have htw : name.takeWhile (fun c => decide (c ≠ 0)) = name := by
    rw [List.takeWhile_eq_self_iff]
    intro c hc
    simpa using hstr c hc
  have hl : (name.take 31).length = min name.length 31 := by
    rw [List.length_take, Nat.min_comm]
  have e : (buildHeader name payload).fileName
      = name.take 31 ++ List.replicate (32 - min name.length 31) 0 := by
    simp only [buildHeader, fileNameField, htw, hl]
  have hlow : ∀ i, min name.length 31 ≤ i → i < 32 →
      (buildHeader name payload).fileName[i]? = some 0 := by
    intro i h1 h2
    rw [e, List.getElem?_append_right (by omega), List.getElem?_replicate]
    rw [if_pos (by omega)]
  refine ⟨fileNameField_length name, e, fun i hi => ?_, hlow, hlow 31 (by omega) (by omega)⟩
  rw [e, List.getElem?_append_left (by omega), List.getElem?_take_of_lt (by omega)]

/-- C15 (amended) for the file name `"t"`. -/
theorem C15_file_name_field_witness :
    (∀ c ∈ ([116] : List Nat), c ≠ 0) ∧
    (buildHeader [116] [1, 2, 3]).fileName
      = List.take 31 [116] ++ List.replicate (32 - min ([116] : List Nat).length 31) 0 :=
  ⟨by decide, (C15_file_name_field [116] [1, 2, 3] (by decide)).2.1⟩

/-! ## The encoded stream -/

theorem symbolSegments_flatten (cfg : EncoderConfig) (syms : List Int) :
    ((syms.map (symbolSegments cfg)).flatten).length = 2 * syms.length ∧
    ∀ (i : Nat) (s : Int), syms[i]? = some s →
      ((syms.map (symbolSegments cfg)).flatten)[2 * i]?
        = some (Segment.mk (cfg.BASE_FREQ + (s : ℚ) * cfg.BIN_SPACING) cfg.DATA_DUR) ∧
      ((syms.map (symbolSegments cfg)).flatten)[2 * i + 1]?
        = some (Segment.mk 0 cfg.BYTE_GAP) := by
  induction syms with
  | nil => exact ⟨rfl, fun i s h => by simp at h⟩
  | cons a t ih =>
    obtain ⟨ih1, ih2⟩ := ih
    refine ⟨?_, fun i s h => ?_⟩
    · simp only [List.map_cons, List.flatten_cons, List.length_append, ih1, symbolSegments,
        List.length_cons, List.length_nil]
      omega
    · simp only [List.map_cons, List.flatten_cons, symbolSegments, List.cons_append,
        List.nil_append]
      cases i with
      | zero =>
        simp only [List.getElem?_cons_zero, Option.some.injEq] at h
        subst h
        exact ⟨by simp, by simp⟩
      | succ j =>
        rw [List.getElem?_cons_succ] at h
        have e1 : 2 * (j + 1) = (2 * j + 1) + 1 := by ring
        have e2 : 2 * (j + 1) + 1 = (2 * j + 1 + 1) + 1 := by ring
        rw [e1, List.getElem?_cons_succ, List.getElem?_cons_succ, List.getElem?_cons_succ,
          List.getElem?_cons_succ]
        exact ih2 j s h

/-- C17: for every payload, with `n = 39 + length payload` the number of
framed bytes, the encoder makes exactly `2 * n + 11` calls of `write_tone`,
in this order: the hello tone, a gap, the header tone, a gap; then for
`i = 0 .. n - 1` the tone `BASE_FREQ + s_i * BIN_SPACING` of duration
`DATA_DUR`, where `s_i` is the `i`-th repeat-escaped symbol, followed by a
silence of `BYTE_GAP`; then one silence of `BYTE_GAP` and three pairs of the
terminate tone (0.1 s) and a silence (0.02 s). -/
theorem C17_stream_shape (cfg : EncoderConfig) (file_data : List Nat) :
    (allData cfg.INPUT_FILE file_data).length = 39 + file_data.length ∧
    (escapeSymbols (allData cfg.INPUT_FILE file_data)).length
      = (allData cfg.INPUT_FILE file_data).length ∧
    (encoderSegments cfg file_data).length
      = 2 * (allData cfg.INPUT_FILE file_data).length + 11 ∧
    (encoderSegments cfg file_data)[0]? = some (Segment.mk cfg.FREQ_HELLO cfg.HELLO_DUR) ∧
    (encoderSegments cfg file_data)[1]? = some (Segment.mk 0 cfg.BYTE_GAP) ∧
    (encoderSegments cfg file_data)[2]? = some (Segment.mk cfg.FREQ_HEADER cfg.HEADER_DUR) ∧
    (encoderSegments cfg file_data)[3]? = some (Segment.mk 0 cfg.BYTE_GAP) ∧
    (∀ i, i < (allData cfg.INPUT_FILE file_data).length →
      ∃ s : Int, (escapeSymbols (allData cfg.INPUT_FILE file_data))[i]? = some s ∧
        (encoderSegments cfg file_data)[4 + 2 * i]?
          = some (Segment.mk (cfg.BASE_FREQ + (s : ℚ) * cfg.BIN_SPACING) cfg.DATA_DUR) ∧
        (encoderSegments cfg file_data)[4 + 2 * i + 1]?
          = some (Segment.mk 0 cfg.BYTE_GAP)) ∧
    (encoderSegments cfg file_data)[4 + 2 * (allData cfg.INPUT_FILE file_data).length]?
      = some (Segment.mk 0 cfg.BYTE_GAP) ∧
    (∀ k, k < 3 →
      (encoderSegments cfg file_data)[
          4 + 2 * (allData cfg.INPUT_FILE file_data).length + 1 + 2 * k]?
        = some (Segment.mk cfg.FREQ_TERM (1 / 10)) ∧
      (encoderSegments cfg file_data)[
          4 + 2 * (allData cfg.INPUT_FILE file_data).length + 1 + 2 * k + 1]?
        = some (Segment.mk 0 (1 / 50))) := by
  have hlen : (escapeSymbols (allData cfg.INPUT_FILE file_data)).length
      = (allData cfg.INPUT_FILE file_data).length := escapeLoop_length _ _ _
  obtain ⟨f1, f2⟩ := symbolSegments_flatten cfg (escapeSymbols (allData cfg.INPUT_FILE file_data))
  rw [hlen] at f1
  generalize hF : ((escapeSymbols (allData cfg.INPUT_FILE file_data)).map
    (symbolSegments cfg)).flatten = F at f1 f2
  have e : encoderSegments cfg file_data =
      Segment.mk cfg.FREQ_HELLO cfg.HELLO_DUR :: Segment.mk 0 cfg.BYTE_GAP ::
      Segment.mk cfg.FREQ_HEADER cfg.HEADER_DUR :: Segment.mk 0 cfg.BYTE_GAP ::
      (F ++ [Segment.mk 0 cfg.BYTE_GAP, Segment.mk cfg.FREQ_TERM (1 / 10),
        Segment.mk 0 (1 / 50), Segment.mk cfg.FREQ_TERM (1 / 10), Segment.mk 0 (1 / 50),
        Segment.mk cfg.FREQ_TERM (1 / 10), Segment.mk 0 (1 / 50)]) := by
    unfold encoderSegments
    rw [hF]
    simp [termSegments, List.replicate]
  rw [e]
  have h4 : ∀ (i : Nat) (l : List Segment) (a b c d : Segment),
      (a :: b :: c :: d :: l)[4 + i]? = l[i]? := by
    intro i l a b c d
    rw [show 4 + i = i + 1 + 1 + 1 + 1 by ring]
    simp only [List.getElem?_cons_succ]
  refine ⟨allData_length _ _, hlen, ?_, by simp, by simp, by simp, by simp, fun i hi => ?_, ?_,
    fun k hk => ?_⟩
  · simp only [List.length_cons, List.length_append, f1, List.length_nil]
  · obtain ⟨s, hs⟩ : ∃ s, (escapeSymbols (allData cfg.INPUT_FILE file_data))[i]? = some s := by
      rw [List.getElem?_eq_getElem (by omega)]
      exact ⟨_, rfl⟩
    refine ⟨s, hs, ?_, ?_⟩
    · rw [h4, List.getElem?_append_left (by omega)]
      exact (f2 i s hs).1
    · rw [Nat.add_assoc, h4, List.getElem?_append_left (by omega)]
      exact (f2 i s hs).2
  · rw [h4, List.getElem?_append_right (by omega), f1, Nat.sub_self]
    rfl
  · constructor
    · rw [Nat.add_assoc, Nat.add_assoc, h4, List.getElem?_append_right (by omega), f1,
        show 2 * (allData cfg.INPUT_FILE file_data).length + (1 + 2 * k)
          - 2 * (allData cfg.INPUT_FILE file_data).length = 1 + 2 * k by omega]
      interval_cases k <;> rfl
    · rw [Nat.add_assoc, Nat.add_assoc, Nat.add_assoc, h4,
        List.getElem?_append_right (by omega), f1,
        show 2 * (allData cfg.INPUT_FILE file_data).length + (1 + (2 * k + 1))
          - 2 * (allData cfg.INPUT_FILE file_data).length = 1 + (2 * k + 1) by omega]
      interval_cases k <;> rfl

/-- C17 evaluated for the file named `"t"` with a single payload byte: 40
framed bytes, 91 segments. -/
theorem C17_stream_shape_witness :
    (encoderSegments enc48k [7]).length = 91 :=
  (C17_stream_shape enc48k [7]).2.2.1.trans (by rw [(C17_stream_shape enc48k [7]).1]; rfl)

/-! ## Link state transitions -/

theorem stateMachine_state (cfg : DecoderConfig) (s : DecoderState) (fr : Frame) (c : Int) :
    (s.state = STATE_IDLE → (stateMachine cfg s fr c).1.state =
      if fr.maxM > s.THRESHOLD ∧ |fr.freq - cfg.FREQ_HELLO| < cfg.BIN_WIDTH * (3 / 2)
      then STATE_WAIT_HEADER else STATE_IDLE) ∧
    (s.state = STATE_WAIT_HEADER → (stateMachine cfg s fr c).1.state =
      if fr.maxM > s.THRESHOLD ∧ |fr.freq - cfg.FREQ_HEADER| < cfg.BIN_WIDTH * (3 / 2)
      then STATE_READ_DATA else STATE_WAIT_HEADER) ∧
    (s.state = STATE_READ_DATA → (stateMachine cfg s fr c).1.state = STATE_READ_DATA) := by
  unfold stateMachine
  by_cases h1 : fr.maxM > s.THRESHOLD
  · rw [if_pos h1]
    refine ⟨fun hs => ?_, fun hs => ?_, fun hs => ?_⟩
    · simp only [hs, h1, true_and]
      split_ifs
      · rfl
      · exact hs
    · simp only [hs, h1, true_and]
      split_ifs
      · rfl
      · exact hs
    · simp only [hs]
      split_ifs
      · rw [(acceptSymbol_fields s c).2.1]
        exact hs
      · exact hs
  · rw [if_neg h1]
    refine ⟨fun hs => ?_, fun hs => ?_, fun hs => hs⟩
    · rw [if_neg (fun h => h1 h.1)]
      exact hs
    · rw [if_neg (fun h => h1 h.1)]
      exact hs

/-- C16: for every decoder state and every analysis frame, with `thr` the
threshold in force in the step: from `STATE_IDLE` the step gives
`STATE_WAIT_HEADER` exactly when `maxM > thr` and
`|freq - FREQ_HELLO| < 1.5 * BIN_WIDTH`, and stays in `STATE_IDLE`
otherwise; from `STATE_WAIT_HEADER` it gives `STATE_READ_DATA` exactly when
`maxM > thr` and `|freq - FREQ_HEADER| < 1.5 * BIN_WIDTH`, and stays
otherwise; from `STATE_READ_DATA` it gives `STATE_IDLE` exactly when
`maxM > 0.7 * thr` and `|freq - FREQ_TERM| < 2.5 * BIN_WIDTH`, and stays
otherwise.  A terminate match in `STATE_READ_DATA` always yields
`STATE_IDLE` with `processedByte = -1` and `stableCount = 0`, whatever the
validation reports. -/
theorem C16_link_transitions (cfg : DecoderConfig) (s : DecoderState) (fr : Frame) :
    (s.state = STATE_IDLE → (analysisStep cfg s fr).1.state =
      if fr.maxM > thresholdAt cfg s fr ∧ |fr.freq - cfg.FREQ_HELLO| < cfg.BIN_WIDTH * (3 / 2)
      then STATE_WAIT_HEADER else STATE_IDLE) ∧
    (s.state = STATE_WAIT_HEADER → (analysisStep cfg s fr).1.state =
      if fr.maxM > thresholdAt cfg s fr ∧ |fr.freq - cfg.FREQ_HEADER| < cfg.BIN_WIDTH * (3 / 2)
      then STATE_READ_DATA else STATE_WAIT_HEADER) ∧
    (s.state = STATE_READ_DATA → (analysisStep cfg s fr).1.state =
      if fr.maxM > thresholdAt cfg s fr * (7 / 10) ∧
          |fr.freq - cfg.FREQ_TERM| < cfg.BIN_WIDTH * (5 / 2)
      then STATE_IDLE else STATE_READ_DATA) ∧
    (s.state = STATE_READ_DATA → fr.maxM > thresholdAt cfg s fr * (7 / 10) →
      |fr.freq - cfg.FREQ_TERM| < cfg.BIN_WIDTH * (5 / 2) →
      (analysisStep cfg s fr).1.state = STATE_IDLE ∧
      (analysisStep cfg s fr).1.processedByte = -1 ∧
      (analysisStep cfg s fr).1.stableCount = 0 ∧
      (analysisStep cfg s fr).2 = validate s) := by
  have hf := adaptiveThreshold_fields cfg s fr.maxM
  have hnt : ∀ s1 : DecoderState, s1.state ≠ STATE_READ_DATA → ¬ isTermination cfg s1 fr :=
    fun s1 h ht => h ht.1
  refine ⟨fun hs => ?_, fun hs => ?_, fun hs => ?_, fun hs hm hfreq => ?_⟩
  · have h1 : (adaptiveThreshold cfg s fr.maxM).state = STATE_IDLE := by rw [hf.1, hs]
    simp only [analysisStep, hnt _ (by rw [h1]; decide), if_false, thresholdAt]
    have h2 := (stateMachine_state cfg
      (stability (adaptiveThreshold cfg s fr.maxM)
        (detectSymbol cfg (adaptiveThreshold cfg s fr.maxM).THRESHOLD fr) fr.maxM) fr
      (detectSymbol cfg (adaptiveThreshold cfg s fr.maxM).THRESHOLD fr)).1
      (by rw [stability_state, h1])
    rw [stability_THRESHOLD] at h2
    exact h2
  · have h1 : (adaptiveThreshold cfg s fr.maxM).state = STATE_WAIT_HEADER := by rw [hf.1, hs]
    simp only [analysisStep, hnt _ (by rw [h1]; decide), if_false, thresholdAt]
    have h2 := (stateMachine_state cfg
      (stability (adaptiveThreshold cfg s fr.maxM)
        (detectSymbol cfg (adaptiveThreshold cfg s fr.maxM).THRESHOLD fr) fr.maxM) fr
      (detectSymbol cfg (adaptiveThreshold cfg s fr.maxM).THRESHOLD fr)).2.1
      (by rw [stability_state, h1])
    rw [stability_THRESHOLD] at h2
    exact h2
  · have hst : s.state ≠ STATE_IDLE := by rw [hs]; decide
    rw [thresholdAt_of_not_idle cfg s fr hst]
    by_cases ht : isTermination cfg s fr
    · rw [analysisStep_termination cfg s fr ht, if_pos ⟨ht.2.1, ht.2.2⟩]
    · rw [if_neg (fun h => ht ⟨hs, h.1, h.2⟩)]
      simp only [analysisStep, adaptiveThreshold_of_not_idle cfg s fr.maxM hst, ht, if_false]
      exact (stateMachine_state cfg _ fr _).2.2 (by rw [stability_state, hs])
  · have hst : s.state ≠ STATE_IDLE := by rw [hs]; decide
    rw [thresholdAt_of_not_idle cfg s fr hst] at hm
    rw [analysisStep_termination cfg s fr ⟨hs, hm, hfreq⟩]
    exact ⟨rfl, rfl, rfl, rfl⟩

/-- C16 at the initial state under `cfg48k`: a hello frame (bin 26, magnitude
10) moves `STATE_IDLE` to `STATE_WAIT_HEADER`. -/
theorem C16_link_transitions_witness :
    (initialState 5).state = STATE_IDLE ∧
    (analysisStep cfg48k (initialState 5) (binFrame 26 10)).1.state = STATE_WAIT_HEADER :=
  ⟨rfl, ((C16_link_transitions cfg48k (initialState 5) (binFrame 26 10)).1 rfl).trans
    (by with_unfolding_all decide)⟩

/-! ## The sync marker -/

theorem adaptiveThreshold_header (cfg : DecoderConfig) (s : DecoderState) (m : ℚ) :
    (adaptiveThreshold cfg s m).headerDone = s.headerDone ∧
    (adaptiveThreshold cfg s m).header = s.header ∧
    (adaptiveThreshold cfg s m).lastValidByte = s.lastValidByte := by
  unfold adaptiveThreshold
  split_ifs <;> exact ⟨rfl, rfl, rfl⟩

theorem validate_no_syncFail (s : DecoderState) : Event.syncFail ∉ validate s := by
  unfold validate
  simp only
  split_ifs <;> simp

/-- With the sync marker at the start of a non-empty buffer, the accept
branch never takes its `Sync Marker Fail` path, and a header it marks
complete carries the sync marker. -/
theorem acceptSymbol_sync (s : DecoderState) (c : Int)
    (hsync : 0 < s.bufPtr → s.fileBuffer 0 = SYNC_MARKER)
    (hhdr : s.headerDone = true → s.header.syncMarker = SYNC_MARKER) :
    Event.syncFail ∉ (acceptSymbol s c).2 ∧
    ((acceptSymbol s c).1.headerDone = true →
      (acceptSymbol s c).1.header.syncMarker = SYNC_MARKER) := by
  unfold acceptSymbol
  simp only
  generalize (if c = REPEAT_IDX then s.lastValidByte else c) = btp
  generalize (if 0 ≤ c ∧ c ≤ 255 then c else s.lastValidByte) = lv
  split_ifs with h1 h2 h3 h4
  · exact ⟨by simp, hhdr⟩
  · exfalso
    apply h4
    simp only [parseHeader, Function.update]
    have h38 : s.bufPtr = 38 := by
      have := h3.2
      simp only [HEADER_SIZE] at this
      omega
    simp only [h38]
    rw [dif_neg (by decide)]
    exact hsync (by omega)
  · refine ⟨by simp, fun _ => ?_⟩
    simp only [ne_eq, not_not] at h4
    exact h4
  · exact ⟨by simp, hhdr⟩
  · exact ⟨by simp, hhdr⟩

theorem stateMachine_sync (cfg : DecoderConfig) (s : DecoderState) (fr : Frame) (c : Int)
    (hsync : 0 < s.bufPtr → s.fileBuffer 0 = SYNC_MARKER)
    (hhdr : s.headerDone = true → s.header.syncMarker = SYNC_MARKER) :
    Event.syncFail ∉ (stateMachine cfg s fr c).2 ∧
    ((stateMachine cfg s fr c).1.headerDone = true →
      (stateMachine cfg s fr c).1.header.syncMarker = SYNC_MARKER) := by
  unfold stateMachine
  by_cases h1 : fr.maxM > s.THRESHOLD
  · rw [if_pos h1]
    split
    · split_ifs <;> exact ⟨by simp, hhdr⟩
    · split_ifs
      · exact ⟨by simp, fun h => by simp at h⟩
      · exact ⟨by simp, hhdr⟩
    · split_ifs
      · exact acceptSymbol_sync s c hsync hhdr
      · exact ⟨by simp, hhdr⟩
  · rw [if_neg h1]
    exact ⟨by simp, hhdr⟩

theorem analysisStep_sync (cfg : DecoderConfig) (s : DecoderState) (fr : Frame)
    (hsync : 0 < s.bufPtr → s.fileBuffer 0 = SYNC_MARKER)
    (hhdr : s.headerDone = true → s.header.syncMarker = SYNC_MARKER) :
    Event.syncFail ∉ (analysisStep cfg s fr).2 ∧
    ((analysisStep cfg s fr).1.headerDone = true →
      (analysisStep cfg s fr).1.header.syncMarker = SYNC_MARKER) := by
  obtain ⟨-, -, -, -, a5, -, a7⟩ := adaptiveThreshold_fields cfg s fr.maxM
  obtain ⟨b1, b2, -⟩ := adaptiveThreshold_header cfg s fr.maxM
  unfold analysisStep
  simp only
  generalize adaptiveThreshold cfg s fr.maxM = s1 at a5 a7 b1 b2 ⊢
  rw [← a5, ← a7] at hsync
  rw [← b1, ← b2] at hhdr
  by_cases ht : isTermination cfg s1 fr
  · rw [if_pos ht]
    exact ⟨validate_no_syncFail s1, hhdr⟩
  · rw [if_neg ht]
    obtain ⟨c1, c2, c3, c4, -⟩ := stability_buffer s1 (detectSymbol cfg s1.THRESHOLD fr) fr.maxM
    exact stateMachine_sync cfg _ fr _ (by rw [c1, c2]; exact hsync) (by rw [c3, c4]; exact hhdr)

theorem acceptSymbol_first (s : DecoderState) (c : Int) (h0 : s.bufPtr = 0) :
    ∀ b ∈ appendedBytes (acceptSymbol s c).2, b = SYNC_MARKER := by
  unfold acceptSymbol
  simp only
  generalize (if c = REPEAT_IDX then s.lastValidByte else c) = btp
  generalize (if 0 ≤ c ∧ c ≤ 255 then c else s.lastValidByte) = lv
  split_ifs with h1 h2 h3 h4
  · intro b hb
    simp [appendedBytes] at hb
  all_goals
    first
    | (intro b hb
       simp only [appendedBytes, List.filterMap_cons, List.filterMap_nil, List.mem_singleton,
         List.not_mem_nil] at hb
       simp only [h0, true_and, ne_eq, not_not] at h1
       rw [hb, h1])
    | (intro b hb
       simp [appendedBytes] at hb)

theorem analysisStep_first (cfg : DecoderConfig) (s : DecoderState) (fr : Frame)
    (h0 : s.bufPtr = 0) : ∀ b ∈ appendedBytes (analysisStep cfg s fr).2, b = SYNC_MARKER := by
  obtain ⟨-, -, -, -, -, -, a7⟩ := adaptiveThreshold_fields cfg s fr.maxM
  unfold analysisStep
  simp only
  generalize adaptiveThreshold cfg s fr.maxM = s1 at a7 ⊢
  by_cases ht : isTermination cfg s1 fr
  · rw [if_pos ht, appendedBytes_validate]
    intro b hb
    simp at hb
  · rw [if_neg ht]
    obtain ⟨-, c2, -⟩ := stability_buffer s1 (detectSymbol cfg s1.THRESHOLD fr) fr.maxM
    generalize stability s1 (detectSymbol cfg s1.THRESHOLD fr) fr.maxM = s2 at c2 ⊢
    unfold stateMachine
    by_cases h1 : fr.maxM > s2.THRESHOLD
    · rw [if_pos h1]
      split
      · split_ifs <;> (intro b hb; simp [appendedBytes] at hb)
      · split_ifs <;> (intro b hb; simp [appendedBytes] at hb)
      · split_ifs
        · exact acceptSymbol_first s2 _ (by rw [c2, a7, h0])
        · intro b hb
          simp [appendedBytes] at hb
    · rw [if_neg h1]
      intro b hb
      simp [appendedBytes] at hb

theorem runDecoder_header_sync (cfg : DecoderConfig) (s : DecoderState) (frs : List Frame)
    (hinv : Inv s) (hhdr : s.headerDone = true → s.header.syncMarker = SYNC_MARKER) :
    (runDecoder cfg s frs).1.headerDone = true →
      (runDecoder cfg s frs).1.header.syncMarker = SYNC_MARKER := by
  induction frs generalizing s with
  | nil => exact hhdr
  | cons fr frs ih =>
    exact ih _ (inv_analysisStep cfg s fr hinv) (analysisStep_sync cfg s fr hinv.2.2.2.1 hhdr).2

/-- C19: in every state reachable from the initial state, a non-empty
receive buffer starts with `0xFE`; when the buffer is empty, the accept
branch applied to a symbol whose resolved byte `(uint8_t)byteToProcess` is
not `0xFE` reports no write, leaves the buffer empty and does not change the
link state, and whatever a step appends to an empty buffer is `0xFE`.
Consequently no step ever reports `Sync Marker Fail`, and a header that is
marked complete carries `syncMarker = 0xFE`. -/
theorem C19_sync_marker_invariant (cfg : DecoderConfig) (threshold : ℚ) (s : DecoderState)
    (hreach : Reachable cfg threshold s) :
    (0 < s.bufPtr → s.fileBuffer 0 = SYNC_MARKER) ∧
    (∀ c : Int, s.bufPtr = 0 →
      toUInt8 (if c = REPEAT_IDX then s.lastValidByte else c) ≠ SYNC_MARKER →
      (acceptSymbol s c).2 = [] ∧ (acceptSymbol s c).1.bufPtr = 0 ∧
      (acceptSymbol s c).1.state = s.state) ∧
    (∀ fr : Frame, s.bufPtr = 0 →
      ∀ b ∈ appendedBytes (analysisStep cfg s fr).2, b = SYNC_MARKER) ∧
    (∀ fr : Frame, Event.syncFail ∉ (analysisStep cfg s fr).2) ∧
    (0 < s.bufPtr → (parseHeader s.fileBuffer).syncMarker = SYNC_MARKER) ∧
    (s.headerDone = true → s.header.syncMarker = SYNC_MARKER) := by
  have hinv := inv_of_reachable cfg threshold s hreach
  have hhdr : s.headerDone = true → s.header.syncMarker = SYNC_MARKER := by
    obtain ⟨frs, rfl⟩ := hreach
    exact runDecoder_header_sync cfg _ frs (inv_initialState threshold)
      (fun h => by simp [initialState] at h)
  refine ⟨hinv.2.2.2.1, fun c h0 hne => ?_, fun fr h0 b hb => ?_,
    fun fr => (analysisStep_sync cfg s fr hinv.2.2.2.1 hhdr).1, hinv.2.2.2.1, hhdr⟩
  · obtain ⟨r1, r2, -⟩ := acceptSymbol_reject s c h0 hne
    exact ⟨r1, r2, (acceptSymbol_fields s c).2.1⟩
  · exact analysisStep_first cfg s fr h0 b hb

set_option maxRecDepth 100000 in
/-- C19 at the reachable state `sixSyncState` (`STATE_READ_DATA`, empty
buffer): the seventh frame of the tone of `0xFE` appends `0xFE`. -/
theorem C19_sync_marker_invariant_witness :
    Reachable cfg48k 5 sixSyncState ∧ sixSyncState.bufPtr = 0 ∧
    appendedBytes (analysisStep cfg48k sixSyncState (binFrame 560 10)).2 = [254] ∧
    ∀ b ∈ appendedBytes (analysisStep cfg48k sixSyncState (binFrame 560 10)).2,
      b = SYNC_MARKER :=
  have h : Reachable cfg48k 5 sixSyncState := ⟨sixSyncFrames, rfl⟩
  have h0 : sixSyncState.bufPtr = 0 := by with_unfolding_all decide
  ⟨h, h0, by with_unfolding_all decide,
    (C19_sync_marker_invariant cfg48k 5 sixSyncState h).2.2.1 (binFrame 560 10) h0⟩

/-! ## Repeat resolution -/

theorem reachable_syncByteState : Reachable cfg48k 5 syncByteState :=
  ⟨sixSyncFrames ++ [binFrame 560 10], by rw [runDecoder_append]; rfl⟩

theorem reachable_run (cfg : DecoderConfig) (thr : ℚ) (s : DecoderState) (frs : List Frame)
    (h : Reachable cfg thr s) : Reachable cfg thr (runDecoder cfg s frs).1 := by
  obtain ⟨f0, rfl⟩ := h
  exact ⟨f0 ++ frs, by rw [runDecoder_append]⟩

set_option maxRecDepth 100000 in
/-- C20 (evaluation of the code at the failing input): `repeatState` is a
reachable `STATE_READ_DATA` state with two bytes buffered and capacity
remaining; the byte last in the buffer is `44` (appended for the
out-of-range symbol `300`, which did not update `lastValidByte = 254`).  The
next frame of the `REPEAT` tone is accepted as the symbol `256` and the byte
appended is `254`, not `44`. -/
theorem C20_repeat_after_out_of_range :
    Reachable cfg48k 5 repeatState ∧
    repeatState.state = STATE_READ_DATA ∧
    repeatState.bufPtr = 2 ∧ repeatState.bufPtr < MAX_FILE_SIZE ∧
    repeatState.fileBuffer (repeatState.bufPtr - 1) = 44 ∧
    repeatState.lastValidByte = 254 ∧
    curByteAt cfg48k repeatState (binFrame 564 10) = REPEAT_IDX ∧
    (analysisStep cfg48k repeatState (binFrame 564 10)).2 = [Event.appended 254] := by
  refine ⟨reachable_run cfg48k 5 syncByteState _ reachable_syncByteState, ?_, ?_, ?_, ?_, ?_,
    ?_, ?_⟩
  all_goals with_unfolding_all decide

/-! ## Symbol mapping of the earlier revision -/

/-- C18 (evaluation of the code at the failing input): under the plan of
`src/decoder.c` for a 48 kHz device (`BASE_FREQ` on bin 51, spacing two
bins), the dominant bin `49` with magnitude `20` above the threshold `10`
has `rawIdx = -1`, whose nearest integer `-1` lies outside `[0, 256]`; the
mapping of `src/decoder.c` returns the symbol `0`, not `-1`, because
`(int)(rawIdx + 0.5f)` truncates `-0.5` toward zero.  The mapping of
`src/decoder/decoder.c` does the same on bin `50` of its plan. -/
theorem C18_negative_index_maps_to_zero :
    (49 : Nat) < legacyConfig.FFT_SIZE / 2 ∧
    (binFrame 49 20).freq = (49 : ℚ) * legacyCfg48k.BIN_WIDTH ∧
    ((binFrame 49 20).freq - legacyCfg48k.BASE_FREQ) / legacyCfg48k.BIN_SPACING = -1 ∧
    (binFrame 49 20).maxM > 10 ∧
    legacyDetectSymbol legacyCfg48k 10 (binFrame 49 20) = 0 ∧
    ((binFrame 50 20).freq - cfg48k.BASE_FREQ) / cfg48k.BIN_SPACING = -1 ∧
    detectSymbol cfg48k 5 (binFrame 50 20) = 0 := by
  have hw : legacyCfg48k.BIN_WIDTH = 375 / 16 := by
    norm_num [legacyCfg48k, legacyCalibrate, legacyConfig]
  have hb : legacyCfg48k.BASE_FREQ = 375 / 16 * 51 := by
    norm_num [legacyCfg48k, legacyCalibrate, legacyConfig]
  have hs : legacyCfg48k.BIN_SPACING = 375 / 16 * 2 := by
    norm_num [legacyCfg48k, legacyCalibrate, legacyConfig]
  have hb2 : cfg48k.BASE_FREQ = 375 / 16 * 52 := by
    norm_num [cfg48k, calibrate, defaultConfig]
  have hs2 : cfg48k.BIN_SPACING = 375 / 16 * 2 := by
    norm_num [cfg48k, calibrate, defaultConfig]
  have ht : cTrunc (-1 + 1 / 2) = 0 := by
    norm_num [cTrunc]
  refine ⟨by norm_num [legacyConfig], ?_, ?_, ?_, ?_, ?_, ?_⟩
  · rw [hw]; norm_num [binFrame]
  · rw [hb, hs]; norm_num [binFrame]
  · norm_num [binFrame]
  · have e : ((binFrame 49 20).freq - legacyCfg48k.BASE_FREQ) / legacyCfg48k.BIN_SPACING = -1 := by
      rw [hb, hs]; norm_num [binFrame]
    unfold legacyDetectSymbol
    rw [if_pos (by norm_num [binFrame]), e]
    simp only [ht]
    decide
  · rw [hb2, hs2]; norm_num [binFrame]
  · have e : ((binFrame 50 20).freq - cfg48k.BASE_FREQ) / cfg48k.BIN_SPACING = -1 := by
      rw [hb2, hs2]; norm_num [binFrame]
    unfold detectSymbol
    rw [if_pos (by norm_num [binFrame]), e]
    exact ht

theorem legacyCfg48k_plan :
    legacyCfg48k.BIN_WIDTH = 375 / 16 ∧ legacyCfg48k.BASE_FREQ = 375 / 16 * 51 ∧
    legacyCfg48k.BIN_SPACING = 375 / 16 * 2 := by
  refine ⟨?_, ?_, ?_⟩ <;> norm_num [legacyCfg48k, legacyCalibrate, legacyConfig]

/-- C28: at 48000 Hz and FFT size 2048, for every byte value `v` in
`[0, 255]` the tone that `src/encoder.c` emits for `v`
(`1218.75 + v * 46.875` Hz) lies on bin `52 + 2 * v`, and the symbol mapping
of `src/decoder.c` (base on bin 51, spacing two bins), applied to it with
any magnitude above the threshold, yields `v + 1` and not `v`. -/
theorem C28_revisions_do_not_interoperate (v : Nat) (hv : v ≤ 255) (thr m : ℚ) (hm : m > thr) :
    legacyToneFreq (v : Int) = ((52 + 2 * v : Nat) : ℚ) * legacyCfg48k.BIN_WIDTH ∧
    legacyDetectSymbol legacyCfg48k thr { freq := legacyToneFreq (v : Int), maxM := m }
      = (v : Int) + 1 ∧
    legacyDetectSymbol legacyCfg48k thr { freq := legacyToneFreq (v : Int), maxM := m }
      ≠ (v : Int) := by
  obtain ⟨hw, hb, hs⟩ := legacyCfg48k_plan
  have hd : legacyDetectSymbol legacyCfg48k thr { freq := legacyToneFreq (v : Int), maxM := m }
      = (v : Int) + 1 := by
    unfold legacyDetectSymbol
    rw [if_pos hm]
    have e : (legacyToneFreq (v : Int) - legacyCfg48k.BASE_FREQ) / legacyCfg48k.BIN_SPACING + 1 / 2
        = (((v : Int) + 1 : Int) : ℚ) := by
      rw [hb, hs]
      unfold legacyToneFreq
      push_cast
      ring
    simp only [e]
    have ht : cTrunc ((((v : Int) + 1 : Int) : ℚ)) = (v : Int) + 1 := by
      unfold cTrunc
      rw [if_pos (by exact_mod_cast (by omega : (0 : Int) ≤ (v : Int) + 1)), Int.floor_intCast]
    rw [ht, if_neg]
    simp only [REPEAT_IDX]
    omega
  refine ⟨?_, hd, ?_⟩
  · rw [hw]
    unfold legacyToneFreq
    push_cast
    ring
  · rw [hd]
    omega

/-- C28 for the byte `0x41`: the tone of `src/encoder.c` is decoded by
`src/decoder.c` as `0x42`. -/
theorem C28_revisions_do_not_interoperate_witness :
    (65 : Nat) ≤ 255 ∧ (20 : ℚ) > 10 ∧
    legacyDetectSymbol legacyCfg48k 10 { freq := legacyToneFreq ((65 : Nat) : Int), maxM := 20 }
      = 66 :=
  ⟨by decide, by norm_num,
    (C28_revisions_do_not_interoperate 65 (by decide) 10 20 (by norm_num)).2.1⟩

/-! ## Oversized headers -/

/-- In `src/decoder.c` the byte that completes a header whose `fileSize`
exceeds `MAX_FILE_SIZE - sizeof(ChordHeader)` sends the decoder to
`STATE_IDLE` and does not mark the header complete. -/
theorem legacyAcceptSymbol_oversized (s : LegacyState) (c : Int)
    (hdone : s.headerDone = false) (hptr : s.bufPtr + 1 = LEGACY_HEADER_SIZE)
    (hge : (if c = REPEAT_IDX then s.lastValidByte else c) ≥ 0)
    (hbig : (legacyParseHeader (Function.update s.fileBuffer s.bufPtr
        (toUInt8 (if c = REPEAT_IDX then s.lastValidByte else c)))).fileSize
          > MAX_FILE_SIZE - LEGACY_HEADER_SIZE) :
    (legacyAcceptSymbol s c).state = STATE_IDLE ∧ (legacyAcceptSymbol s c).headerDone = false := by
  have hcap : s.bufPtr < MAX_FILE_SIZE := by
    simp only [LEGACY_HEADER_SIZE] at hptr
    simp only [MAX_FILE_SIZE]
    omega
  unfold legacyAcceptSymbol
  simp only
  rw [if_pos ⟨hcap, hge⟩, if_pos ⟨hdone, hptr⟩, if_pos hbig]
  exact ⟨rfl, hdone⟩

/-- The state reached by `wrapFrames` (hello, header and the 39 bytes of
`wrapHeaderBytes`): the bytes are buffered and nothing else is reported. -/
theorem wrapFrames_state :
    ∃ L : Int, DataInv 5 L wrapHeaderBytes (runDecoder cfg48k (initialState 5) wrapFrames).1 ∧
      (runDecoder cfg48k (initialState 5) wrapFrames).2 = wrapHeaderBytes.map Event.appended ∧
      (runDecoder cfg48k (initialState 5) wrapFrames).1.header
        = ChordHeader.mk 254 (List.replicate 32 0) 4294967295 0 0 := by
  have hp : AutoPlan cfg48k := calibrate_autoPlan defaultConfig 48000 rfl (by decide) (by decide)
  have hsame : SamePlan enc48k cfg48k := by
    norm_num [SamePlan, enc48k, cfg48k, calibrate, defaultConfig]
  obtain ⟨L2, s5, blocks2, e1, e2, e3⟩ := receive_phase cfg48k hp rfl enc48k hsame 5
    wrapHeaderBytes [] (sevenFrameView (dataSegments enc48k wrapHeaderBytes))
    (by decide) (by decide) (by decide)
    (by rw [List.append_nil]; exact sevenFrameView_ideal _ (by decide) _)
  have hb2 : blocks2 = [] := by
    cases blocks2 with
    | nil => rfl
    | cons a t => exact absurd e1 (by simp [IdealFrames])
  subst hb2
  have hrun : runDecoder cfg48k (initialState 5) wrapFrames
      = (s5, wrapHeaderBytes.map Event.appended) := by
    unfold wrapFrames
    rw [e3]
    simp [runDecoder]
  rw [hrun]
  refine ⟨L2, e2, rfl, ?_⟩
  obtain ⟨i1, i2, i3, i4, i5, i6, i7, i8⟩ := e2
  have hlen : wrapHeaderBytes.length = 39 := by decide
  rw [hlen] at i8
  show s5.header = _
  rw [i8 (by decide)]
  exact parseHeader_of_bufIs s5.fileBuffer _ [] (by rw [List.append_nil]; exact i6)
    (by decide) (by decide)

/-- C12 (evaluation of the code at the failing input): from the initial
state, `src/decoder/decoder.c` receives hello, header and the 39 bytes of
`wrapHeaderBytes`, whose `fileSize = 0xFFFFFFFF` exceeds
`MAX_FILE_SIZE - sizeof(ChordHeader)`.  The step that appends the byte
completing the header does not abort: the run ends in `STATE_READ_DATA`
with the header marked complete, and reports nothing but the 39 writes.
The byte-processing branch of `src/decoder.c`, given the same header fields
(`legacyOversizeState`, completing byte `0`), goes to `STATE_IDLE` and
leaves the header not complete. -/
theorem C12_oversized_header_accepted :
    (runDecoder cfg48k (initialState 5) wrapFrames).1.header.fileSize
      > MAX_FILE_SIZE - HEADER_SIZE ∧
    (runDecoder cfg48k (initialState 5) wrapFrames).1.bufPtr = HEADER_SIZE ∧
    (runDecoder cfg48k (initialState 5) wrapFrames).1.state = STATE_READ_DATA ∧
    (runDecoder cfg48k (initialState 5) wrapFrames).1.headerDone = true ∧
    appendedBytes (runDecoder cfg48k (initialState 5) wrapFrames).2 = wrapHeaderBytes ∧
    reports (runDecoder cfg48k (initialState 5) wrapFrames).2 = [] ∧
    (legacyParseHeader (legacyAcceptSymbol legacyOversizeState 0).fileBuffer).fileSize
      = 4294967295 ∧
    (legacyAcceptSymbol legacyOversizeState 0).state = STATE_IDLE ∧
    (legacyAcceptSymbol legacyOversizeState 0).headerDone = false := by
  obtain ⟨L, ⟨i1, i2, i3, i4, i5, i6, i7, i8⟩, hev, hhdr⟩ := wrapFrames_state
  have hlen : wrapHeaderBytes.length = 39 := by decide
  refine ⟨by rw [hhdr]; decide, by rw [i5, hlen]; rfl, i1, i7.mpr (by rw [hlen]; decide),
    by rw [hev]; exact appendedBytes_map_appended _, by rw [hev]; exact reports_map_appended _,
    by decide, ?_, ?_⟩
  · exact (legacyAcceptSymbol_oversized legacyOversizeState 0 rfl rfl (by decide) (by decide)).1
  · exact (legacyAcceptSymbol_oversized legacyOversizeState 0 rfl rfl (by decide) (by decide)).2

/-! ## Delivered bytes and received bytes -/

/-- The state reached by `namedWrapFrames` (hello, header and the 39 bytes of
`namedWrapHeaderBytes`): the bytes are buffered and the header is parsed. -/
theorem namedWrapFrames_state :
    ∃ L : Int,
      DataInv 5 L namedWrapHeaderBytes (runDecoder cfg48k (initialState 5) namedWrapFrames).1 ∧
      (runDecoder cfg48k (initialState 5) namedWrapFrames).2
        = namedWrapHeaderBytes.map Event.appended ∧
      (runDecoder cfg48k (initialState 5) namedWrapFrames).1.header
        = ChordHeader.mk 254 ([116] ++ List.replicate 31 0) 4294967295 0 0 := by
  have hp : AutoPlan cfg48k := calibrate_autoPlan defaultConfig 48000 rfl (by decide) (by decide)
  have hsame : SamePlan enc48k cfg48k := by
    norm_num [SamePlan, enc48k, cfg48k, calibrate, defaultConfig]
  obtain ⟨L2, s5, blocks2, e1, e2, e3⟩ := receive_phase cfg48k hp rfl enc48k hsame 5
    namedWrapHeaderBytes [] (sevenFrameView (dataSegments enc48k namedWrapHeaderBytes))
    (by decide) (by decide) (by decide)
    (by rw [List.append_nil]; exact sevenFrameView_ideal _ (by decide) _)
  have hb2 : blocks2 = [] := by
    cases blocks2 with
    | nil => rfl
    | cons a t => exact absurd e1 (by simp [IdealFrames])
  subst hb2
  have hrun : runDecoder cfg48k (initialState 5) namedWrapFrames
      = (s5, namedWrapHeaderBytes.map Event.appended) := by
    unfold namedWrapFrames
    rw [e3]
    simp [runDecoder]
  rw [hrun]
  refine ⟨L2, e2, rfl, ?_⟩
  obtain ⟨i1, i2, i3, i4, i5, i6, i7, i8⟩ := e2
  have hlen : namedWrapHeaderBytes.length = 39 := by decide
  rw [hlen] at i8
  show s5.header = _
  rw [i8 (by decide)]
  exact parseHeader_of_bufIs s5.fileBuffer _ [] (by rw [List.append_nil]; exact i6)
    (by decide) (by decide)

/-- C29 (evaluation of the code at the failing input): the state reached by
`namedWrapFrames` is reachable, with the header complete, the file name
field holding the C string `"t"` (so that `fopen(header.fileName, "wb")` has
a usable name), `fileSize = 0xFFFFFFFF` and 39 bytes buffered.  On a
terminate frame `expectedTotalBytes` has wrapped to `38`, the step reports
neither incomplete data nor a checksum mismatch and hands a payload of
`fileSize` bytes to the file sink under the name `"t"`, although
`39 + fileSize <= bufPtr` is false as a statement about integers and the
delivered range extends beyond `MAX_FILE_SIZE`. -/
theorem C29_delivered_beyond_received :
    Reachable cfg48k 5 (runDecoder cfg48k (initialState 5) namedWrapFrames).1 ∧
    (runDecoder cfg48k (initialState 5) namedWrapFrames).1.header.fileName
      = [116] ++ List.replicate 31 0 ∧
    (analysisStep cfg48k (runDecoder cfg48k (initialState 5) namedWrapFrames).1
        (binFrame 588 10)).2
      = [Event.saved ([116] ++ List.replicate 31 0)
          (payloadOf (runDecoder cfg48k (initialState 5) namedWrapFrames).1.fileBuffer
            (runDecoder cfg48k (initialState 5) namedWrapFrames).1.header.fileSize)] ∧
    (payloadOf (runDecoder cfg48k (initialState 5) namedWrapFrames).1.fileBuffer
        (runDecoder cfg48k (initialState 5) namedWrapFrames).1.header.fileSize).length
      = 4294967295 ∧
    (runDecoder cfg48k (initialState 5) namedWrapFrames).1.bufPtr = 39 ∧
    ¬ (HEADER_SIZE + (runDecoder cfg48k (initialState 5) namedWrapFrames).1.header.fileSize
        ≤ (runDecoder cfg48k (initialState 5) namedWrapFrames).1.bufPtr) ∧
    (HEADER_SIZE + (runDecoder cfg48k (initialState 5) namedWrapFrames).1.header.fileSize)
        % 2 ^ 32 = 38 ∧
    MAX_FILE_SIZE
      < HEADER_SIZE + (runDecoder cfg48k (initialState 5) namedWrapFrames).1.header.fileSize := by
  obtain ⟨L, ⟨i1, i2, i3, i4, i5, i6, i7, i8⟩, -, hhdr⟩ := namedWrapFrames_state
  have hlen : namedWrapHeaderBytes.length = 39 := by decide
  rw [hlen] at i5 i7
  have hreach : Reachable cfg48k 5 (runDecoder cfg48k (initialState 5) namedWrapFrames).1 :=
    ⟨namedWrapFrames, rfl⟩
  generalize (runDecoder cfg48k (initialState 5) namedWrapFrames).1 = s5 at *
  have hdone : s5.headerDone = true := i7.mpr (by decide)
  have hT : isTermination cfg48k s5 (binFrame 588 10) :=
    isTermination_bin588 s5 10 i1 (by rw [i2]; norm_num)
  refine ⟨hreach, by rw [hhdr], ?_, ?_, i5,
    by rw [hhdr, i5]; decide, by rw [hhdr]; decide, by rw [hhdr]; decide⟩
  · rw [analysisStep_termination cfg48k s5 (binFrame 588 10) hT]
    have h1 : calcSum s5.fileBuffer 4294967295 39 = 0 := by
      unfold calcSum
      rw [show 39 - HEADER_SIZE = 0 by decide, Nat.min_zero]
      rfl
    have h2 : (HEADER_SIZE + 4294967295) % 2 ^ 32 = 38 := by decide
    simp only [validate, hdone, if_true, hhdr, i5, h1, h2]
    simp
  · rw [hhdr]
    simp [payloadOf]

/-! ## Data tones and structural tones -/

/-- C30: for the auto-calibrated plan (any sample rate and FFT size above
zero) and every symbol value `v` in `[0, 256]`, the data tone
`BASE_FREQ + v * BIN_SPACING` passes none of the three structural
frequency tests (hello, header, terminate); no frequency passes two of the
three tests; and no frame on a data tone satisfies the termination guard. -/
theorem C30_data_tones_not_structural (cfg0 : DecoderConfig) (sr : Nat)
    (hauto : cfg0.AUTO_SPACING = true) (hsr : 0 < sr) (hN : 0 < cfg0.FFT_SIZE)
    (v : Nat) (hv : v ≤ 256) :
    ¬ (|(calibrate cfg0 sr).BASE_FREQ + (v : ℚ) * (calibrate cfg0 sr).BIN_SPACING
          - (calibrate cfg0 sr).FREQ_HELLO| < (calibrate cfg0 sr).BIN_WIDTH * (3 / 2)) ∧
    ¬ (|(calibrate cfg0 sr).BASE_FREQ + (v : ℚ) * (calibrate cfg0 sr).BIN_SPACING
          - (calibrate cfg0 sr).FREQ_HEADER| < (calibrate cfg0 sr).BIN_WIDTH * (3 / 2)) ∧
    ¬ (|(calibrate cfg0 sr).BASE_FREQ + (v : ℚ) * (calibrate cfg0 sr).BIN_SPACING
          - (calibrate cfg0 sr).FREQ_TERM| < (calibrate cfg0 sr).BIN_WIDTH * (5 / 2)) ∧
    (∀ f : ℚ,
      ¬ (|f - (calibrate cfg0 sr).FREQ_HELLO| < (calibrate cfg0 sr).BIN_WIDTH * (3 / 2) ∧
         |f - (calibrate cfg0 sr).FREQ_HEADER| < (calibrate cfg0 sr).BIN_WIDTH * (3 / 2)) ∧
      ¬ (|f - (calibrate cfg0 sr).FREQ_HELLO| < (calibrate cfg0 sr).BIN_WIDTH * (3 / 2) ∧
         |f - (calibrate cfg0 sr).FREQ_TERM| < (calibrate cfg0 sr).BIN_WIDTH * (5 / 2)) ∧
      ¬ (|f - (calibrate cfg0 sr).FREQ_HEADER| < (calibrate cfg0 sr).BIN_WIDTH * (3 / 2) ∧
         |f - (calibrate cfg0 sr).FREQ_TERM| < (calibrate cfg0 sr).BIN_WIDTH * (5 / 2))) ∧
    (∀ (s : DecoderState) (m : ℚ),
      ¬ isTermination (calibrate cfg0 sr) s
          { freq := (calibrate cfg0 sr).BASE_FREQ + (v : ℚ) * (calibrate cfg0 sr).BIN_SPACING,
            maxM := m }) := by
  obtain ⟨hbw, hsp, hhello, hhdr, hbase, hterm⟩ := calibrate_autoPlan cfg0 sr hauto hsr hN
  generalize calibrate cfg0 sr = cfg at *
  have hv0 : (0 : ℚ) ≤ (v : ℚ) * cfg.BIN_WIDTH := by positivity
  have hv1 : (v : ℚ) * cfg.BIN_WIDTH ≤ 256 * cfg.BIN_WIDTH :=
    mul_le_mul_of_nonneg_right (by exact_mod_cast hv) (le_of_lt hbw)
  have hT : ¬ (|cfg.BASE_FREQ + (v : ℚ) * cfg.BIN_SPACING - cfg.FREQ_TERM|
      < cfg.BIN_WIDTH * (5 / 2)) := by
    rw [hsp, hbase, hterm, abs_lt]
    rintro ⟨h1, -⟩
    linarith
  refine ⟨?_, ?_, hT, fun f => ⟨?_, ?_, ?_⟩, fun s m ht => hT ht.2.2⟩
  · rw [hsp, hbase, hhello, abs_lt]
    rintro ⟨-, h2⟩
    linarith
  · rw [hsp, hbase, hhdr, abs_lt]
    rintro ⟨-, h2⟩
    linarith
  · rw [hhello, hhdr, abs_lt, abs_lt]
    rintro ⟨⟨-, h2⟩, ⟨h3, -⟩⟩
    linarith
  · rw [hhello, hterm, abs_lt, abs_lt]
    rintro ⟨⟨-, h2⟩, ⟨h3, -⟩⟩
    linarith
  · rw [hhdr, hterm, abs_lt, abs_lt]
    rintro ⟨⟨-, h2⟩, ⟨h3, -⟩⟩
    linarith

/-- C30 for the default configuration on a 48 kHz device and the `REPEAT`
symbol: the tone on bin 564 does not pass the terminate test. -/
theorem C30_data_tones_not_structural_witness :
    (256 : Nat) ≤ 256 ∧
    ¬ (|(calibrate defaultConfig 48000).BASE_FREQ
          + ((256 : Nat) : ℚ) * (calibrate defaultConfig 48000).BIN_SPACING
          - (calibrate defaultConfig 48000).FREQ_TERM|
        < (calibrate defaultConfig 48000).BIN_WIDTH * (5 / 2)) :=
  ⟨le_refl _, (C30_data_tones_not_structural defaultConfig 48000 rfl (by decide) (by decide)
    256 (le_refl _)).2.2.1⟩

/-! ## The adaptive threshold -/

theorem acceptSymbol_noise (s : DecoderState) (c : Int) :
    (acceptSymbol s c).1.smoothedNoise = s.smoothedNoise ∧
    (acceptSymbol s c).1.THRESHOLD = s.THRESHOLD := by
  unfold acceptSymbol
  simp only
  generalize (if c = REPEAT_IDX then s.lastValidByte else c) = btp
  generalize (if 0 ≤ c ∧ c ≤ 255 then c else s.lastValidByte) = lv
  split_ifs <;> exact ⟨rfl, rfl⟩

theorem stability_noise (s : DecoderState) (c : Int) (m : ℚ) :
    (stability s c m).smoothedNoise = s.smoothedNoise := by
  unfold stability
  split_ifs <;> rfl

theorem stateMachine_noise (cfg : DecoderConfig) (s : DecoderState) (fr : Frame) (c : Int) :
    (stateMachine cfg s fr c).1.smoothedNoise = s.smoothedNoise ∧
    (stateMachine cfg s fr c).1.THRESHOLD = s.THRESHOLD := by
  unfold stateMachine
  by_cases h1 : fr.maxM > s.THRESHOLD
  · rw [if_pos h1]
    split
    · split_ifs <;> exact ⟨rfl, rfl⟩
    · split_ifs <;> exact ⟨rfl, rfl⟩
    · split_ifs
      · exact acceptSymbol_noise s c
      · exact ⟨rfl, rfl⟩
  · rw [if_neg h1]
    exact ⟨rfl, rfl⟩

/-- After the adaptive threshold logic, the rest of the step leaves
`smoothedNoise` and `THRESHOLD` alone. -/
theorem analysisStep_noise (cfg : DecoderConfig) (s : DecoderState) (fr : Frame) :
    (analysisStep cfg s fr).1.smoothedNoise = (adaptiveThreshold cfg s fr.maxM).smoothedNoise ∧
    (analysisStep cfg s fr).1.THRESHOLD = (adaptiveThreshold cfg s fr.maxM).THRESHOLD := by
  unfold analysisStep
  simp only
  generalize adaptiveThreshold cfg s fr.maxM = s1
  by_cases ht : isTermination cfg s1 fr
  · rw [if_pos ht]
    exact ⟨rfl, rfl⟩
  · rw [if_neg ht]
    obtain ⟨h1, h2⟩ := stateMachine_noise cfg
      (stability s1 (detectSymbol cfg s1.THRESHOLD fr) fr.maxM) fr
      (detectSymbol cfg s1.THRESHOLD fr)
    rw [h1, h2, stability_noise, stability_THRESHOLD]
    exact ⟨rfl, rfl⟩

/-- C22: for every step with magnitude `maxM`: if the link state at the
start of the step is `STATE_IDLE`, the step leaves
`smoothedNoise = 0.95 * smoothedNoise + 0.05 * maxM`, and
`THRESHOLD = max (3 * smoothedNoise) 2` (hence at least `2`) when
`AUTO_THRESHOLD` is enabled, the previous `THRESHOLD` when it is disabled;
if the link state is `STATE_WAIT_HEADER` or `STATE_READ_DATA`, both
`smoothedNoise` and `THRESHOLD` are as before the step. -/
theorem C22_adaptive_threshold (cfg : DecoderConfig) (s : DecoderState) (fr : Frame) :
    (s.state = STATE_IDLE →
      (analysisStep cfg s fr).1.smoothedNoise
        = s.smoothedNoise * (19 / 20) + fr.maxM * (1 / 20) ∧
      (cfg.AUTO_THRESHOLD = true →
        (analysisStep cfg s fr).1.THRESHOLD
          = max ((analysisStep cfg s fr).1.smoothedNoise * 3) 2 ∧
        2 ≤ (analysisStep cfg s fr).1.THRESHOLD) ∧
      (cfg.AUTO_THRESHOLD = false → (analysisStep cfg s fr).1.THRESHOLD = s.THRESHOLD)) ∧
    (s.state = STATE_WAIT_HEADER ∨ s.state = STATE_READ_DATA →
      (analysisStep cfg s fr).1.smoothedNoise = s.smoothedNoise ∧
      (analysisStep cfg s fr).1.THRESHOLD = s.THRESHOLD) := by
  obtain ⟨h1, h2⟩ := analysisStep_noise cfg s fr
  rw [h1, h2]
  refine ⟨fun hs => ⟨?_, fun ha => ?_, fun ha => ?_⟩, fun hs => ?_⟩
  · unfold adaptiveThreshold
    rw [if_pos hs]
    split_ifs <;> rfl
  · unfold adaptiveThreshold
    simp only [hs, ha, if_true]
    by_cases hlt : (s.smoothedNoise * (19 / 20) + fr.maxM * (1 / 20)) * 3 < 2
    · rw [if_pos hlt, max_eq_right (le_of_lt hlt)]
      exact ⟨rfl, le_refl _⟩
    · rw [if_neg hlt, max_eq_left (not_lt.mp hlt)]
      exact ⟨rfl, not_lt.mp hlt⟩
  · unfold adaptiveThreshold
    simp only [hs, ha, if_true]
    rfl
  · have hne : s.state ≠ STATE_IDLE := by
      rcases hs with h | h <;> (rw [h]; decide)
    rw [adaptiveThreshold_of_not_idle cfg s fr.maxM hne]
    exact ⟨rfl, rfl⟩

/-- C22 at the initial state (threshold `5`) with auto threshold enabled and
a frame of magnitude `10`: the noise estimate becomes `1.45` and the
threshold `4.35`. -/
theorem C22_adaptive_threshold_witness :
    (initialState 5).state = STATE_IDLE ∧
    (analysisStep { cfg48k with AUTO_THRESHOLD := true } (initialState 5)
      (binFrame 0 10)).1.smoothedNoise = 29 / 20 ∧
    (analysisStep { cfg48k with AUTO_THRESHOLD := true } (initialState 5)
      (binFrame 0 10)).1.THRESHOLD = 87 / 20 := by
  have h := (C22_adaptive_threshold { cfg48k with AUTO_THRESHOLD := true } (initialState 5)
    (binFrame 0 10)).1 rfl
  have h1 : (analysisStep { cfg48k with AUTO_THRESHOLD := true } (initialState 5)
      (binFrame 0 10)).1.smoothedNoise = 29 / 20 := by
    rw [h.1]
    norm_num [initialState, binFrame]
  refine ⟨rfl, h1, ?_⟩
  rw [(h.2.1 rfl).1, h1]
  norm_num

/-! ## Resetting the receive buffer -/

set_option maxRecDepth 100000 in
/-- C21 (counterexample): in the reachable state `syncByteState`
(`STATE_READ_DATA`, one byte buffered) a terminate frame (bin 588) makes the
step detect termination and go to `STATE_IDLE`, and the byte count after the
step is still `1`, not `0`. -/
theorem C21_buffer_reset_counterexample :
    Reachable cfg48k 5 syncByteState ∧
    isTermination cfg48k syncByteState (binFrame 588 10) ∧
    (analysisStep cfg48k syncByteState (binFrame 588 10)).1.state = STATE_IDLE ∧
    (analysisStep cfg48k syncByteState (binFrame 588 10)).1.bufPtr = 1 := by
  refine ⟨reachable_syncByteState, ?_, ?_, ?_⟩
  all_goals with_unfolding_all decide

/-- C21 (amended): the receive buffer is empty (`bufPtr = 0`), with
`processedByte = -1` and `headerDone = false`, immediately after every step
that moves `STATE_WAIT_HEADER` to `STATE_READ_DATA`.  A step that detects
termination goes to `STATE_IDLE` and leaves `bufPtr`, the buffer contents
and `headerDone` as they were; they are reset by the next step that enters
`STATE_READ_DATA`. -/
theorem C21_buffer_reset (cfg : DecoderConfig) (s : DecoderState) (fr : Frame) :
    (s.state = STATE_WAIT_HEADER → (analysisStep cfg s fr).1.state = STATE_READ_DATA →
      (analysisStep cfg s fr).1.bufPtr = 0 ∧
      (analysisStep cfg s fr).1.processedByte = -1 ∧
      (analysisStep cfg s fr).1.headerDone = false) ∧
    (isTermination cfg s fr →
      (analysisStep cfg s fr).1.state = STATE_IDLE ∧
      (analysisStep cfg s fr).1.bufPtr = s.bufPtr ∧
      (analysisStep cfg s fr).1.fileBuffer = s.fileBuffer ∧
      (analysisStep cfg s fr).1.headerDone = s.headerDone) := by
  refine ⟨fun hs hr => ?_, fun ht => ?_⟩
  · have hst : s.state ≠ STATE_IDLE := by rw [hs]; decide
    have hnt : ¬ isTermination cfg s fr := fun h => by
      have := h.1
      rw [hs] at this
      exact absurd this (by decide)
    simp only [analysisStep, adaptiveThreshold_of_not_idle cfg s fr.maxM hst, hnt,
      if_false] at hr ⊢
    have hs2 : (stability s (detectSymbol cfg s.THRESHOLD fr) fr.maxM).state
        = STATE_WAIT_HEADER := by rw [stability_state, hs]
    generalize stability s (detectSymbol cfg s.THRESHOLD fr) fr.maxM = s2 at hr hs2 ⊢
    unfold stateMachine at hr ⊢
    by_cases h1 : fr.maxM > s2.THRESHOLD
    · rw [if_pos h1] at hr ⊢
      simp only [hs2] at hr ⊢
      by_cases h2 : |fr.freq - cfg.FREQ_HEADER| < cfg.BIN_WIDTH * (3 / 2)
      · rw [if_pos h2]
        exact ⟨rfl, rfl, rfl⟩
      · rw [if_neg h2] at hr
        rw [hs2] at hr
        exact absurd hr (by decide)
    · rw [if_neg h1] at hr
      rw [hs2] at hr
      exact absurd hr (by decide)
  · rw [analysisStep_termination cfg s fr ht]
    exact ⟨rfl, rfl, rfl, rfl⟩

set_option maxRecDepth 100000 in
/-- C21 (amended) on the header frame after a hello frame: the step enters
`STATE_READ_DATA` with an empty buffer. -/
theorem C21_buffer_reset_witness :
    (analysisStep cfg48k (initialState 5) (binFrame 26 10)).1.state = STATE_WAIT_HEADER ∧
    (analysisStep cfg48k (analysisStep cfg48k (initialState 5) (binFrame 26 10)).1
      (binFrame 36 10)).1.state = STATE_READ_DATA ∧
    (analysisStep cfg48k (analysisStep cfg48k (initialState 5) (binFrame 26 10)).1
      (binFrame 36 10)).1.bufPtr = 0 :=
  have h1 : (analysisStep cfg48k (initialState 5) (binFrame 26 10)).1.state
      = STATE_WAIT_HEADER := by with_unfolding_all decide
  have h2 : (analysisStep cfg48k (analysisStep cfg48k (initialState 5) (binFrame 26 10)).1
      (binFrame 36 10)).1.state = STATE_READ_DATA := by with_unfolding_all decide
  ⟨h1, h2, ((C21_buffer_reset cfg48k _ (binFrame 36 10)).1 h1 h2).1⟩

/-! ## Checksum agreement -/

/-- C26: for every payload, the encoder's checksum (a 32-bit sum that may
wrap, reduced modulo 256) equals the decoder's checksum (an 8-bit sum) over
the same bytes, taken from a receive buffer that holds the payload behind
the 39 header bytes with at least `39 + length payload` bytes buffered; both
equal the sum of the bytes modulo 256. -/
theorem C26_checksum_agreement (payload : List Nat) (buf : Nat → Nat) (bufPtr : Nat)
    (hbuf : payloadOf buf payload.length = payload)
    (hptr : HEADER_SIZE + payload.length ≤ bufPtr) :
    encoderChecksum payload = calcSum buf payload.length bufPtr ∧
    encoderChecksum payload = specChecksum payload ∧
    calcSum buf payload.length bufPtr = specChecksum payload := by
  have h1 : encoderChecksum payload = specChecksum payload := encoderChecksum_eq payload
  have h2 : calcSum buf payload.length bufPtr = specChecksum payload := by
    rw [calcSum_eq_payload_sum buf payload.length bufPtr hptr, hbuf]
    rfl
  exact ⟨h1.trans h2.symm, h1, h2⟩

/-- C26 for the payload `[200, 100]` stored behind the header: both
checksums are `300 mod 256 = 44`. -/
theorem C26_checksum_agreement_witness :
    payloadOf (fun i => if i = 39 then 200 else if i = 40 then 100 else 0)
      ([200, 100] : List Nat).length = [200, 100] ∧
    HEADER_SIZE + ([200, 100] : List Nat).length ≤ 41 ∧
    encoderChecksum [200, 100] = 44 ∧
    calcSum (fun i => if i = 39 then 200 else if i = 40 then 100 else 0) 2 41 = 44 :=
  have h := C26_checksum_agreement [200, 100]
    (fun i => if i = 39 then 200 else if i = 40 then 100 else 0) 41 (by decide) (by decide)
  ⟨by decide, by decide, h.2.1.trans (by decide), h.2.2.trans (by decide)⟩

/-! ## A held tone -/

/-- A run of frames that all carry `c` above the threshold, in
`STATE_READ_DATA`: the run stays in `STATE_READ_DATA` with the same
threshold, appends at most one byte, appends nothing when `c` is already the
locked symbol, and leaves `c` locked when it appended a byte. -/
theorem held_run_summary (cfg : DecoderConfig) (c : Int) (run : List Frame) (s : DecoderState)
    (hs : s.state = STATE_READ_DATA) (hheld : HeldIn cfg s.THRESHOLD c run) :
    (runDecoder cfg s run).1.state = STATE_READ_DATA ∧
    (runDecoder cfg s run).1.THRESHOLD = s.THRESHOLD ∧
    (appendedBytes (runDecoder cfg s run).2).length ≤ 1 ∧
    (s.processedByte = c →
      (runDecoder cfg s run).2 = [] ∧ (runDecoder cfg s run).1.processedByte = c) ∧
    (appendedBytes (runDecoder cfg s run).2 ≠ [] → (runDecoder cfg s run).1.processedByte = c) := by
  cases run with
  | nil =>
    exact ⟨hs, rfl, by simp [runDecoder, appendedBytes], fun h => ⟨rfl, h⟩,
      fun h => absurd rfl h⟩
  | cons fr frs =>
    by_cases hno : s.processedByte = c ∨ effCount c s + (frs.length + 1) < cfg.DEBOUNCE_LIMIT
    · rw [held_run_idle cfg c frs s fr hs hheld hno]
      exact ⟨hs, rfl, by simp [appendedBytes], fun h => ⟨rfl, h⟩, fun h => absurd rfl h⟩
    · rw [not_or, not_lt] at hno
      rw [held_run_accept cfg c frs s fr hs hheld hno.1 hno.2]
      obtain ⟨p1, p2, p3⟩ := acceptSymbol_fields s c
      refine ⟨by simpa [setStab] using p2.trans hs, by simpa [setStab] using p3, ?_,
        fun h => absurd h hno.1, fun _ => by simpa [setStab] using p1⟩
      rcases acceptSymbol_write s c with ⟨-, h⟩ | ⟨b, -, -, h⟩
      · rw [h]; simp
      · rw [h]; simp

/-- C27: in `STATE_READ_DATA`, any number of consecutive analysis steps that
all carry the same symbol `c` with magnitude above the threshold, and do not
match the terminate tone, append at most one byte to the receive buffer; and
from the point of the run at which `c` is the locked symbol (in particular
from the point at which a byte has been appended) the rest of the run
appends nothing and reports nothing. -/
theorem C27_held_tone_one_byte (cfg : DecoderConfig) (s : DecoderState) (c : Int)
    (run : List Frame) (hs : s.state = STATE_READ_DATA)
    (hheld : ∀ fr ∈ run,
      fr.maxM > s.THRESHOLD ∧ detectSymbol cfg s.THRESHOLD fr = c ∧ ¬ matchesTerm cfg fr) :
    (appendedBytes (runDecoder cfg s run).2).length ≤ 1 ∧
    ∀ a b : List Frame, run = a ++ b →
      ((runDecoder cfg s a).1.processedByte = c ∨ appendedBytes (runDecoder cfg s a).2 ≠ []) →
      (runDecoder cfg (runDecoder cfg s a).1 b).2 = [] := by
  refine ⟨(held_run_summary cfg c run s hs hheld).2.2.1, fun a b hab hacc => ?_⟩
  subst hab
  have ha : HeldIn cfg s.THRESHOLD c a := fun fr hfr => hheld fr (List.mem_append_left _ hfr)
  have hb : HeldIn cfg s.THRESHOLD c b := fun fr hfr => hheld fr (List.mem_append_right _ hfr)
  obtain ⟨q1, q2, -, -, q5⟩ := held_run_summary cfg c a s hs ha
  have hlock : (runDecoder cfg s a).1.processedByte = c := by
    rcases hacc with h | h
    · exact h
    · exact q5 h
  rw [← q2] at hb
  exact ((held_run_summary cfg c b _ q1 hb).2.2.2.1 hlock).1

set_option maxRecDepth 100000 in
/-- C27 for ten frames of the tone of `0xFE` in the state `syncLockedState`:
exactly one byte is appended. -/
theorem C27_held_tone_one_byte_witness :
    syncLockedState.state = STATE_READ_DATA ∧
    (∀ fr ∈ List.replicate 10 (binFrame 560 10),
      fr.maxM > syncLockedState.THRESHOLD ∧
      detectSymbol cfg48k syncLockedState.THRESHOLD fr = 254 ∧ ¬ matchesTerm cfg48k fr) ∧
    appendedBytes (runDecoder cfg48k syncLockedState (List.replicate 10 (binFrame 560 10))).2
      = [254] ∧
    (appendedBytes
      (runDecoder cfg48k syncLockedState (List.replicate 10 (binFrame 560 10))).2).length ≤ 1 :=
  have h1 : syncLockedState.state = STATE_READ_DATA := by with_unfolding_all decide
  have h2 : ∀ fr ∈ List.replicate 10 (binFrame 560 10),
      fr.maxM > syncLockedState.THRESHOLD ∧
      detectSymbol cfg48k syncLockedState.THRESHOLD fr = 254 ∧ ¬ matchesTerm cfg48k fr := by
    intro fr hfr
    rw [List.eq_of_mem_replicate hfr]
    with_unfolding_all decide
  ⟨h1, h2, by with_unfolding_all decide,
    (C27_held_tone_one_byte cfg48k syncLockedState 254 _ h1 h2).1⟩

/-! ## Peak scan -/

/-- The scan loop over an increasing list of bins: the running maximum never
decreases, bounds every scanned magnitude, and either the pair is unchanged
or it holds the first scanned bin that attains the maximum. -/
theorem peakStep_foldl (mag : Nat → ℚ) (l : List Nat) (hl : l.Pairwise (fun a b => a < b))
    (acc : ℚ × Nat) :
    acc.1 ≤ (l.foldl (peakStep mag) acc).1 ∧
    (∀ k ∈ l, mag k ≤ (l.foldl (peakStep mag) acc).1) ∧
    (l.foldl (peakStep mag) acc = acc ∨
      ((l.foldl (peakStep mag) acc).2 ∈ l ∧
        (l.foldl (peakStep mag) acc).1 = mag (l.foldl (peakStep mag) acc).2 ∧
        acc.1 < (l.foldl (peakStep mag) acc).1 ∧
        ∀ k ∈ l, k < (l.foldl (peakStep mag) acc).2 →
          mag k < (l.foldl (peakStep mag) acc).1)) := by
  induction l generalizing acc with
  | nil => exact ⟨le_refl _, fun k hk => by simp at hk, Or.inl rfl⟩
  | cons k0 t ih =>
    rw [List.pairwise_cons] at hl
    obtain ⟨h1, h2, h3⟩ := ih hl.2 (peakStep mag acc k0)
    have hacc : acc.1 ≤ (peakStep mag acc k0).1 ∧ mag k0 ≤ (peakStep mag acc k0).1 := by
      unfold peakStep
      split_ifs with h
      · exact ⟨le_of_lt h, le_refl _⟩
      · exact ⟨le_refl _, not_lt.mp h⟩
    simp only [List.foldl_cons]
    generalize List.foldl (peakStep mag) (peakStep mag acc k0) t = r at h1 h2 h3 ⊢
    refine ⟨le_trans hacc.1 h1, fun k hk => ?_, ?_⟩
    · rcases List.mem_cons.mp hk with rfl | hk
      · exact le_trans hacc.2 h1
      · exact h2 k hk
    · rcases h3 with h3 | ⟨m1, m2, m3, m4⟩
      · by_cases hgt : mag k0 > acc.1
        · have hr : r = (mag k0, k0) := by
            rw [h3]
            unfold peakStep
            rw [if_pos hgt]
          refine Or.inr ⟨by rw [hr]; exact List.mem_cons_self _ _, by rw [hr], by rw [hr]; exact hgt,
            fun k hk hlt => ?_⟩
          rw [hr] at hlt
          rcases List.mem_cons.mp hk with rfl | hk
          · exact absurd hlt (lt_irrefl _)
          · exact absurd (hl.1 k hk) (not_lt.mpr (le_of_lt hlt))
        · left
          rw [h3]
          unfold peakStep
          rw [if_neg hgt]
      · refine Or.inr ⟨List.mem_cons_of_mem _ m1, m2, lt_of_le_of_lt hacc.1 m3, fun k hk hlt => ?_⟩
        rcases List.mem_cons.mp hk with rfl | hk
        · exact lt_of_le_of_lt hacc.2 m3
        · exact m4 k hk hlt

theorem mem_scan_range (n k : Nat) : k ∈ List.range' 1 (n - 1) ↔ 1 ≤ k ∧ k < n := by
  rw [List.mem_range'_1]
  omega

theorem scan_range_pairwise (n : Nat) : (List.range' 1 (n - 1)).Pairwise (fun a b => a < b) :=
  List.pairwise_lt_range' 1 (n - 1)

theorem peakStep_congr (mag mag2 : Nat → ℚ) (l : List Nat) (acc : ℚ × Nat)
    (h : ∀ k ∈ l, mag2 k = mag k) : l.foldl (peakStep mag2) acc = l.foldl (peakStep mag) acc := by
  induction l generalizing acc with
  | nil => rfl
  | cons k0 t ih =>
    simp only [List.foldl_cons]
    have e : peakStep mag2 acc k0 = peakStep mag acc k0 := by
      unfold peakStep
      rw [h k0 (List.mem_cons_self _ _)]
    rw [e]
    exact ih _ (fun k hk => h k (List.mem_cons_of_mem _ hk))

/-- C23: for every array of bin magnitudes that are non-negative on the
scanned bins `[1, N / 2)`: when every scanned magnitude is `0` the scan
returns `maxI = 0` and `maxM = 0`; otherwise `maxI` is a scanned bin whose
magnitude is the maximum over the scanned bins, every scanned bin below
`maxI` has a strictly smaller magnitude (so `maxI` is the smallest index
attaining the maximum), and `maxM` is twice that maximum.  Arrays that agree
on the scanned bins give the same result, and the reported frequency is
`maxI * BIN_WIDTH`. -/
theorem C23_peak_scan (cfg : DecoderConfig) (mag : Nat → ℚ)
    (hnn : ∀ k, 1 ≤ k → k < cfg.FFT_SIZE / 2 → 0 ≤ mag k) :
    ((∀ k, 1 ≤ k → k < cfg.FFT_SIZE / 2 → mag k = 0) → peakScan cfg.FFT_SIZE mag = (0, 0)) ∧
    ((∃ k, 1 ≤ k ∧ k < cfg.FFT_SIZE / 2 ∧ mag k ≠ 0) →
      1 ≤ (peakScan cfg.FFT_SIZE mag).2 ∧ (peakScan cfg.FFT_SIZE mag).2 < cfg.FFT_SIZE / 2 ∧
      (peakScan cfg.FFT_SIZE mag).1 = 2 * mag (peakScan cfg.FFT_SIZE mag).2 ∧
      (∀ k, 1 ≤ k → k < cfg.FFT_SIZE / 2 → mag k ≤ mag (peakScan cfg.FFT_SIZE mag).2) ∧
      (∀ k, 1 ≤ k → k < (peakScan cfg.FFT_SIZE mag).2 →
        mag k < mag (peakScan cfg.FFT_SIZE mag).2)) ∧
    (∀ mag2 : Nat → ℚ, (∀ k, 1 ≤ k → k < cfg.FFT_SIZE / 2 → mag2 k = mag k) →
      peakScan cfg.FFT_SIZE mag2 = peakScan cfg.FFT_SIZE mag) ∧
    (analysisFrame cfg mag).freq = ((peakScan cfg.FFT_SIZE mag).2 : ℚ) * cfg.BIN_WIDTH ∧
    (analysisFrame cfg mag).maxM = (peakScan cfg.FFT_SIZE mag).1 := by
  obtain ⟨h1, h2, h3⟩ := peakStep_foldl mag (List.range' 1 (cfg.FFT_SIZE / 2 - 1))
    (scan_range_pairwise _) (0, 0)
  obtain ⟨r, hr⟩ : ∃ r, List.foldl (peakStep mag) (0, 0)
      (List.range' 1 (cfg.FFT_SIZE / 2 - 1)) = r := ⟨_, rfl⟩
  rw [hr] at h1 h2 h3
  have hps : peakScan cfg.FFT_SIZE mag = (r.1 * 2, r.2) := by
    unfold peakScan
    rw [hr]
  refine ⟨fun hz => ?_, fun hex => ?_, fun mag2 hagree => ?_, rfl, rfl⟩
  · rw [hps]
    rcases h3 with h3 | ⟨m1, m2, m3, -⟩
    · rw [h3]
      simp
    · rw [mem_scan_range] at m1
      rw [m2, hz _ m1.1 m1.2] at m3
      exact absurd m3 (lt_irrefl _)
  · rw [hps]
    obtain ⟨k, hk1, hk2, hk3⟩ := hex
    have hpos : 0 < mag k := lt_of_le_of_ne (hnn k hk1 hk2) (Ne.symm hk3)
    have hr0 : (0 : ℚ) < r.1 := lt_of_lt_of_le hpos (h2 k ((mem_scan_range _ _).mpr ⟨hk1, hk2⟩))
    rcases h3 with h3 | ⟨m1, m2, m3, m4⟩
    · rw [h3] at hr0
      exact absurd hr0 (lt_irrefl _)
    · rw [mem_scan_range] at m1
      refine ⟨m1.1, m1.2, ?_, fun j hj1 hj2 => ?_, fun j hj1 hj2 => ?_⟩
      · show r.1 * 2 = 2 * mag r.2
        rw [m2]; ring
      · show mag j ≤ mag r.2
        rw [← m2]
        exact h2 j ((mem_scan_range _ _).mpr ⟨hj1, hj2⟩)
      · have hj3 : j < r.2 := hj2
        show mag j < mag r.2
        rw [← m2]
        exact m4 j ((mem_scan_range _ _).mpr ⟨hj1, by omega⟩) hj3
  · have e := peakStep_congr mag mag2 (List.range' 1 (cfg.FFT_SIZE / 2 - 1)) (0, 0)
      (fun k hk => by
        rw [mem_scan_range] at hk
        exact hagree k hk.1 hk.2)
    unfold peakScan
    rw [e]

/-- C23 for an array with the maximum `7` on the bins `3` and `5` of an
8-bin scan range (FFT size 16): the scan returns bin `3` and `maxM = 14`. -/
theorem C23_peak_scan_witness :
    (∀ k, 1 ≤ k → k < ({ cfg48k with FFT_SIZE := 16 } : DecoderConfig).FFT_SIZE / 2 →
      0 ≤ (fun k => if k = 3 ∨ k = 5 then (7 : ℚ) else 1) k) ∧
    peakScan 16 (fun k => if k = 3 ∨ k = 5 then (7 : ℚ) else 1) = (14, 3) :=
  have h : ∀ k, 1 ≤ k → k < ({ cfg48k with FFT_SIZE := 16 } : DecoderConfig).FFT_SIZE / 2 →
      0 ≤ (fun k => if k = 3 ∨ k = 5 then (7 : ℚ) else 1) k := by
    intro k _ _
    simp only
    split_ifs <;> norm_num
  ⟨h, ((C23_peak_scan { cfg48k with FFT_SIZE := 16 } _ h).2.2.1 _ (fun _ _ _ => rfl)).trans
    (by with_unfolding_all decide)⟩

/-! ## Peak scan of the earlier revision -/

/-- The scan of `src/decoder.c` returns the last scanned bin that exceeds its
local threshold. -/
theorem legacyPeakStep_foldl (binWidth threshold : ℚ) (mag : Nat → ℚ) (l1 l2 : List Nat)
    (j : Nat) (acc : ℚ × Nat)
    (hj2 : ∀ a, legacyPeakStep binWidth threshold mag a j
            = (mag j * (1 + (j : ℚ) * binWidth / 20000) * 2, j))
    (hl2 : ∀ k ∈ l2, ∀ a, legacyPeakStep binWidth threshold mag a k = a) :
    (l1 ++ j :: l2).foldl (legacyPeakStep binWidth threshold mag) acc
      = (mag j * (1 + (j : ℚ) * binWidth / 20000) * 2, j) := by
  rw [List.foldl_append, List.foldl_cons, hj2]
  induction l2 with
  | nil => rfl
  | cons k t ih =>
    rw [List.foldl_cons, hl2 k (List.mem_cons_self _ _)]
    exact ih (fun k2 hk2 => hl2 k2 (List.mem_cons_of_mem _ hk2))

/-- C24 (evaluation of the code at the failing input): with FFT size 2048,
bin width `23.4375` Hz and threshold `10`, on the magnitudes `twoPeaks`
(`100` on bin 100, `20` on bin 200, `0` elsewhere) both peaks exceed the
local threshold, and the compensated magnitude of bin 100 is the maximum
over the scanned bins; the scan of `src/decoder.c` returns bin 200 with its
smaller compensated magnitude. -/
theorem C24_scan_returns_last_bin :
    (100 : ℚ) * (1 + (100 : ℚ) * (375 / 16) / 20000) * 2 > 10 ∧
    (20 : ℚ) * (1 + (200 : ℚ) * (375 / 16) / 20000) * 2 > 10 ∧
    legacyPeakScan 2048 (375 / 16) 10 twoPeaks
      = (20 * (1 + (200 : ℚ) * (375 / 16) / 20000) * 2, 200) ∧
    (legacyPeakScan 2048 (375 / 16) 10 twoPeaks).1
      < twoPeaks 100 * (1 + (100 : ℚ) * (375 / 16) / 20000) * 2 := by
  have hscan : legacyPeakScan 2048 (375 / 16) 10 twoPeaks
      = (20 * (1 + (200 : ℚ) * (375 / 16) / 20000) * 2, 200) := by
    unfold legacyPeakScan
    have hr : List.range' 1 (2048 / 2 - 1) = List.range' 1 199 ++ 200 :: List.range' 201 823 := by
      have e : List.range' 1 199 ++ List.range' (1 + 199) 824 = List.range' 1 (824 + 199) :=
        List.range'_append_1 1 199 824
      have e2 : List.range' (1 + 199) 824 = 200 :: List.range' 201 823 :=
        List.range'_succ 200 823 1
      rw [e2] at e
      rw [e]
    rw [hr]
    have h200 : twoPeaks 200 = 20 := by
      unfold twoPeaks
      norm_num
    rw [legacyPeakStep_foldl (375 / 16) 10 twoPeaks _ _ 200 (0, 0)]
    · rw [h200]
      norm_num
    · intro a
      unfold legacyPeakStep
      rw [h200]
      norm_num
    · intro k hk a
      rw [List.mem_range'_1] at hk
      have hk0 : twoPeaks k = 0 := by
        unfold twoPeaks
        rw [if_neg (by omega), if_neg (by omega)]
      unfold legacyPeakStep
      simp only [hk0, zero_mul]
      rw [if_neg]
      split_ifs <;> norm_num
  refine ⟨by norm_num, by norm_num, hscan, ?_⟩
  rw [hscan]
  norm_num [twoPeaks]

/-! ## Sliding window -/

theorem feedSample_fields (cfg : DecoderConfig) (w : WindowState) (x : ℚ) :
    (feedSample cfg w x).1.slidingBuffer = Function.update w.slidingBuffer w.writeIdx x ∧
    (feedSample cfg w x).1.writeIdx = (w.writeIdx + 1) % cfg.FFT_SIZE ∧
    (feedSample cfg w x).1.stepCounter
      = if w.stepCounter + 1 ≥ (cfg.STEP_SIZE : Int) then 0 else w.stepCounter + 1 := by
  unfold feedSample
  simp only
  split_ifs <;> exact ⟨rfl, rfl, rfl⟩

theorem succ_mod_cases (n S : Nat) (hS : 0 < S) :
    (n % S + 1 = S ∧ (n + 1) % S = 0) ∨ (n % S + 1 < S ∧ (n + 1) % S = n % S + 1) := by
  have hlt := Nat.mod_lt n hS
  by_cases h : n % S + 1 = S
  · left
    refine ⟨h, ?_⟩
    rw [Nat.add_mod, show n % S = S - 1 by omega]
    by_cases h1 : S = 1
    · subst h1; simp
    · rw [Nat.mod_eq_of_lt (by omega : 1 < S), show S - 1 + 1 = S by omega, Nat.mod_self]
  · right
    refine ⟨by omega, ?_⟩
    have h1 : 1 < S := by omega
    rw [Nat.add_mod, Nat.mod_eq_of_lt h1, Nat.mod_eq_of_lt (by omega)]

theorem mod_ne_of_close (m n N : Nat) (h1 : m < n) (h2 : n < m + N) : m % N ≠ n % N := by
  intro h
  have hd : N ∣ n - m := (Nat.modEq_iff_dvd' (le_of_lt h1)).mp h
  have := Nat.le_of_dvd (by omega) hd
  omega

/-- After `n` samples: the counters are `n mod FFT_SIZE` and
`n mod STEP_SIZE`, each of the last `FFT_SIZE` samples is in its cell, and
the cells not yet written are `0`. -/
theorem windowAfter_inv (cfg : DecoderConfig) (x : Nat → ℚ) (hS : 0 < cfg.STEP_SIZE)
    (n : Nat) :
    (windowAfter cfg x n).writeIdx = n % cfg.FFT_SIZE ∧
    (windowAfter cfg x n).stepCounter = ((n % cfg.STEP_SIZE : Nat) : Int) ∧
    (∀ m, m < n → n ≤ m + cfg.FFT_SIZE →
      (windowAfter cfg x n).slidingBuffer (m % cfg.FFT_SIZE) = x m) ∧
    (∀ i, n ≤ i → i < cfg.FFT_SIZE → (windowAfter cfg x n).slidingBuffer i = 0) := by
  induction n with
  | zero =>
    refine ⟨by simp [windowAfter, initialWindow], by simp [windowAfter, initialWindow],
      fun m hm => absurd hm (Nat.not_lt_zero _), fun i _ _ => rfl⟩
  | succ n ih =>
    obtain ⟨i1, i2, i3, i4⟩ := ih
    obtain ⟨f1, f2, f3⟩ := feedSample_fields cfg (windowAfter cfg x n) (x n)
    show (feedSample cfg (windowAfter cfg x n) (x n)).1.writeIdx = _ ∧
      (feedSample cfg (windowAfter cfg x n) (x n)).1.stepCounter = _ ∧
      (∀ m, m < n + 1 → n + 1 ≤ m + cfg.FFT_SIZE →
        (feedSample cfg (windowAfter cfg x n) (x n)).1.slidingBuffer (m % cfg.FFT_SIZE) = x m) ∧
      (∀ i, n + 1 ≤ i → i < cfg.FFT_SIZE →
        (feedSample cfg (windowAfter cfg x n) (x n)).1.slidingBuffer i = 0)
    rw [f1, f2, f3, i1, i2]
    refine ⟨?_, ?_, fun m hm hm2 => ?_, fun i hi hi2 => ?_⟩
    · rw [Nat.add_mod, Nat.mod_mod, ← Nat.add_mod]
    · rcases succ_mod_cases n cfg.STEP_SIZE hS with ⟨a, b⟩ | ⟨a, b⟩
      · rw [if_pos (by omega), b]
        rfl
      · rw [if_neg (by omega), b]
        push_cast
        rfl
    · by_cases hmn : m = n
      · subst hmn
        rw [Function.update_same]
      · rw [Function.update_noteq (mod_ne_of_close m n cfg.FFT_SIZE (by omega) (by omega))]
        exact i3 m (by omega) (by omega)
    · rw [Function.update_noteq]
      · exact i4 i (by omega) hi2
      · rw [Nat.mod_eq_of_lt (by omega)]
        omega

theorem feedSample_out (cfg : DecoderConfig) (w : WindowState) (x : ℚ) :
    (feedSample cfg w x).2 =
      if w.stepCounter + 1 ≥ (cfg.STEP_SIZE : Int) then
        some ((List.range cfg.FFT_SIZE).map (fun j =>
          (feedSample cfg w x).1.slidingBuffer
            (((feedSample cfg w x).1.writeIdx + j) % cfg.FFT_SIZE)))
      else none := by
  unfold feedSample
  simp only
  split_ifs <;> rfl

/-- C25: for every sample stream fed one sample at a time (buffer initially
zero, write index `0`), with `FFT_SIZE` and `STEP_SIZE` positive: the
iteration on the sample with 1-based count `n + 1` runs an analysis step
exactly when `n + 1` is a multiple of `STEP_SIZE`, and then the FFT input is,
for `j = 0 .. FFT_SIZE - 1`, the sample with 1-based count
`n + 1 - FFT_SIZE + 1 + j` (0-based index `n + 1 + j - FFT_SIZE`) when that
count is at least `1`, and `0` otherwise: the last `FFT_SIZE` samples in
arrival order, oldest first. -/
theorem C25_sliding_window (cfg : DecoderConfig) (x : Nat → ℚ) (_hN : 0 < cfg.FFT_SIZE)
    (hS : 0 < cfg.STEP_SIZE) (n : Nat) :
    (feedSample cfg (windowAfter cfg x n) (x n)).2 =
      if cfg.STEP_SIZE ∣ n + 1 then
        some ((List.range cfg.FFT_SIZE).map (fun j =>
          if cfg.FFT_SIZE ≤ n + 1 + j then x (n + 1 + j - cfg.FFT_SIZE) else 0))
      else none := by
  obtain ⟨i1, i2, -, -⟩ := windowAfter_inv cfg x hS n
  obtain ⟨k1, -, k3, k4⟩ := windowAfter_inv cfg x hS (n + 1)
  rw [feedSample_out, i2]
  have hw : windowAfter cfg x (n + 1) = (feedSample cfg (windowAfter cfg x n) (x n)).1 := rfl
  rw [← hw, k1]
  rcases succ_mod_cases n cfg.STEP_SIZE hS with ⟨a, b⟩ | ⟨a, b⟩
  · rw [if_pos (by omega), if_pos (Nat.dvd_of_mod_eq_zero b)]
    congr 1
    apply List.map_congr_left
    intro j hj
    rw [List.mem_range] at hj
    rw [Nat.add_mod, Nat.mod_mod, ← Nat.add_mod]
    by_cases hc : cfg.FFT_SIZE ≤ n + 1 + j
    · rw [if_pos hc]
      have e : (n + 1 + j) % cfg.FFT_SIZE = (n + 1 + j - cfg.FFT_SIZE) % cfg.FFT_SIZE := by
        conv_lhs => rw [show n + 1 + j = (n + 1 + j - cfg.FFT_SIZE) + cfg.FFT_SIZE by omega]
        rw [Nat.add_mod_right]
      rw [e]
      exact k3 _ (by omega) (by omega)
    · rw [if_neg hc, Nat.mod_eq_of_lt (by omega)]
      exact k4 _ (by omega) (by omega)
  · rw [if_neg (by omega), if_neg]
    intro hd
    have := Nat.mod_eq_zero_of_dvd hd
    omega

/-- C25 for FFT size 4 and step size 2 on the stream `1, 2, 3, ...`: the
second sample triggers an analysis step on `[0, 0, 1, 2]`. -/
theorem C25_sliding_window_witness :
    0 < ({ cfg48k with FFT_SIZE := 4, STEP_SIZE := 2 } : DecoderConfig).FFT_SIZE ∧
    0 < ({ cfg48k with FFT_SIZE := 4, STEP_SIZE := 2 } : DecoderConfig).STEP_SIZE ∧
    (feedSample { cfg48k with FFT_SIZE := 4, STEP_SIZE := 2 }
        (windowAfter { cfg48k with FFT_SIZE := 4, STEP_SIZE := 2 } (fun i => (i : ℚ) + 1) 1)
        ((fun i : Nat => (i : ℚ) + 1) 1)).2
      = some [0, 0, 1, 2] :=
  ⟨by decide, by decide,
    (C25_sliding_window { cfg48k with FFT_SIZE := 4, STEP_SIZE := 2 } (fun i => (i : ℚ) + 1)
      (by decide) (by decide) 1).trans (by norm_num [List.range, List.range.loop])⟩

end ChordCast
